import Mathlib

/-!
Shallow embedding of the symbolic automatic-differentiation engine of the
OpenVAF frontend (`src/frontend/src/derivatives/expression_derivatives.rs`)
together with theorems checking the natural-language specification against it.

Modelling conventions:
* MIR arenas are Lean lists; an expression id is the `Nat` index into its arena.
  Pushing returns the previous length, exactly like the arena in the source.
* `f64` literal payloads are opaque tags (`FloatLit`): the engine never computes
  with literal values, it only stores the distinguished constants 0.0, 1.0,
  -1.0, 2.0, ln 2, -ln 2 and log10 e.
* The Rust `unimplemented!("Ditigal")` panic in `visit_port_reference` /
  `visit_net_reference` is modelled by the `Except String` monad: a panic is
  `.error "Ditigal"`, every normal return is `.ok`.
* The recursive traversal is indexed by fuel; `diff (f+1)` performs one visit
  and recurses with fuel `f`.  All theorems about a single visitor rule are
  stated at fuel `f+1` in terms of the recursive results at fuel `f`.
* The derivative-variable table (`Mir::derivative_var`) lives outside `src/`;
  it is modelled from the spec (section 4.C) as a memoised map.
* The `u8` time-derivative order is modelled as `Nat`.
-/

namespace OpenVAF

/-- Source spans are opaque tags copied onto synthesized nodes. -/
abbrev Span := Nat

/-- The dummy span used for placeholder nodes (`DUMMY_SP` in the source). -/
def DUMMY_SP : Span := 0

/-- Payload of a real literal.  The AD engine never evaluates literals, so the
`f64` values are modelled as tags; the named constants are exactly the ones the
engine synthesizes (`0.0`, `1.0`, `-1.0`, `2.0`, `LN_2`, `-1.0 * LN_2`,
`LOG10_E`), and `num n` injects any other input literal. -/
inductive FloatLit
  | zero
  | one
  | negOne
  | two
  | ln2
  | negLn2
  | log10e
  | num (n : Nat)
deriving DecidableEq

/-- `RealBinaryOperator` of the MIR. -/
inductive RealBinaryOperator
  | sum
  | subtract
  | multiply
  | divide
  | power
  | modulus
deriving DecidableEq

/-- `IntegerBinaryOperator` of the MIR. -/
inductive IntegerBinaryOperator
  | sum
  | subtract
  | multiply
  | divide
  | power
  | modulus
  | shiftLeft
  | shiftRight
  | xor
  | nxor
  | and
  | or
  | logicOr
  | logicAnd
deriving DecidableEq

/-- `UnaryOperator` of the AST/MIR. -/
inductive UnaryOperator
  | arithmeticNegate
  | explicitPositive
  | bitNegate
  | logicNegate
deriving DecidableEq

/-- `ComparisonOperator` of the MIR (the differentiator only synthesizes
`LessThen`). -/
inductive ComparisonOperator
  | lessThen
  | lessEqual
  | greaterThen
  | greaterEqual
  | logicEqual
  | logicalNotEqual
deriving DecidableEq

/-- One-argument built-in math functions. -/
inductive BuiltInFunctionCall1p
  | sqrt
  | exp
  | ln
  | log
  | abs
  | floor
  | ceil
  | sin
  | cos
  | tan
  | arcsin
  | arccos
  | arctan
  | sinh
  | cosh
  | tanh
  | arcsinh
  | arccosh
  | arctanh
deriving DecidableEq

/-- Two-argument built-in math functions. -/
inductive BuiltInFunctionCall2p
  | pow
  | hypot
  | arctan2
  | min
  | max
deriving DecidableEq

/-- The differentiation variable (`Unknown` in `crate::derivatives`). -/
inductive Unknown
  | parameter (p : Nat)
  | nodePotential (n : Nat)
  | flow (b : Nat)
  | temperature
  | time
deriving DecidableEq

/-- A branch: a port or an ordered pair of nets (`hir::Branch`). -/
inductive Branch
  | port (p : Nat)
  | nets (hi lo : Nat)
deriving DecidableEq

/-- `hir::DisciplineAccess`. -/
inductive DisciplineAccess
  | potential
  | flow
deriving DecidableEq

/-- An arena element: contents plus source span (`ir::Node`). -/
structure Node (T : Type) where
  contents : T
  span : Span
deriving DecidableEq

/-- `mir::RealExpression`.  Ids are indices: `Nat` fields named after real
sub-expressions index the real arena, `cond`/`arg` of `integerConversion`
index the integer arena, the `name` of `simParam` indexes the string arena. -/
inductive RealExpression
  | literal (v : FloatLit)
  | negate (opSpan : Span) (arg : Nat)
  | binaryOperator (lhs : Nat) (op : Node RealBinaryOperator) (rhs : Nat)
  | builtInFunctionCall1p (call : BuiltInFunctionCall1p) (arg : Nat)
  | builtInFunctionCall2p (call : BuiltInFunctionCall2p) (arg1 arg2 : Nat)
  | condition (cond tval fval : Nat)
  | variableReference (v : Nat)
  | parameterReference (p : Nat)
  | branchAccess (acc : DisciplineAccess) (branch : Nat) (order : Nat)
  | integerConversion (arg : Nat)
  | noise (args : List Nat) (name : Option Nat)
  | temperature
  | simParam (name : Nat) (dflt : Option Nat)
deriving DecidableEq

/-- `mir::IntegerExpression`.  `realComparison` and `realCast` reference the
real arena, `stringEq`/`stringNEq` the string arena; everything else indexes
the integer arena. -/
inductive IntegerExpression
  | literal (v : Int)
  | binaryOperator (lhs : Nat) (op : Node IntegerBinaryOperator) (rhs : Nat)
  | integerComparison (lhs : Nat) (op : Node ComparisonOperator) (rhs : Nat)
  | realComparison (lhs : Nat) (op : Node ComparisonOperator) (rhs : Nat)
  | unaryOperator (op : Node UnaryOperator) (arg : Nat)
  | condition (cond tval fval : Nat)
  | min (arg1 arg2 : Nat)
  | max (arg1 arg2 : Nat)
  | abs (arg : Nat)
  | variableReference (v : Nat)
  | parameterReference (p : Nat)
  | netReference (net : Nat)
  | portReference (port : Nat)
  | portConnected (port : Nat)
  | paramGiven (p : Nat)
  | stringEq (lhs rhs : Nat)
  | stringNEq (lhs rhs : Nat)
  | realCast (arg : Nat)
deriving DecidableEq

/-- The part of a branch record the differentiator reads
(`mir[branch].contents.branch`). -/
structure BranchData where
  branch : Branch
deriving DecidableEq

/-- The MIR: two parallel append-only expression arenas, the string-expression
spans, the branch records, and the derivative-variable table.
The table and `next_var` model component 4.C, whose code lives outside the
given sources. -/
structure Mir where
  real_expressions : List (Node RealExpression)
  integer_expressions : List (Node IntegerExpression)
  string_expressions : List Span
  branches : List (Node BranchData)
  derivative_vars : List ((Nat × Unknown) × Nat)
  next_var : Nat
deriving DecidableEq

/-- `derivatives::error::UndefinedDerivative`. -/
inductive UndefinedDerivative
  | modulus
  | bitWiseOp
  | logicOp
  | comparison
deriving DecidableEq

/-- Hard errors of the sink (`derivatives::error::Error`). -/
inductive DiffError
  | derivativeNotDefined (u : UndefinedDerivative) (sp : Span)
  | onlyNumericExpressionsCanBeDerived (sp : Span)
deriving DecidableEq

/-- Lints dispatched by the engine (`RoundingDerivativeNotFullyDefined`). -/
inductive Lint
  | roundingDerivativeNotFullyDefined (sp : Span)
deriving DecidableEq

/-- The `AutoDiff` state: the MIR plus the diagnostic sink (errors and the
lint channel). -/
structure AutoDiff where
  mir : Mir
  errors : List DiffError
  lints : List Lint
deriving DecidableEq

/-- Default node used by out-of-range reads of the real arena. -/
def dfltR : Node RealExpression := ⟨.literal .zero, DUMMY_SP⟩

/-- Default node used by out-of-range reads of the integer arena. -/
def dfltI : Node IntegerExpression := ⟨.literal 0, DUMMY_SP⟩

/-- Default branch record for out-of-range reads. -/
def dfltB : Node BranchData := ⟨⟨.port 0⟩, DUMMY_SP⟩

/-! ## Generator helpers of `ExpressionAutoDiff`

Each helper takes the current expression's span `sp` explicitly (the Rust
methods read it from `self.current_expr`). -/

/-- `add_to_mir`: push a real node tagged with the current span; returns the
new state and the id of the pushed node (the previous arena length). -/
def AutoDiff.add_to_mir (st : AutoDiff) (sp : Span) (x : RealExpression) :
    AutoDiff × Nat :=
  ({ st with mir :=
      { st.mir with real_expressions := st.mir.real_expressions ++ [⟨x, sp⟩] } },
   st.mir.real_expressions.length)

/-- Push an integer node tagged with the current span. -/
def AutoDiff.add_int_to_mir (st : AutoDiff) (sp : Span) (x : IntegerExpression) :
    AutoDiff × Nat :=
  ({ st with mir :=
      { st.mir with integer_expressions := st.mir.integer_expressions ++ [⟨x, sp⟩] } },
   st.mir.integer_expressions.length)

/-- `gen_constant`. -/
def gen_constant (st : AutoDiff) (sp : Span) (v : FloatLit) : AutoDiff × Nat :=
  st.add_to_mir sp (.literal v)

/-- `gen_int_constant`. -/
def gen_int_constant (st : AutoDiff) (sp : Span) (v : Int) : AutoDiff × Nat :=
  st.add_int_to_mir sp (.literal v)

/-- `gen_neg`: `Negate(current_span, expr)`. -/
def gen_neg (st : AutoDiff) (sp : Span) (e : Nat) : AutoDiff × Nat :=
  st.add_to_mir sp (.negate sp e)

/-- `gen_binary_op`. -/
def gen_binary_op (st : AutoDiff) (sp : Span) (lhs : Nat)
    (op : RealBinaryOperator) (rhs : Nat) : AutoDiff × Nat :=
  st.add_to_mir sp (.binaryOperator lhs ⟨op, sp⟩ rhs)

/-- `gen_math_function`. -/
def gen_math_function (st : AutoDiff) (sp : Span) (call : BuiltInFunctionCall1p)
    (arg : Nat) : AutoDiff × Nat :=
  st.add_to_mir sp (.builtInFunctionCall1p call arg)

/-- `gen_one_plus_minus_squared`: `1 ± arg*arg` (`1` is pushed first, then the
square, then the sum/difference). -/
def gen_one_plus_minus_squared (st : AutoDiff) (sp : Span) (minus : Bool)
    (arg : Nat) : AutoDiff × Nat :=
  let (st, one) := gen_constant st sp .one
  let (st, sq) := gen_binary_op st sp arg .multiply arg
  gen_binary_op st sp one (if minus then .subtract else .sum) sq

/-- `convert_to_paired`: `None` if both arguments are `None`; if exactly one is
`None` it is replaced by a fresh literal `0.0`; the order is preserved. -/
def convert_to_paired (st : AutoDiff) (sp : Span) (arg1 arg2 : Option Nat) :
    AutoDiff × Option (Nat × Nat) :=
  match arg1, arg2 with
  | some a, some b => (st, some (a, b))
  | some a, none => let (st, z) := gen_constant st sp .zero; (st, some (a, z))
  | none, some b => let (st, z) := gen_constant st sp .zero; (st, some (z, b))
  | none, none => (st, none)

/-- `derivative_sum`: the 0-eliding sum of two sub-derivatives. -/
def derivative_sum (st : AutoDiff) (sp : Span) (dlhs drhs : Option Nat) :
    AutoDiff × Option Nat :=
  match dlhs, drhs with
  | some a, some b => let (st, r) := gen_binary_op st sp a .sum b; (st, some r)
  | some a, none => (st, some a)
  | none, some b => (st, some b)
  | none, none => (st, none)

/-- `mul_derivative`: `dlhs*rhs + lhs*drhs` with 0-elision on each factor. -/
def mul_derivative (st : AutoDiff) (sp : Span) (lhs : Nat) (dlhs : Option Nat)
    (rhs : Nat) (drhs : Option Nat) : AutoDiff × Option Nat :=
  let (st, factor1) :=
    match dlhs with
    | some d => let (st, x) := gen_binary_op st sp d .multiply rhs; (st, some x)
    | none => (st, none)
  let (st, factor2) :=
    match drhs with
    | some d => let (st, x) := gen_binary_op st sp lhs .multiply d; (st, some x)
    | none => (st, none)
  derivative_sum st sp factor1 factor2

/-- `quotient_derivative`: `(dlhs*rhs + lhs*(-drhs)) / (rhs*rhs)`; `None` when
the numerator is structurally zero. -/
def quotient_derivative (st : AutoDiff) (sp : Span) (lhs : Nat)
    (dlhs : Option Nat) (rhs : Nat) (drhs : Option Nat) : AutoDiff × Option Nat :=
  let (st, drhs) :=
    match drhs with
    | some d => let (st, n) := gen_neg st sp d; (st, some n)
    | none => (st, none)
  match mul_derivative st sp lhs dlhs rhs drhs with
  | (st, none) => (st, none)
  | (st, some num) =>
    let (st, den) := gen_binary_op st sp rhs .multiply rhs
    let (st, r) := gen_binary_op st sp num .divide den
    (st, some r)

/-- `pow_derivative`: `((rhs/lhs)*dlhs + ln(lhs)*drhs) * original`, `None` when
the 0-eliding sum of the two summands is `None`. -/
def pow_derivative (st : AutoDiff) (sp : Span) (lhs : Nat) (dlhs : Option Nat)
    (rhs : Nat) (drhs : Option Nat) (original : Nat) : AutoDiff × Option Nat :=
  let (st, sum1) :=
    match dlhs with
    | some d =>
      let (st, q) := gen_binary_op st sp rhs .divide lhs
      let (st, m) := gen_binary_op st sp q .multiply d
      (st, some m)
    | none => (st, none)
  let (st, sum2) :=
    match drhs with
    | some d =>
      let (st, l) := gen_math_function st sp .ln lhs
      let (st, m) := gen_binary_op st sp l .multiply d
      (st, some m)
    | none => (st, none)
  match derivative_sum st sp sum1 sum2 with
  | (st, none) => (st, none)
  | (st, some s) =>
    let (st, r) := gen_binary_op st sp s .multiply original
    (st, some r)

/-- `undefined_derivative`: add a `DerivativeNotDefined` error to the sink. -/
def undefined_derivative (st : AutoDiff) (sp : Span) (u : UndefinedDerivative) :
    AutoDiff :=
  { st with errors := st.errors ++ [.derivativeNotDefined u sp] }

/-- `param_derivative`: `1.0` if the unknown is this parameter, else None. -/
def param_derivative (st : AutoDiff) (sp : Span) (u : Unknown) (p : Nat) :
    AutoDiff × Option Nat :=
  if u = .parameter p then
    let (st, r) := gen_constant st sp .one
    (st, some r)
  else (st, none)

/-- `gen_lt_condition` of the real differentiator: push
`RealComparison(arg1, <, arg2)` into the integer arena. -/
def gen_lt_condition_real (st : AutoDiff) (sp : Span) (arg1 arg2 : Nat) :
    AutoDiff × Nat :=
  st.add_int_to_mir sp (.realComparison arg1 ⟨.lessThen, sp⟩ arg2)

/-- `gen_lt_condition` of the integer differentiator: push
`IntegerComparison(arg1, <, arg2)`. -/
def gen_lt_condition_int (st : AutoDiff) (sp : Span) (arg1 arg2 : Nat) :
    AutoDiff × Nat :=
  st.add_int_to_mir sp (.integerComparison arg1 ⟨.lessThen, sp⟩ arg2)

/-- Modelled from the spec: `Mir::derivative_var` (component 4.C, the
derivative-variable table; its code is outside the given sources).  On the
first call for a pair it allocates a fresh variable id and interns it; on
subsequent calls it returns the interned id. -/
def Mir.derivative_var (m : Mir) (v : Nat) (u : Unknown) : Mir × Nat :=
  match m.derivative_vars.find? (fun p => decide (p.1 = (v, u))) with
  | some p => (m, p.2)
  | none =>
    ({ m with
        derivative_vars := m.derivative_vars ++ [((v, u), m.next_var)],
        next_var := m.next_var + 1 },
     m.next_var)

/-- Tail of `visit_condition` (shared by the real and integer differentiators
and by the min/max/abs reductions): pair the two branch derivatives via
`convert_to_paired` and synthesize `Condition(cond, ·, ·)`. -/
def condTail (st : AutoDiff) (sp : Span) (cond : Nat) (dt df : Option Nat) :
    AutoDiff × Option Nat :=
  match convert_to_paired st sp dt df with
  | (st, none) => (st, none)
  | (st, some (x, y)) =>
    let (st, r) := st.add_to_mir sp (.condition cond x y)
    (st, some r)

/-- Tail of `visit_arcsin` after the recursive call: given the inner
derivative, emit `inner / sqrt(1 - f^2)`. -/
def arcsinTail (st : AutoDiff) (sp : Span) (arg inner : Nat) : AutoDiff × Nat :=
  let (st, sa) := gen_one_plus_minus_squared st sp true arg
  let (st, den) := gen_math_function st sp .sqrt sa
  gen_binary_op st sp inner .divide den

/-! ## The differentiator -/

/-- A request to the mutually recursive traversal: differentiate the real or
the integer expression of the given id. -/
inductive DiffArg
  | real (e : Nat)
  | int (e : Nat)
deriving DecidableEq

/-- Result of one differentiator call: the mutated state and `some id` of the
derivative, or `none` for structural zero; `.error` models the Rust panic. -/
abbrev DiffRes := Except String (AutoDiff × Option Nat)

/-- One visit of the real differentiator (`RealExprVisitor` together with
`RealBinaryOperatorVisitor`, `RealBuiltInFunctionCall1pVisitor` and
`RealBuiltInFunctionCall2pVisitor` of the source); `rec` is the recursive
traversal, `e` the id of the node being visited, `nd` the node itself. -/
def realGo (rec : AutoDiff → DiffArg → DiffRes) (st : AutoDiff) (u : Unknown)
    (e : Nat) (nd : Node RealExpression) : DiffRes :=
  let sp := nd.span
  match nd.contents with
  | .literal _ => .ok (st, none)
  | .negate opSpan a =>
    match rec st (.real a) with
    | .error m => .error m
    | .ok (st, none) => .ok (st, none)
    | .ok (st, some d) =>
      let (st, r) := st.add_to_mir sp (.negate opSpan d)
      .ok (st, some r)
  | .binaryOperator lhs op rhs =>
    match op.contents with
    | .sum =>
      match rec st (.real lhs) with
      | .error m => .error m
      | .ok (st, dl) =>
        match rec st (.real rhs) with
        | .error m => .error m
        | .ok (st, dr) => .ok (derivative_sum st sp dl dr)
    | .subtract =>
      match rec st (.real lhs) with
      | .error m => .error m
      | .ok (st, dl) =>
        match rec st (.real rhs) with
        | .error m => .error m
        | .ok (st, dr) =>
          let (st, dr) :=
            match dr with
            | some d => let (st, n) := gen_neg st sp d; (st, some n)
            | none => (st, none)
          .ok (derivative_sum st sp dl dr)
    | .multiply =>
      match rec st (.real lhs) with
      | .error m => .error m
      | .ok (st, dl) =>
        match rec st (.real rhs) with
        | .error m => .error m
        | .ok (st, dr) => .ok (mul_derivative st sp lhs dl rhs dr)
    | .divide =>
      match rec st (.real lhs) with
      | .error m => .error m
      | .ok (st, dl) =>
        match rec st (.real rhs) with
        | .error m => .error m
        | .ok (st, dr) => .ok (quotient_derivative st sp lhs dl rhs dr)
    | .power =>
      match rec st (.real lhs) with
      | .error m => .error m
      | .ok (st, dl) =>
        match rec st (.real rhs) with
        | .error m => .error m
        | .ok (st, dr) => .ok (pow_derivative st sp lhs dl rhs dr e)
    | .modulus => .ok (undefined_derivative st sp .modulus, none)
  | .builtInFunctionCall1p call a =>
    match call with
    | .sqrt =>
      match rec st (.real a) with
      | .error m => .error m
      | .ok (st, none) => .ok (st, none)
      | .ok (st, some inner) =>
        let (st, two) := gen_constant st sp .two
        let (st, num) := gen_binary_op st sp two .multiply e
        let (st, r) := gen_binary_op st sp inner .divide num
        .ok (st, some r)
    | .exp =>
      match rec st (.real a) with
      | .error m => .error m
      | .ok (st, none) => .ok (st, none)
      | .ok (st, some inner) =>
        let (st, r) := gen_binary_op st sp inner .multiply e
        .ok (st, some r)
    | .ln =>
      match rec st (.real a) with
      | .error m => .error m
      | .ok (st, none) => .ok (st, none)
      | .ok (st, some inner) =>
        let (st, r) := gen_binary_op st sp inner .divide a
        .ok (st, some r)
    | .log =>
      match rec st (.real a) with
      | .error m => .error m
      | .ok (st, none) => .ok (st, none)
      | .ok (st, some inner) =>
        let (st, res) := gen_binary_op st sp inner .divide a
        let (st, factor) := gen_constant st sp .log10e
        let (st, r) := gen_binary_op st sp factor .multiply res
        .ok (st, some r)
    | .abs =>
      let (st, z) := gen_constant st sp .zero
      let (st, cond) := gen_lt_condition_real st sp a z
      match rec st (.real a) with
      | .error m => .error m
      | .ok (st, none) => .ok (st, none)
      | .ok (st, some d) =>
        let (st, n) := gen_neg st sp d
        let (st, r) := st.add_to_mir sp (.condition cond n d)
        .ok (st, some r)
    | .floor =>
      .ok ({ st with lints := st.lints ++ [.roundingDerivativeNotFullyDefined sp] },
           none)
    | .ceil =>
      .ok ({ st with lints := st.lints ++ [.roundingDerivativeNotFullyDefined sp] },
           none)
    | .sin =>
      match rec st (.real a) with
      | .error m => .error m
      | .ok (st, none) => .ok (st, none)
      | .ok (st, some inner) =>
        let (st, outer) := gen_math_function st sp .cos a
        let (st, r) := gen_binary_op st sp inner .multiply outer
        .ok (st, some r)
    | .cos =>
      match rec st (.real a) with
      | .error m => .error m
      | .ok (st, none) => .ok (st, none)
      | .ok (st, some inner) =>
        let (st, s) := gen_math_function st sp .sin a
        let (st, outer) := gen_neg st sp s
        let (st, r) := gen_binary_op st sp inner .multiply outer
        .ok (st, some r)
    | .tan =>
      match rec st (.real a) with
      | .error m => .error m
      | .ok (st, none) => .ok (st, none)
      | .ok (st, some inner) =>
        let (st, sq) := gen_binary_op st sp e .multiply e
        let (st, one) := gen_constant st sp .one
        let (st, s) := gen_binary_op st sp one .sum sq
        let (st, r) := gen_binary_op st sp inner .multiply s
        .ok (st, some r)
    | .arcsin =>
      match rec st (.real a) with
      | .error m => .error m
      | .ok (st, none) => .ok (st, none)
      | .ok (st, some inner) =>
        let (st, r) := arcsinTail st sp a inner
        .ok (st, some r)
    | .arccos =>
      match rec st (.real a) with
      | .error m => .error m
      | .ok (st, none) => .ok (st, none)
      | .ok (st, some inner) =>
        let (st, d) := arcsinTail st sp a inner
        let (st, r) := gen_neg st sp d
        .ok (st, some r)
    | .arctan =>
      match rec st (.real a) with
      | .error m => .error m
      | .ok (st, none) => .ok (st, none)
      | .ok (st, some inner) =>
        let (st, den) := gen_one_plus_minus_squared st sp false a
        let (st, r) := gen_binary_op st sp inner .divide den
        .ok (st, some r)
    | .sinh =>
      match rec st (.real a) with
      | .error m => .error m
      | .ok (st, none) => .ok (st, none)
      | .ok (st, some inner) =>
        let (st, outer) := gen_math_function st sp .cosh a
        let (st, r) := gen_binary_op st sp inner .multiply outer
        .ok (st, some r)
    | .cosh =>
      match rec st (.real a) with
      | .error m => .error m
      | .ok (st, none) => .ok (st, none)
      | .ok (st, some inner) =>
        let (st, outer) := gen_math_function st sp .sinh a
        let (st, r) := gen_binary_op st sp inner .multiply outer
        .ok (st, some r)
    | .tanh =>
      match rec st (.real a) with
      | .error m => .error m
      | .ok (st, none) => .ok (st, none)
      | .ok (st, some inner) =>
        let (st, outer) := gen_one_plus_minus_squared st sp true e
        let (st, r) := gen_binary_op st sp inner .multiply outer
        .ok (st, some r)
    | .arcsinh =>
      match rec st (.real a) with
      | .error m => .error m
      | .ok (st, none) => .ok (st, none)
      | .ok (st, some inner) =>
        let (st, sa) := gen_one_plus_minus_squared st sp false a
        let (st, den) := gen_math_function st sp .sqrt sa
        let (st, r) := gen_binary_op st sp inner .divide den
        .ok (st, some r)
    | .arccosh =>
      match rec st (.real a) with
      | .error m => .error m
      | .ok (st, none) => .ok (st, none)
      | .ok (st, some inner) =>
        let (st, msa) := gen_one_plus_minus_squared st sp true a
        let (st, sa) := gen_neg st sp msa
        let (st, den) := gen_math_function st sp .sqrt sa
        let (st, r) := gen_binary_op st sp inner .divide den
        .ok (st, some r)
    | .arctanh =>
      match rec st (.real a) with
      | .error m => .error m
      | .ok (st, none) => .ok (st, none)
      | .ok (st, some inner) =>
        let (st, den) := gen_one_plus_minus_squared st sp true a
        let (st, r) := gen_binary_op st sp inner .divide den
        .ok (st, some r)
  | .builtInFunctionCall2p call a b =>
    match call with
    | .pow =>
      match rec st (.real a) with
      | .error m => .error m
      | .ok (st, da) =>
        match rec st (.real b) with
        | .error m => .error m
        | .ok (st, db) => .ok (pow_derivative st sp a da b db e)
    | .hypot =>
      match rec st (.real a) with
      | .error m => .error m
      | .ok (st, da) =>
        match rec st (.real b) with
        | .error m => .error m
        | .ok (st, db) =>
          match mul_derivative st sp b da a db with
          | (st, none) => .ok (st, none)
          | (st, some num) =>
            let (st, r) := gen_binary_op st sp num .divide e
            .ok (st, some r)
    | .arctan2 =>
      match rec st (.real a) with
      | .error m => .error m
      | .ok (st, da) =>
        match rec st (.real b) with
        | .error m => .error m
        | .ok (st, db) =>
          let (st, db) :=
            match db with
            | some d => let (st, n) := gen_neg st sp d; (st, some n)
            | none => (st, none)
          match mul_derivative st sp a da b db with
          | (st, none) => .ok (st, none)
          | (st, some num) =>
            let (st, s1) := gen_binary_op st sp a .multiply a
            let (st, s2) := gen_binary_op st sp b .multiply b
            let (st, den) := gen_binary_op st sp s1 .sum s2
            let (st, r) := gen_binary_op st sp num .divide den
            .ok (st, some r)
    | .max =>
      let (st, cond) := gen_lt_condition_real st sp b a
      match rec st (.real a) with
      | .error m => .error m
      | .ok (st, da) =>
        match rec st (.real b) with
        | .error m => .error m
        | .ok (st, db) => .ok (condTail st sp cond da db)
    | .min =>
      let (st, cond) := gen_lt_condition_real st sp a b
      match rec st (.real a) with
      | .error m => .error m
      | .ok (st, da) =>
        match rec st (.real b) with
        | .error m => .error m
        | .ok (st, db) => .ok (condTail st sp cond da db)
  | .condition cond tval fval =>
    match rec st (.real tval) with
    | .error m => .error m
    | .ok (st, dt) =>
      match rec st (.real fval) with
      | .error m => .error m
      | .ok (st, df) => .ok (condTail st sp cond dt df)
  | .variableReference v =>
    let (m, dv) := st.mir.derivative_var v u
    let st := { st with mir := m }
    let (st, r) := st.add_to_mir sp (.variableReference dv)
    .ok (st, some r)
  | .parameterReference p => .ok (param_derivative st sp u p)
  | .branchAccess acc branch order =>
    match u with
    | .time =>
      let (st, r) := st.add_to_mir sp (.branchAccess acc branch (order + 1))
      .ok (st, some r)
    | .nodePotential net =>
      match (st.mir.branches.getD branch dfltB).contents.branch with
      | .nets hi lo =>
        if hi = net then
          let (st, r) := gen_constant st sp .one
          .ok (st, some r)
        else if lo = net then
          let (st, r) := gen_constant st sp .negOne
          .ok (st, some r)
        else .ok (st, none)
      | _ => .ok (st, none)
    | .flow unknown =>
      if unknown = branch then
        let (st, r) := gen_constant st sp .one
        .ok (st, some r)
      else .ok (st, none)
    | _ => .ok (st, none)
  | .integerConversion ie => rec st (.int ie)
  | .noise _ _ => .ok (st, none)
  | .temperature =>
    if u = .temperature then
      let (st, r) := gen_constant st sp .one
      .ok (st, some r)
    else .ok (st, none)
  | .simParam _ _ => .ok (st, none)

/-- One visit of the integer differentiator (`IntegerExprVisitor` together
with `IntegerBinaryOperatorVisitor`). -/
def intGo (rec : AutoDiff → DiffArg → DiffRes) (st : AutoDiff) (u : Unknown)
    (e : Nat) (nd : Node IntegerExpression) : DiffRes :=
  let sp := nd.span
  match nd.contents with
  | .literal _ => .ok (st, none)
  | .binaryOperator lhs op rhs =>
    match op.contents with
    | .sum =>
      match rec st (.int lhs) with
      | .error m => .error m
      | .ok (st, dl) =>
        match rec st (.int rhs) with
        | .error m => .error m
        | .ok (st, dr) => .ok (derivative_sum st sp dl dr)
    | .subtract =>
      match rec st (.int lhs) with
      | .error m => .error m
      | .ok (st, dl) =>
        match rec st (.int rhs) with
        | .error m => .error m
        | .ok (st, dr) =>
          let (st, dr) :=
            match dr with
            | some d => let (st, n) := gen_neg st sp d; (st, some n)
            | none => (st, none)
          .ok (derivative_sum st sp dl dr)
    | .multiply =>
      match rec st (.int lhs) with
      | .error m => .error m
      | .ok (st, dl) =>
        match rec st (.int rhs) with
        | .error m => .error m
        | .ok (st, dr) =>
          let (st, lc) := st.add_to_mir sp (.integerConversion lhs)
          let (st, rc) := st.add_to_mir sp (.integerConversion rhs)
          .ok (mul_derivative st sp lc dl rc dr)
    | .divide =>
      match rec st (.int lhs) with
      | .error m => .error m
      | .ok (st, dl) =>
        match rec st (.int rhs) with
        | .error m => .error m
        | .ok (st, dr) =>
          let (st, lc) := st.add_to_mir sp (.integerConversion lhs)
          let (st, rc) := st.add_to_mir sp (.integerConversion rhs)
          .ok (quotient_derivative st sp lc dl rc dr)
    | .power =>
      match rec st (.int lhs) with
      | .error m => .error m
      | .ok (st, dl) =>
        match rec st (.int rhs) with
        | .error m => .error m
        | .ok (st, dr) =>
          let (st, lc) := st.add_to_mir sp (.integerConversion lhs)
          let (st, rc) := st.add_to_mir sp (.integerConversion rhs)
          let (st, original) := st.add_to_mir sp (.integerConversion e)
          .ok (pow_derivative st sp lc dl rc dr original)
    | .modulus => .ok (undefined_derivative st sp .modulus, none)
    | .shiftLeft =>
      match rec st (.int rhs) with
      | .error m => .error m
      | .ok (st, dbOpt) =>
        let (st, product) :=
          match dbOpt with
          | some db =>
            let (st, lc) := st.add_to_mir sp (.integerConversion lhs)
            let (st, c2) := gen_constant st sp .ln2
            let (st, p1) := gen_binary_op st sp c2 .multiply lc
            let (st, p2) := gen_binary_op st sp p1 .multiply db
            (st, some p2)
          | none => (st, none)
        match rec st (.int lhs) with
        | .error m => .error m
        | .ok (st, dl) =>
          match derivative_sum st sp dl product with
          | (st, none) => .ok (st, none)
          | (st, some s) =>
            let (st, ce) := st.add_to_mir sp (.integerConversion e)
            let (st, r) := gen_binary_op st sp s .multiply ce
            .ok (st, some r)
    | .shiftRight =>
      match rec st (.int rhs) with
      | .error m => .error m
      | .ok (st, dbOpt) =>
        let (st, product) :=
          match dbOpt with
          | some db =>
            let (st, lc) := st.add_to_mir sp (.integerConversion lhs)
            let (st, c2) := gen_constant st sp .negLn2
            let (st, p1) := gen_binary_op st sp c2 .multiply lc
            let (st, p2) := gen_binary_op st sp p1 .multiply db
            (st, some p2)
          | none => (st, none)
        match rec st (.int lhs) with
        | .error m => .error m
        | .ok (st, dl) =>
          match derivative_sum st sp dl product with
          | (st, none) => .ok (st, none)
          | (st, some s) =>
            let (st, ce) := st.add_to_mir sp (.integerConversion e)
            let (st, r) := gen_binary_op st sp s .multiply ce
            .ok (st, some r)
    | .xor => .ok (undefined_derivative st sp .bitWiseOp, none)
    | .nxor => .ok (undefined_derivative st sp .bitWiseOp, none)
    | .and => .ok (undefined_derivative st sp .bitWiseOp, none)
    | .or => .ok (undefined_derivative st sp .bitWiseOp, none)
    | .logicAnd => .ok (undefined_derivative st sp .logicOp, none)
    | .logicOr => .ok (undefined_derivative st sp .logicOp, none)
  | .integerComparison _ _ _ => .ok (undefined_derivative st sp .comparison, none)
  | .realComparison _ _ _ => .ok (undefined_derivative st sp .comparison, none)
  | .unaryOperator op a =>
    match op.contents with
    | .arithmeticNegate =>
      match rec st (.int a) with
      | .error m => .error m
      | .ok (st, none) => .ok (st, none)
      | .ok (st, some d) =>
        let (st, r) := gen_neg st sp d
        .ok (st, some r)
    | .explicitPositive => rec st (.int a)
    | .bitNegate => .ok (undefined_derivative st sp .bitWiseOp, none)
    | .logicNegate => .ok (undefined_derivative st sp .logicOp, none)
  | .condition cond tval fval =>
    match rec st (.int tval) with
    | .error m => .error m
    | .ok (st, dt) =>
      match rec st (.int fval) with
      | .error m => .error m
      | .ok (st, df) => .ok (condTail st sp cond dt df)
  | .min a b =>
    let (st, cond) := gen_lt_condition_int st sp a b
    match rec st (.int a) with
    | .error m => .error m
    | .ok (st, da) =>
      match rec st (.int b) with
      | .error m => .error m
      | .ok (st, db) => .ok (condTail st sp cond da db)
  | .max a b =>
    let (st, cond) := gen_lt_condition_int st sp b a
    match rec st (.int a) with
    | .error m => .error m
    | .ok (st, da) =>
      match rec st (.int b) with
      | .error m => .error m
      | .ok (st, db) => .ok (condTail st sp cond da db)
  | .abs a =>
    let (st, z) := gen_int_constant st sp 0
    let (st, cond) := gen_lt_condition_int st sp a z
    match rec st (.int a) with
    | .error m => .error m
    | .ok (st, none) => .ok (st, none)
    | .ok (st, some d) =>
      let (st, n) := gen_neg st sp d
      let (st, r) := st.add_to_mir sp (.condition cond n d)
      .ok (st, some r)
  | .variableReference v =>
    let (m, dv) := st.mir.derivative_var v u
    let st := { st with mir := m }
    let (st, r) := st.add_to_mir sp (.variableReference dv)
    .ok (st, some r)
  | .parameterReference p => .ok (param_derivative st sp u p)
  | .netReference _ => .error "Ditigal"
  | .portReference _ => .error "Ditigal"
  | .portConnected _ => .ok (st, none)
  | .paramGiven _ => .ok (st, none)
  | .stringEq _ _ => .ok (undefined_derivative st sp .comparison, none)
  | .stringNEq _ _ => .ok (undefined_derivative st sp .comparison, none)
  | .realCast re => rec st (.real re)

/-- The fuel-indexed mutually recursive traversal: `diff (f+1)` performs one
visit (reading the node from the current state's arena, exactly like
`visit_real_expr` / `visit_integer_expr`) and recurses with fuel `f`;
`diff 0` is a structural zero. -/
def diff : Nat → AutoDiff → Unknown → DiffArg → DiffRes
  | 0, st, _, _ => .ok (st, none)
  | f + 1, st, u, .real e =>
    realGo (fun st' a => diff f st' u a) st u e
      (st.mir.real_expressions.getD e dfltR)
  | f + 1, st, u, .int e =>
    intGo (fun st' a => diff f st' u a) st u e
      (st.mir.integer_expressions.getD e dfltI)

/-- `mir::ExpressionId`: a tagged reference to a real, integer or string
expression. -/
inductive ExpressionId
  | real (e : Nat)
  | integer (e : Nat)
  | string (e : Nat)
deriving DecidableEq

/-- `AutoDiff::partial_derivative`, the entry point: dispatch on the static
type; a structural-zero result of the differentiator becomes a fresh literal
`0.0`; a string expression adds `OnlyNumericExpressionsCanBeDerived` to the
sink and returns a fresh literal `0.0` with a dummy span. -/
def AutoDiff.deriveBy (fuel : Nat) (st : AutoDiff) (u : Unknown) :
    ExpressionId → Except String (AutoDiff × Nat)
  | .real e =>
    match diff fuel st u (.real e) with
    | .error m => .error m
    | .ok (st, some r) => .ok (st, r)
    | .ok (st, none) =>
      .ok (gen_constant st (st.mir.real_expressions.getD e dfltR).span .zero)
  | .integer e =>
    match diff fuel st u (.int e) with
    | .error m => .error m
    | .ok (st, some r) => .ok (st, r)
    | .ok (st, none) =>
      .ok (gen_constant st (st.mir.integer_expressions.getD e dfltI).span .zero)
  | .string s =>
    let st :=
      { st with errors := st.errors ++
          [DiffError.onlyNumericExpressionsCanBeDerived
            (st.mir.string_expressions.getD s DUMMY_SP)] }
    .ok (st.add_to_mir DUMMY_SP (.literal .zero))

/-- Fuel-indexed full-tree scan: does the expression tree (every child
followed, including positions the differentiator skips) contain an integer
port-reference or net-reference node? -/
def scanPN : Nat → Mir → DiffArg → Bool
  | 0, _, _ => false
  | f + 1, m, .real e =>
    match (m.real_expressions.getD e dfltR).contents with
    | .literal _ => false
    | .negate _ a => scanPN f m (.real a)
    | .binaryOperator l _ r => scanPN f m (.real l) || scanPN f m (.real r)
    | .builtInFunctionCall1p _ a => scanPN f m (.real a)
    | .builtInFunctionCall2p _ a b => scanPN f m (.real a) || scanPN f m (.real b)
    | .condition c t fv =>
      scanPN f m (.int c) || scanPN f m (.real t) || scanPN f m (.real fv)
    | .variableReference _ => false
    | .parameterReference _ => false
    | .branchAccess _ _ _ => false
    | .integerConversion ie => scanPN f m (.int ie)
    | .noise args _ => args.any fun a => scanPN f m (.real a)
    | .temperature => false
    | .simParam _ d => d.any fun a => scanPN f m (.real a)
  | f + 1, m, .int e =>
    match (m.integer_expressions.getD e dfltI).contents with
    | .literal _ => false
    | .binaryOperator l _ r => scanPN f m (.int l) || scanPN f m (.int r)
    | .integerComparison l _ r => scanPN f m (.int l) || scanPN f m (.int r)
    | .realComparison l _ r => scanPN f m (.real l) || scanPN f m (.real r)
    | .unaryOperator _ a => scanPN f m (.int a)
    | .condition c t fv =>
      scanPN f m (.int c) || scanPN f m (.int t) || scanPN f m (.int fv)
    | .min a b => scanPN f m (.int a) || scanPN f m (.int b)
    | .max a b => scanPN f m (.int a) || scanPN f m (.int b)
    | .abs a => scanPN f m (.int a)
    | .variableReference _ => false
    | .parameterReference _ => false
    | .netReference _ => true
    | .portReference _ => true
    | .portConnected _ => false
    | .paramGiven _ => false
    | .stringEq _ _ => false
    | .stringNEq _ _ => false
    | .realCast re => scanPN f m (.real re)

/-! ## Invariant I1 and the append-only frame -/

/-- Real-arena ids referenced by a real node. -/
def RealExpression.rRefs : RealExpression → List Nat
  | .literal _ => []
  | .negate _ a => [a]
  | .binaryOperator l _ r => [l, r]
  | .builtInFunctionCall1p _ a => [a]
  | .builtInFunctionCall2p _ a b => [a, b]
  | .condition _ t f => [t, f]
  | .variableReference _ => []
  | .parameterReference _ => []
  | .branchAccess _ _ _ => []
  | .integerConversion _ => []
  | .noise args _ => args
  | .temperature => []
  | .simParam _ d => d.toList

/-- Integer-arena ids referenced by a real node. -/
def RealExpression.iRefs : RealExpression → List Nat
  | .condition c _ _ => [c]
  | .integerConversion i => [i]
  | _ => []

/-- String-arena ids referenced by a real node. -/
def RealExpression.sRefs : RealExpression → List Nat
  | .simParam n _ => [n]
  | _ => []

/-- Integer-arena ids referenced by an integer node. -/
def IntegerExpression.iRefs : IntegerExpression → List Nat
  | .binaryOperator l _ r => [l, r]
  | .integerComparison l _ r => [l, r]
  | .unaryOperator _ a => [a]
  | .condition c t f => [c, t, f]
  | .min a b => [a, b]
  | .max a b => [a, b]
  | .abs a => [a]
  | _ => []

/-- Real-arena ids referenced by an integer node. -/
def IntegerExpression.rRefs : IntegerExpression → List Nat
  | .realComparison l _ r => [l, r]
  | .realCast re => [re]
  | _ => []

/-- String-arena ids referenced by an integer node. -/
def IntegerExpression.sRefs : IntegerExpression → List Nat
  | .stringEq l r => [l, r]
  | .stringNEq l r => [l, r]
  | _ => []

/-- Number of real nodes. -/
def rlen (st : AutoDiff) : Nat := st.mir.real_expressions.length

/-- Number of integer nodes. -/
def ilen (st : AutoDiff) : Nat := st.mir.integer_expressions.length

/-- Number of string expressions. -/
def slen (st : AutoDiff) : Nat := st.mir.string_expressions.length

/-- Invariant I1: a node references only nodes pushed before it — same-arena
references are strictly below the containing node's own id, cross-arena
references point to existing nodes. -/
def Mir.WF (m : Mir) : Prop :=
  (∀ i, i < m.real_expressions.length →
    (∀ x ∈ (m.real_expressions.getD i dfltR).contents.rRefs, x < i) ∧
    (∀ x ∈ (m.real_expressions.getD i dfltR).contents.iRefs,
        x < m.integer_expressions.length) ∧
    (∀ x ∈ (m.real_expressions.getD i dfltR).contents.sRefs,
        x < m.string_expressions.length)) ∧
  (∀ i, i < m.integer_expressions.length →
    (∀ x ∈ (m.integer_expressions.getD i dfltI).contents.iRefs, x < i) ∧
    (∀ x ∈ (m.integer_expressions.getD i dfltI).contents.rRefs,
        x < m.real_expressions.length) ∧
    (∀ x ∈ (m.integer_expressions.getD i dfltI).contents.sRefs,
        x < m.string_expressions.length))

/-- The append-only frame between two states: both expression arenas of the
second extend those of the first, and the string expressions and branch
records are untouched (no node is mutated or removed). -/
def Grows (st st' : AutoDiff) : Prop :=
  (∃ t, st'.mir.real_expressions = st.mir.real_expressions ++ t) ∧
  (∃ t, st'.mir.integer_expressions = st.mir.integer_expressions ++ t) ∧
  st'.mir.string_expressions = st.mir.string_expressions ∧
  st'.mir.branches = st.mir.branches

/-- All ids possibly held by an optional sub-derivative are below `n`. -/
def OptLt (o : Option Nat) (n : Nat) : Prop := ∀ x, o = some x → x < n

/-- The bundle the preservation induction tracks: append-only frame, and under
I1 also I1 of the result together with validity of the returned id. -/
def DK (st st' : AutoDiff) (r : Option Nat) : Prop :=
  Grows st st' ∧ (st.mir.WF → st'.mir.WF ∧ OptLt r (rlen st'))

/-- A traversal request points at an existing node. -/
def validArg (st : AutoDiff) : DiffArg → Prop
  | .real e => e < rlen st
  | .int e => e < ilen st

/-- Append a batch of real nodes (used to state what a rule leaves in the
arena). -/
def pushesR (st : AutoDiff) (l : List (Node RealExpression)) : AutoDiff :=
  { st with mir := { st.mir with real_expressions := st.mir.real_expressions ++ l } }

/-- Append a batch of integer nodes. -/
def pushesI (st : AutoDiff) (l : List (Node IntegerExpression)) : AutoDiff :=
  { st with mir := { st.mir with integer_expressions := st.mir.integer_expressions ++ l } }

/-- Concrete MIR for C1: `hypot(parameter-ref 0, literal 5)` at real id 2. -/
def exC1 : AutoDiff :=
  ⟨⟨[⟨.parameterReference 0, 10⟩, ⟨.literal (.num 5), 11⟩,
     ⟨.builtInFunctionCall2p .hypot 0 1, 12⟩], [], [], [], [], 0⟩, [], []⟩

/-- State after differentiating the first hypot argument of `exC1`. -/
def exC1a : AutoDiff :=
  ⟨⟨[⟨.parameterReference 0, 10⟩, ⟨.literal (.num 5), 11⟩,
     ⟨.builtInFunctionCall2p .hypot 0 1, 12⟩, ⟨.literal .one, 10⟩], [], [], [], [], 0⟩,
   [], []⟩

/-- Concrete MIR for C2: a FLOW access of branch 0, whose record is
`Nets(7, 3)`. -/
def exC2 : AutoDiff :=
  ⟨⟨[⟨.branchAccess .flow 0 0, 42⟩], [], [], [⟨⟨.nets 7 3⟩, 9⟩], [], 0⟩, [], []⟩

/-- Concrete MIR for C3: `pow(parameter-ref 0, literal 3)` at real id 2. -/
def exC3 : AutoDiff :=
  ⟨⟨[⟨.parameterReference 0, 20⟩, ⟨.literal (.num 3), 21⟩,
     ⟨.binaryOperator 0 ⟨.power, 22⟩ 1, 22⟩], [], [], [], [], 0⟩, [], []⟩

/-- State after differentiating the base of `exC3`. -/
def exC3a : AutoDiff :=
  ⟨⟨[⟨.parameterReference 0, 20⟩, ⟨.literal (.num 3), 21⟩,
     ⟨.binaryOperator 0 ⟨.power, 22⟩ 1, 22⟩, ⟨.literal .one, 20⟩], [], [], [], [], 0⟩,
   [], []⟩

/-- Concrete MIR for C4: a single real literal and a string expression. -/
def exC4 : AutoDiff :=
  ⟨⟨[⟨.literal (.num 3), 7⟩], [], [33], [], [], 0⟩, [], []⟩

/-- Concrete MIR for C5: `condition(c = int 0, t = parameter-ref, e = literal)`
at real id 2. -/
def exC5 : AutoDiff :=
  ⟨⟨[⟨.parameterReference 0, 50⟩, ⟨.literal (.num 9), 51⟩, ⟨.condition 0 0 1, 52⟩],
    [⟨.literal 7, 53⟩], [], [], [], 0⟩, [], []⟩

/-- State after differentiating the true branch of `exC5`. -/
def exC5a : AutoDiff :=
  ⟨⟨[⟨.parameterReference 0, 50⟩, ⟨.literal (.num 9), 51⟩, ⟨.condition 0 0 1, 52⟩,
     ⟨.literal .one, 50⟩],
    [⟨.literal 7, 53⟩], [], [], [], 0⟩, [], []⟩

/-- Concrete MIR for C6: `parameter-ref mod literal` as real id 2. -/
def exC6 : AutoDiff :=
  ⟨⟨[⟨.parameterReference 0, 60⟩, ⟨.literal (.num 2), 61⟩,
     ⟨.binaryOperator 0 ⟨.modulus, 62⟩ 1, 63⟩], [], [], [], [], 0⟩, [], []⟩

/-- Concrete MIR for C7: `param << 3` as integer id 2. -/
def exC7 : AutoDiff :=
  ⟨⟨[], [⟨.parameterReference 0, 90⟩, ⟨.literal 3, 91⟩,
     ⟨.binaryOperator 0 ⟨.shiftLeft, 92⟩ 1, 93⟩], [], [], [], 0⟩, [], []⟩

/-- Concrete MIR for C8: a single parameter-reference node, well-formed. -/
def exC8 : AutoDiff := ⟨⟨[⟨.parameterReference 0, 70⟩], [], [], [], [], 0⟩, [], []⟩

/-- Integer arena with a net-reference hidden in a condition guard:
`cond(net(0), 1, 2)` as id 3. -/
def exC9 : AutoDiff :=
  ⟨⟨[], [⟨.netReference 0, 20⟩, ⟨.literal 1, 21⟩, ⟨.literal 2, 22⟩,
     ⟨.condition 0 1 2, 23⟩], [], [], [], 0⟩, [], []⟩

/-- A one-node well-formed MIR with no port- or net-reference. -/
def exC9w : AutoDiff := ⟨⟨[⟨.literal .one, 30⟩], [], [], [], [], 0⟩, [], []⟩

/-- Concrete MIR for C10: `abs(1.0)` as real id 1. -/
def exC10 : AutoDiff :=
  ⟨⟨[⟨.literal .one, 80⟩, ⟨.builtInFunctionCall1p .abs 0, 81⟩], [], [], [], [], 0⟩,
   [], []⟩

/-- The state after differentiating `abs(1.0)`: derivative `none`, but the
comparison `(1.0 < 0.0)` and its literal-`0.0` operand were appended. -/
def exC10r : AutoDiff :=
  ⟨⟨[⟨.literal .one, 80⟩, ⟨.builtInFunctionCall1p .abs 0, 81⟩, ⟨.literal .zero, 81⟩],
    [⟨.realComparison 0 ⟨.lessThen, 81⟩ 2, 81⟩], [], [], [], 0⟩, [], []⟩

theorem Grows.refl (st : AutoDiff) : Grows st st :=
  ⟨⟨[], (List.append_nil _).symm⟩, ⟨[], (List.append_nil _).symm⟩, rfl, rfl⟩

theorem Grows.trans {s1 s2 s3 : AutoDiff} (h : Grows s1 s2) (h' : Grows s2 s3) :
    Grows s1 s3 := by
  obtain ⟨⟨t1, e1⟩, ⟨t2, e2⟩, e3, e4⟩ := h
  obtain ⟨⟨t1', e1'⟩, ⟨t2', e2'⟩, e3', e4'⟩ := h'
  exact ⟨⟨t1 ++ t1', by rw [e1', e1, List.append_assoc]⟩,
         ⟨t2 ++ t2', by rw [e2', e2, List.append_assoc]⟩,
         e3'.trans e3, e4'.trans e4⟩

theorem Grows.rlen_le {st st' : AutoDiff} (h : Grows st st') : rlen st ≤ rlen st' := by
  obtain ⟨⟨t, e⟩, -, -, -⟩ := h
  simp [rlen, e]

theorem Grows.ilen_le {st st' : AutoDiff} (h : Grows st st') : ilen st ≤ ilen st' := by
  obtain ⟨-, ⟨t, e⟩, -, -⟩ := h
  simp [ilen, e]

theorem Grows.slen_eq {st st' : AutoDiff} (h : Grows st st') : slen st' = slen st := by
  obtain ⟨-, -, e, -⟩ := h
  simp [slen, e]

/-- Reads below the old length are stable under the frame (real arena). -/
theorem Grows.getD_real {st st' : AutoDiff} (h : Grows st st') {i : Nat}
    (hi : i < rlen st) :
    st'.mir.real_expressions.getD i dfltR = st.mir.real_expressions.getD i dfltR := by
  obtain ⟨⟨t, e⟩, -, -, -⟩ := h
  rw [e, List.getD_append _ _ _ _ hi]

/-- Reads below the old length are stable under the frame (integer arena). -/
theorem Grows.getD_int {st st' : AutoDiff} (h : Grows st st') {i : Nat}
    (hi : i < ilen st) :
    st'.mir.integer_expressions.getD i dfltI = st.mir.integer_expressions.getD i dfltI := by
  obtain ⟨-, ⟨t, e⟩, -, -⟩ := h
  rw [e, List.getD_append _ _ _ _ hi]

theorem Grows.branches_eq {st st' : AutoDiff} (h : Grows st st') :
    st'.mir.branches = st.mir.branches := h.2.2.2

theorem getD_snoc_self {α : Type} (l : List α) (x d : α) :
    (l ++ [x]).getD l.length d = x := by
  rw [List.getD_append_right _ _ _ _ (Nat.le_refl _), Nat.sub_self]
  rfl

theorem getD_snoc_lt {α : Type} (l : List α) (x d : α) {i : Nat} (h : i < l.length) :
    (l ++ [x]).getD i d = l.getD i d :=
  List.getD_append _ _ _ _ h

/-- Appending a real node whose references all exist preserves I1. -/
theorem Mir.WF.push_real {m : Mir} (hwf : m.WF) {x : RealExpression} {sp : Span}
    (hr : ∀ y ∈ x.rRefs, y < m.real_expressions.length)
    (hi : ∀ y ∈ x.iRefs, y < m.integer_expressions.length)
    (hs : ∀ y ∈ x.sRefs, y < m.string_expressions.length) :
    Mir.WF { m with real_expressions := m.real_expressions ++ [⟨x, sp⟩] } := by
  constructor
  · intro i hilt
    simp only [List.length_append, List.length_singleton] at hilt
    rcases Nat.lt_or_ge i m.real_expressions.length with hlt | hge
    · refine ⟨?_, ?_, ?_⟩ <;> simp only [getD_snoc_lt _ _ _ hlt]
      · exact (hwf.1 i hlt).1
      · exact (hwf.1 i hlt).2.1
      · exact (hwf.1 i hlt).2.2
    · have hieq : i = m.real_expressions.length := by omega
      subst hieq
      refine ⟨?_, ?_, ?_⟩ <;> simp only [getD_snoc_self]
      · exact hr
      · exact hi
      · exact hs
  · intro i hilt
    refine ⟨(hwf.2 i hilt).1, fun y hy => ?_, (hwf.2 i hilt).2.2⟩
    have := (hwf.2 i hilt).2.1 y hy
    simp only [List.length_append, List.length_singleton]
    omega

/-- Appending an integer node whose references all exist preserves I1. -/
theorem Mir.WF.push_int {m : Mir} (hwf : m.WF) {x : IntegerExpression} {sp : Span}
    (hi : ∀ y ∈ x.iRefs, y < m.integer_expressions.length)
    (hr : ∀ y ∈ x.rRefs, y < m.real_expressions.length)
    (hs : ∀ y ∈ x.sRefs, y < m.string_expressions.length) :
    Mir.WF { m with integer_expressions := m.integer_expressions ++ [⟨x, sp⟩] } := by
  constructor
  · intro i hilt
    refine ⟨(hwf.1 i hilt).1, fun y hy => ?_, (hwf.1 i hilt).2.2⟩
    have := (hwf.1 i hilt).2.1 y hy
    simp only [List.length_append, List.length_singleton]
    omega
  · intro i hilt
    simp only [List.length_append, List.length_singleton] at hilt
    rcases Nat.lt_or_ge i m.integer_expressions.length with hlt | hge
    · refine ⟨?_, ?_, ?_⟩ <;> simp only [getD_snoc_lt _ _ _ hlt]
      · exact (hwf.2 i hlt).1
      · exact (hwf.2 i hlt).2.1
      · exact (hwf.2 i hlt).2.2
    · have hieq : i = m.integer_expressions.length := by omega
      subst hieq
      refine ⟨?_, ?_, ?_⟩ <;> simp only [getD_snoc_self]
      · exact hi
      · exact hr
      · exact hs

/-- Full description of a real-arena push. -/
theorem add_to_mir_keep {st : AutoDiff} {sp : Span} {x : RealExpression}
    {st' : AutoDiff} {j : Nat} (h : st.add_to_mir sp x = (st', j)) :
    st'.mir.real_expressions = st.mir.real_expressions ++ [⟨x, sp⟩] ∧
    st'.mir.integer_expressions = st.mir.integer_expressions ∧
    st'.mir.string_expressions = st.mir.string_expressions ∧
    st'.mir.branches = st.mir.branches ∧
    st'.errors = st.errors ∧ st'.lints = st.lints ∧
    j = rlen st ∧
    (st.mir.WF → (∀ y ∈ x.rRefs, y < rlen st) → (∀ y ∈ x.iRefs, y < ilen st) →
      (∀ y ∈ x.sRefs, y < slen st) → st'.mir.WF) := by
  injection h with h1 h2
  subst h1
  subst h2
  exact ⟨rfl, rfl, rfl, rfl, rfl, rfl, rfl, fun hwf hr hi hs => hwf.push_real hr hi hs⟩

/-- Full description of an integer-arena push. -/
theorem add_int_to_mir_keep {st : AutoDiff} {sp : Span} {x : IntegerExpression}
    {st' : AutoDiff} {j : Nat} (h : st.add_int_to_mir sp x = (st', j)) :
    st'.mir.real_expressions = st.mir.real_expressions ∧
    st'.mir.integer_expressions = st.mir.integer_expressions ++ [⟨x, sp⟩] ∧
    st'.mir.string_expressions = st.mir.string_expressions ∧
    st'.mir.branches = st.mir.branches ∧
    st'.errors = st.errors ∧ st'.lints = st.lints ∧
    j = ilen st ∧
    (st.mir.WF → (∀ y ∈ x.iRefs, y < ilen st) → (∀ y ∈ x.rRefs, y < rlen st) →
      (∀ y ∈ x.sRefs, y < slen st) → st'.mir.WF) := by
  injection h with h1 h2
  subst h1
  subst h2
  exact ⟨rfl, rfl, rfl, rfl, rfl, rfl, rfl, fun hwf hi hr hs => hwf.push_int hi hr hs⟩

/-- A single real push grows the state. -/
theorem grows_of_real_push {st st' : AutoDiff} {sp : Span} {x : RealExpression}
    {j : Nat} (h : st.add_to_mir sp x = (st', j)) : Grows st st' := by
  obtain ⟨hre, hie, hse, hbe, -, -, -, -⟩ := add_to_mir_keep h
  exact ⟨⟨_, hre⟩, ⟨[], by rw [hie, List.append_nil]⟩, hse, hbe⟩

/-- A single integer push grows the state. -/
theorem grows_of_int_push {st st' : AutoDiff} {sp : Span} {x : IntegerExpression}
    {j : Nat} (h : st.add_int_to_mir sp x = (st', j)) : Grows st st' := by
  obtain ⟨hre, hie, hse, hbe, -, -, -, -⟩ := add_int_to_mir_keep h
  exact ⟨⟨[], by rw [hre, List.append_nil]⟩, ⟨_, hie⟩, hse, hbe⟩

theorem rlen_of_real_push {st st' : AutoDiff} {sp : Span} {x : RealExpression}
    {j : Nat} (h : st.add_to_mir sp x = (st', j)) :
    rlen st' = rlen st + 1 ∧ j = rlen st ∧ ilen st' = ilen st := by
  obtain ⟨hre, hie, -, -, -, -, hj, -⟩ := add_to_mir_keep h
  refine ⟨?_, hj, ?_⟩ <;> simp [rlen, ilen, hre, hie]

theorem ilen_of_int_push {st st' : AutoDiff} {sp : Span} {x : IntegerExpression}
    {j : Nat} (h : st.add_int_to_mir sp x = (st', j)) :
    ilen st' = ilen st + 1 ∧ j = ilen st ∧ rlen st' = rlen st := by
  obtain ⟨hre, hie, -, -, -, -, hj, -⟩ := add_int_to_mir_keep h
  refine ⟨?_, hj, ?_⟩ <;> simp [rlen, ilen, hre, hie]

theorem OptLt.mono {o : Option Nat} {n n' : Nat} (h : OptLt o n) (hle : n ≤ n') :
    OptLt o n' := fun x hx => Nat.lt_of_lt_of_le (h x hx) hle

theorem OptLt.none {n : Nat} : OptLt none n := fun x hx => by cases hx

theorem OptLt.some {a n : Nat} (h : a < n) : OptLt (some a) n := by
  intro x hx
  cases hx
  exact h

theorem forall_mem_nil {P : Nat → Prop} : ∀ y ∈ ([] : List Nat), P y := by simp

theorem forall_mem_one {P : Nat → Prop} {a : Nat} (ha : P a) : ∀ y ∈ [a], P y := by
  simp [ha]

theorem forall_mem_two {P : Nat → Prop} {a b : Nat} (ha : P a) (hb : P b) :
    ∀ y ∈ [a, b], P y := by
  intro y hy
  rcases List.mem_cons.mp hy with rfl | hy
  · exact ha
  · rcases List.mem_cons.mp hy with rfl | hy
    · exact hb
    · simp at hy

theorem forall_mem_three {P : Nat → Prop} {a b c : Nat} (ha : P a) (hb : P b)
    (hc : P c) : ∀ y ∈ [a, b, c], P y := by
  intro y hy
  rcases List.mem_cons.mp hy with rfl | hy
  · exact ha
  · exact forall_mem_two hb hc y hy

theorem gen_constant_keep {st st' : AutoDiff} {sp : Span} {v : FloatLit} {j : Nat}
    (h : gen_constant st sp v = (st', j)) :
    Grows st st' ∧ j < rlen st' ∧ rlen st' = rlen st + 1 ∧ ilen st' = ilen st ∧
    (st.mir.WF → st'.mir.WF) := by
  rw [gen_constant] at h
  obtain ⟨l1, l2, l3⟩ := rlen_of_real_push h
  refine ⟨grows_of_real_push h, by omega, l1, l3, fun hwf => ?_⟩
  exact (add_to_mir_keep h).2.2.2.2.2.2.2 hwf (by simp [RealExpression.rRefs])
    (by simp [RealExpression.iRefs]) (by simp [RealExpression.sRefs])

theorem gen_int_constant_keep {st st' : AutoDiff} {sp : Span} {v : Int} {j : Nat}
    (h : gen_int_constant st sp v = (st', j)) :
    Grows st st' ∧ j < ilen st' ∧ ilen st' = ilen st + 1 ∧ rlen st' = rlen st ∧
    (st.mir.WF → st'.mir.WF) := by
  rw [gen_int_constant] at h
  obtain ⟨l1, l2, l3⟩ := ilen_of_int_push h
  refine ⟨grows_of_int_push h, by omega, l1, l3, fun hwf => ?_⟩
  exact (add_int_to_mir_keep h).2.2.2.2.2.2.2 hwf (by simp [IntegerExpression.iRefs])
    (by simp [IntegerExpression.rRefs]) (by simp [IntegerExpression.sRefs])

theorem gen_neg_keep {st st' : AutoDiff} {sp : Span} {a j : Nat}
    (h : gen_neg st sp a = (st', j)) :
    Grows st st' ∧ j < rlen st' ∧ rlen st' = rlen st + 1 ∧ ilen st' = ilen st ∧
    (st.mir.WF → a < rlen st → st'.mir.WF) := by
  rw [gen_neg] at h
  obtain ⟨l1, l2, l3⟩ := rlen_of_real_push h
  refine ⟨grows_of_real_push h, by omega, l1, l3, fun hwf ha => ?_⟩
  exact (add_to_mir_keep h).2.2.2.2.2.2.2 hwf
    (by simp only [RealExpression.rRefs]; exact forall_mem_one ha)
    (by simp [RealExpression.iRefs]) (by simp [RealExpression.sRefs])

theorem gen_binary_op_keep {st st' : AutoDiff} {sp : Span}
    {l r j : Nat} {op : RealBinaryOperator}
    (h : gen_binary_op st sp l op r = (st', j)) :
    Grows st st' ∧ j < rlen st' ∧ rlen st' = rlen st + 1 ∧ ilen st' = ilen st ∧
    j = rlen st ∧
    (st.mir.WF → l < rlen st → r < rlen st → st'.mir.WF) := by
  rw [gen_binary_op] at h
  obtain ⟨l1, l2, l3⟩ := rlen_of_real_push h
  refine ⟨grows_of_real_push h, by omega, l1, l3, l2, fun hwf hl hr => ?_⟩
  exact (add_to_mir_keep h).2.2.2.2.2.2.2 hwf
    (by simp only [RealExpression.rRefs]; exact forall_mem_two hl hr)
    (by simp [RealExpression.iRefs]) (by simp [RealExpression.sRefs])

theorem gen_math_function_keep {st st' : AutoDiff} {sp : Span}
    {call : BuiltInFunctionCall1p} {a j : Nat}
    (h : gen_math_function st sp call a = (st', j)) :
    Grows st st' ∧ j < rlen st' ∧ rlen st' = rlen st + 1 ∧ ilen st' = ilen st ∧
    (st.mir.WF → a < rlen st → st'.mir.WF) := by
  rw [gen_math_function] at h
  obtain ⟨l1, l2, l3⟩ := rlen_of_real_push h
  refine ⟨grows_of_real_push h, by omega, l1, l3, fun hwf ha => ?_⟩
  exact (add_to_mir_keep h).2.2.2.2.2.2.2 hwf
    (by simp only [RealExpression.rRefs]; exact forall_mem_one ha)
    (by simp [RealExpression.iRefs]) (by simp [RealExpression.sRefs])

theorem gen_one_plus_minus_squared_keep {st st' : AutoDiff} {sp : Span}
    {minus : Bool} {a : Nat} {j : Nat}
    (h : gen_one_plus_minus_squared st sp minus a = (st', j)) :
    Grows st st' ∧ j < rlen st' ∧ ilen st' = ilen st ∧
    (st.mir.WF → a < rlen st → st'.mir.WF) := by
  rw [gen_one_plus_minus_squared] at h
  rcases h1 : gen_constant st sp .one with ⟨st1, one⟩
  rw [h1] at h
  dsimp only at h
  rcases h2 : gen_binary_op st1 sp a .multiply a with ⟨st2, sq⟩
  rw [h2] at h
  dsimp only at h
  rw [gen_constant] at h1
  rw [gen_binary_op] at h2
  rw [gen_binary_op] at h
  have g1 := grows_of_real_push h1
  have g2 := grows_of_real_push h2
  have g3 := grows_of_real_push h
  obtain ⟨l1a, l1b, l1c⟩ := rlen_of_real_push h1
  obtain ⟨l2a, l2b, l2c⟩ := rlen_of_real_push h2
  obtain ⟨l3a, l3b, l3c⟩ := rlen_of_real_push h
  refine ⟨(g1.trans g2).trans g3, by omega, by omega, ?_⟩
  intro hwf ha
  have w1 := (add_to_mir_keep h1).2.2.2.2.2.2.2 hwf
    (by simp [RealExpression.rRefs]) (by simp [RealExpression.iRefs])
    (by simp [RealExpression.sRefs])
  have w2 := (add_to_mir_keep h2).2.2.2.2.2.2.2 w1
    (by simp only [RealExpression.rRefs]; exact forall_mem_two (by omega) (by omega))
    (by simp [RealExpression.iRefs]) (by simp [RealExpression.sRefs])
  exact (add_to_mir_keep h).2.2.2.2.2.2.2 w2
    (by simp only [RealExpression.rRefs]; exact forall_mem_two (by omega) (by omega))
    (by simp [RealExpression.iRefs]) (by simp [RealExpression.sRefs])

theorem gen_lt_condition_real_keep {st st' : AutoDiff} {sp : Span} {a b j : Nat}
    (h : gen_lt_condition_real st sp a b = (st', j)) :
    Grows st st' ∧ j < ilen st' ∧ ilen st' = ilen st + 1 ∧ rlen st' = rlen st ∧
    j = ilen st ∧
    (st.mir.WF → a < rlen st → b < rlen st → st'.mir.WF) := by
  rw [gen_lt_condition_real] at h
  obtain ⟨l1, l2, l3⟩ := ilen_of_int_push h
  refine ⟨grows_of_int_push h, by omega, l1, l3, l2, fun hwf ha hb => ?_⟩
  exact (add_int_to_mir_keep h).2.2.2.2.2.2.2 hwf
    (by simp [IntegerExpression.iRefs])
    (by simp only [IntegerExpression.rRefs]; exact forall_mem_two ha hb)
    (by simp [IntegerExpression.sRefs])

theorem gen_lt_condition_int_keep {st st' : AutoDiff} {sp : Span} {a b j : Nat}
    (h : gen_lt_condition_int st sp a b = (st', j)) :
    Grows st st' ∧ j < ilen st' ∧ ilen st' = ilen st + 1 ∧ rlen st' = rlen st ∧
    j = ilen st ∧
    (st.mir.WF → a < ilen st → b < ilen st → st'.mir.WF) := by
  rw [gen_lt_condition_int] at h
  obtain ⟨l1, l2, l3⟩ := ilen_of_int_push h
  refine ⟨grows_of_int_push h, by omega, l1, l3, l2, fun hwf ha hb => ?_⟩
  exact (add_int_to_mir_keep h).2.2.2.2.2.2.2 hwf
    (by simp only [IntegerExpression.iRefs]; exact forall_mem_two ha hb)
    (by simp [IntegerExpression.rRefs])
    (by simp [IntegerExpression.sRefs])

theorem arcsinTail_keep {st st' : AutoDiff} {sp : Span} {a inner j : Nat}
    (h : arcsinTail st sp a inner = (st', j)) :
    Grows st st' ∧ j < rlen st' ∧ ilen st' = ilen st ∧
    (st.mir.WF → a < rlen st → inner < rlen st → st'.mir.WF) := by
  rw [arcsinTail] at h
  rcases h1 : gen_one_plus_minus_squared st sp true a with ⟨st1, sa⟩
  rw [h1] at h
  dsimp only at h
  rcases h2 : gen_math_function st1 sp .sqrt sa with ⟨st2, den⟩
  rw [h2] at h
  dsimp only at h
  obtain ⟨g1, hsa, hil1, hwf1⟩ := gen_one_plus_minus_squared_keep h1
  obtain ⟨g2, hden, hrl2, hil2, hwf2⟩ := gen_math_function_keep h2
  obtain ⟨g3, hj, hrl3, hil3, -, hwf3⟩ := gen_binary_op_keep h
  refine ⟨(g1.trans g2).trans g3, hj, by omega, fun hwf ha hinner => ?_⟩
  have w1 := hwf1 hwf ha
  have w2 := hwf2 w1 hsa
  exact hwf3 w2 (Nat.lt_of_lt_of_le hinner ((g1.trans g2).rlen_le)) (by omega)

theorem convert_to_paired_keep {st st' : AutoDiff} {sp : Span} {d1 d2 : Option Nat}
    {o : Option (Nat × Nat)} (h : convert_to_paired st sp d1 d2 = (st', o)) :
    Grows st st' ∧ ilen st' = ilen st ∧
    (st.mir.WF → OptLt d1 (rlen st) → OptLt d2 (rlen st) →
      st'.mir.WF ∧ ∀ p, o = some p → p.1 < rlen st' ∧ p.2 < rlen st') := by
  cases d1 with
  | some a =>
    cases d2 with
    | some b =>
      rw [convert_to_paired] at h
      injection h with h1 h2
      subst h1
      subst h2
      exact ⟨Grows.refl st, rfl, fun hwf h1 h2 =>
        ⟨hwf, fun p hp => by cases hp; exact ⟨h1 a rfl, h2 b rfl⟩⟩⟩
    | none =>
      rw [convert_to_paired] at h
      rcases h1 : gen_constant st sp .zero with ⟨st1, z⟩
      rw [h1] at h
      dsimp only at h
      injection h with ha hb
      subst ha
      subst hb
      obtain ⟨g1, hz, hrl, hil, hwf1⟩ := gen_constant_keep h1
      exact ⟨g1, hil, fun hwf hd1 hd2 =>
        ⟨hwf1 hwf, fun p hp => by
          cases hp
          exact ⟨Nat.lt_of_lt_of_le (hd1 a rfl) g1.rlen_le, hz⟩⟩⟩
  | none =>
    cases d2 with
    | some b =>
      rw [convert_to_paired] at h
      rcases h1 : gen_constant st sp .zero with ⟨st1, z⟩
      rw [h1] at h
      dsimp only at h
      injection h with ha hb
      subst ha
      subst hb
      obtain ⟨g1, hz, hrl, hil, hwf1⟩ := gen_constant_keep h1
      exact ⟨g1, hil, fun hwf hd1 hd2 =>
        ⟨hwf1 hwf, fun p hp => by
          cases hp
          exact ⟨hz, Nat.lt_of_lt_of_le (hd2 b rfl) g1.rlen_le⟩⟩⟩
    | none =>
      rw [convert_to_paired] at h
      injection h with h1 h2
      subst h1
      subst h2
      exact ⟨Grows.refl st, rfl, fun hwf h1 h2 => ⟨hwf, fun p hp => by cases hp⟩⟩

theorem derivative_sum_keep {st st' : AutoDiff} {sp : Span} {d1 d2 : Option Nat}
    {o : Option Nat} (h : derivative_sum st sp d1 d2 = (st', o)) :
    Grows st st' ∧ ilen st' = ilen st ∧
    (st.mir.WF → OptLt d1 (rlen st) → OptLt d2 (rlen st) →
      st'.mir.WF ∧ OptLt o (rlen st')) := by
  cases d1 with
  | some a =>
    cases d2 with
    | some b =>
      rw [derivative_sum] at h
      rcases h1 : gen_binary_op st sp a .sum b with ⟨st1, r⟩
      rw [h1] at h
      dsimp only at h
      injection h with ha hb
      subst ha
      subst hb
      obtain ⟨g1, hr, hrl, hil, -, hwf1⟩ := gen_binary_op_keep h1
      exact ⟨g1, hil, fun hwf hd1 hd2 =>
        ⟨hwf1 hwf (hd1 a rfl) (hd2 b rfl), OptLt.some hr⟩⟩
    | none =>
      rw [derivative_sum] at h
      injection h with h1 h2
      subst h1
      subst h2
      exact ⟨Grows.refl st, rfl, fun hwf hd1 hd2 =>
        ⟨hwf, OptLt.some (hd1 a rfl)⟩⟩
  | none =>
    cases d2 with
    | some b =>
      rw [derivative_sum] at h
      injection h with h1 h2
      subst h1
      subst h2
      exact ⟨Grows.refl st, rfl, fun hwf hd1 hd2 =>
        ⟨hwf, OptLt.some (hd2 b rfl)⟩⟩
    | none =>
      rw [derivative_sum] at h
      injection h with h1 h2
      subst h1
      subst h2
      exact ⟨Grows.refl st, rfl, fun hwf hd1 hd2 => ⟨hwf, OptLt.none⟩⟩

theorem mul_derivative_keep {st st' : AutoDiff} {sp : Span} {lhs rhs : Nat}
    {dlhs drhs : Option Nat} {o : Option Nat}
    (h : mul_derivative st sp lhs dlhs rhs drhs = (st', o)) :
    Grows st st' ∧ ilen st' = ilen st ∧
    (st.mir.WF → lhs < rlen st → rhs < rlen st → OptLt dlhs (rlen st) →
      OptLt drhs (rlen st) → st'.mir.WF ∧ OptLt o (rlen st')) := by
  rw [mul_derivative.eq_def] at h
  cases dlhs with
  | some d1 =>
    dsimp only at h
    rcases h1 : gen_binary_op st sp d1 .multiply rhs with ⟨st1, f1⟩
    rw [h1] at h
    dsimp only at h
    obtain ⟨g1, hf1, hrl1, hil1, -, hwf1⟩ := gen_binary_op_keep h1
    cases drhs with
    | some d2 =>
      dsimp only at h
      rcases h2 : gen_binary_op st1 sp lhs .multiply d2 with ⟨st2, f2⟩
      rw [h2] at h
      dsimp only at h
      obtain ⟨g2, hf2, hrl2, hil2, -, hwf2⟩ := gen_binary_op_keep h2
      obtain ⟨g3, hil3, hwf3⟩ := derivative_sum_keep h
      refine ⟨(g1.trans g2).trans g3, by omega, fun hwf hl hr hd1 hd2 => ?_⟩
      have w1 := hwf1 hwf (hd1 d1 rfl) hr
      have w2 := hwf2 w1 (by omega) (by have := hd2 d2 rfl; omega)
      exact hwf3 w2 (OptLt.some (by omega)) (OptLt.some hf2)
    | none =>
      dsimp only at h
      obtain ⟨g3, hil3, hwf3⟩ := derivative_sum_keep h
      refine ⟨g1.trans g3, by omega, fun hwf hl hr hd1 hd2 => ?_⟩
      have w1 := hwf1 hwf (hd1 d1 rfl) hr
      exact hwf3 w1 (OptLt.some hf1) OptLt.none
  | none =>
    dsimp only at h
    cases drhs with
    | some d2 =>
      dsimp only at h
      rcases h2 : gen_binary_op st sp lhs .multiply d2 with ⟨st2, f2⟩
      rw [h2] at h
      dsimp only at h
      obtain ⟨g2, hf2, hrl2, hil2, -, hwf2⟩ := gen_binary_op_keep h2
      obtain ⟨g3, hil3, hwf3⟩ := derivative_sum_keep h
      refine ⟨g2.trans g3, by omega, fun hwf hl hr hd1 hd2 => ?_⟩
      have w2 := hwf2 hwf hl (hd2 d2 rfl)
      exact hwf3 w2 OptLt.none (OptLt.some hf2)
    | none =>
      dsimp only at h
      obtain ⟨g3, hil3, hwf3⟩ := derivative_sum_keep h
      exact ⟨g3, hil3, fun hwf hl hr hd1 hd2 => hwf3 hwf OptLt.none OptLt.none⟩

theorem quotient_derivative_keep {st st' : AutoDiff} {sp : Span} {lhs rhs : Nat}
    {dlhs drhs : Option Nat} {o : Option Nat}
    (h : quotient_derivative st sp lhs dlhs rhs drhs = (st', o)) :
    Grows st st' ∧ ilen st' = ilen st ∧
    (st.mir.WF → lhs < rlen st → rhs < rlen st → OptLt dlhs (rlen st) →
      OptLt drhs (rlen st) → st'.mir.WF ∧ OptLt o (rlen st')) := by
  rw [quotient_derivative.eq_def] at h
  cases drhs with
  | some d2 =>
    dsimp only at h
    rcases h1 : gen_neg st sp d2 with ⟨st1, n⟩
    rw [h1] at h
    dsimp only at h
    obtain ⟨g1, hn, hrl1, hil1, hwf1⟩ := gen_neg_keep h1
    rcases h2 : mul_derivative st1 sp lhs dlhs rhs (some n) with ⟨st2, num⟩
    rw [h2] at h
    obtain ⟨g2, hil2, hwf2⟩ := mul_derivative_keep h2
    cases num with
    | none =>
      dsimp only at h
      injection h with ha hb
      subst ha
      subst hb
      refine ⟨g1.trans g2, by omega, fun hwf hl hr hd1 hd2 => ?_⟩
      have w1 := hwf1 hwf (hd2 d2 rfl)
      have w2 := hwf2 w1 (by omega) (by omega) (hd1.mono (by omega)) (OptLt.some hn)
      exact ⟨w2.1, OptLt.none⟩
    | some num =>
      dsimp only at h
      rcases h3 : gen_binary_op st2 sp rhs .multiply rhs with ⟨st3, den⟩
      rw [h3] at h
      dsimp only at h
      rcases h4 : gen_binary_op st3 sp num .divide den with ⟨st4, r⟩
      rw [h4] at h
      dsimp only at h
      injection h with ha hb
      subst ha
      subst hb
      obtain ⟨g3, hden, hrl3, hil3, -, hwf3⟩ := gen_binary_op_keep h3
      obtain ⟨g4, hr, hrl4, hil4, -, hwf4⟩ := gen_binary_op_keep h4
      refine ⟨((g1.trans g2).trans g3).trans g4, by omega, fun hwf hl hr' hd1 hd2 => ?_⟩
      have w1 := hwf1 hwf (hd2 d2 rfl)
      have w2 := hwf2 w1 (by omega) (by omega) (hd1.mono (by omega)) (OptLt.some hn)
      have hnum := w2.2 num rfl
      have w3 := hwf3 w2.1 (by have := g1.trans g2; have := this.rlen_le; omega)
        (by have := (g1.trans g2).rlen_le; omega)
      have w4 := hwf4 w3 (by omega) (by omega)
      exact ⟨w4, OptLt.some hr⟩
  | none =>
    dsimp only at h
    rcases h2 : mul_derivative st sp lhs dlhs rhs none with ⟨st2, num⟩
    rw [h2] at h
    obtain ⟨g2, hil2, hwf2⟩ := mul_derivative_keep h2
    cases num with
    | none =>
      dsimp only at h
      injection h with ha hb
      subst ha
      subst hb
      refine ⟨g2, by omega, fun hwf hl hr hd1 hd2 => ?_⟩
      exact ⟨(hwf2 hwf hl hr hd1 OptLt.none).1, OptLt.none⟩
    | some num =>
      dsimp only at h
      rcases h3 : gen_binary_op st2 sp rhs .multiply rhs with ⟨st3, den⟩
      rw [h3] at h
      dsimp only at h
      rcases h4 : gen_binary_op st3 sp num .divide den with ⟨st4, r⟩
      rw [h4] at h
      dsimp only at h
      injection h with ha hb
      subst ha
      subst hb
      obtain ⟨g3, hden, hrl3, hil3, -, hwf3⟩ := gen_binary_op_keep h3
      obtain ⟨g4, hr, hrl4, hil4, -, hwf4⟩ := gen_binary_op_keep h4
      refine ⟨(g2.trans g3).trans g4, by omega, fun hwf hl hr' hd1 hd2 => ?_⟩
      have w2 := hwf2 hwf hl hr' hd1 OptLt.none
      have hnum := w2.2 num rfl
      have w3 := hwf3 w2.1 (by have := g2.rlen_le; omega) (by have := g2.rlen_le; omega)
      have w4 := hwf4 w3 (by omega) (by omega)
      exact ⟨w4, OptLt.some hr⟩

theorem pow_derivative_keep {st st' : AutoDiff} {sp : Span} {lhs rhs original : Nat}
    {dlhs drhs : Option Nat} {o : Option Nat}
    (h : pow_derivative st sp lhs dlhs rhs drhs original = (st', o)) :
    Grows st st' ∧ ilen st' = ilen st ∧
    (st.mir.WF → lhs < rlen st → rhs < rlen st → original < rlen st →
      OptLt dlhs (rlen st) → OptLt drhs (rlen st) →
      st'.mir.WF ∧ OptLt o (rlen st')) := by
  rw [pow_derivative.eq_def] at h
  cases dlhs with
  | some d1 =>
    dsimp only at h
    rcases h1 : gen_binary_op st sp rhs .divide lhs with ⟨st1, q⟩
    rw [h1] at h
    dsimp only at h
    rcases h2 : gen_binary_op st1 sp q .multiply d1 with ⟨st2, m1⟩
    rw [h2] at h
    dsimp only at h
    obtain ⟨g1, hq, hrl1, hil1, -, hwf1⟩ := gen_binary_op_keep h1
    obtain ⟨g2, hm1, hrl2, hil2, -, hwf2⟩ := gen_binary_op_keep h2
    cases drhs with
    | some d2 =>
      dsimp only at h
      rcases h3 : gen_math_function st2 sp .ln lhs with ⟨st3, lnid⟩
      rw [h3] at h
      dsimp only at h
      rcases h4 : gen_binary_op st3 sp lnid .multiply d2 with ⟨st4, m2⟩
      rw [h4] at h
      dsimp only at h
      obtain ⟨g3, hln, hrl3, hil3, hwf3⟩ := gen_math_function_keep h3
      obtain ⟨g4, hm2, hrl4, hil4, -, hwf4⟩ := gen_binary_op_keep h4
      rcases h5 : derivative_sum st4 sp (some m1) (some m2) with ⟨st5, s⟩
      rw [h5] at h
      obtain ⟨g5, hil5, hwf5⟩ := derivative_sum_keep h5
      cases s with
      | none =>
        dsimp only at h
        injection h with ha hb
        subst ha
        subst hb
        refine ⟨(((g1.trans g2).trans g3).trans g4).trans g5, by omega,
          fun hwf hl hr ho hd1 hd2 => ?_⟩
        have w1 := hwf1 hwf hr hl
        have w2 := hwf2 w1 (by omega) (by have := hd1 d1 rfl; omega)
        have w3 := hwf3 w2 (by omega)
        have w4 := hwf4 w3 (by omega) (by have := hd2 d2 rfl; omega)
        exact ⟨(hwf5 w4 (OptLt.some (by omega)) (OptLt.some hm2)).1, OptLt.none⟩
      | some s =>
        dsimp only at h
        rcases h6 : gen_binary_op st5 sp s .multiply original with ⟨st6, r⟩
        rw [h6] at h
        dsimp only at h
        injection h with ha hb
        subst ha
        subst hb
        obtain ⟨g6, hrr, hrl6, hil6, -, hwf6⟩ := gen_binary_op_keep h6
        refine ⟨((((g1.trans g2).trans g3).trans g4).trans g5).trans g6, by omega,
          fun hwf hl hr ho hd1 hd2 => ?_⟩
        have w1 := hwf1 hwf hr hl
        have w2 := hwf2 w1 (by omega) (by have := hd1 d1 rfl; omega)
        have w3 := hwf3 w2 (by omega)
        have w4 := hwf4 w3 (by omega) (by have := hd2 d2 rfl; omega)
        have w5 := hwf5 w4 (OptLt.some (by omega)) (OptLt.some hm2)
        have hs := w5.2 s rfl
        have w6 := hwf6 w5.1 hs
          (by have := ((((g1.trans g2).trans g3).trans g4).trans g5).rlen_le; omega)
        exact ⟨w6, OptLt.some hrr⟩
    | none =>
      dsimp only at h
      rcases h5 : derivative_sum st2 sp (some m1) none with ⟨st5, s⟩
      rw [h5] at h
      obtain ⟨g5, hil5, hwf5⟩ := derivative_sum_keep h5
      cases s with
      | none =>
        dsimp only at h
        injection h with ha hb
        subst ha
        subst hb
        refine ⟨(g1.trans g2).trans g5, by omega, fun hwf hl hr ho hd1 hd2 => ?_⟩
        have w1 := hwf1 hwf hr hl
        have w2 := hwf2 w1 (by omega) (by have := hd1 d1 rfl; omega)
        exact ⟨(hwf5 w2 (OptLt.some hm1) OptLt.none).1, OptLt.none⟩
      | some s =>
        dsimp only at h
        rcases h6 : gen_binary_op st5 sp s .multiply original with ⟨st6, r⟩
        rw [h6] at h
        dsimp only at h
        injection h with ha hb
        subst ha
        subst hb
        obtain ⟨g6, hrr, hrl6, hil6, -, hwf6⟩ := gen_binary_op_keep h6
        refine ⟨((g1.trans g2).trans g5).trans g6, by omega,
          fun hwf hl hr ho hd1 hd2 => ?_⟩
        have w1 := hwf1 hwf hr hl
        have w2 := hwf2 w1 (by omega) (by have := hd1 d1 rfl; omega)
        have w5 := hwf5 w2 (OptLt.some hm1) OptLt.none
        have hs := w5.2 s rfl
        have w6 := hwf6 w5.1 hs
          (by have := ((g1.trans g2).trans g5).rlen_le; omega)
        exact ⟨w6, OptLt.some hrr⟩
  | none =>
    dsimp only at h
    cases drhs with
    | some d2 =>
      dsimp only at h
      rcases h3 : gen_math_function st sp .ln lhs with ⟨st3, lnid⟩
      rw [h3] at h
      dsimp only at h
      rcases h4 : gen_binary_op st3 sp lnid .multiply d2 with ⟨st4, m2⟩
      rw [h4] at h
      dsimp only at h
      obtain ⟨g3, hln, hrl3, hil3, hwf3⟩ := gen_math_function_keep h3
      obtain ⟨g4, hm2, hrl4, hil4, -, hwf4⟩ := gen_binary_op_keep h4
      rcases h5 : derivative_sum st4 sp none (some m2) with ⟨st5, s⟩
      rw [h5] at h
      obtain ⟨g5, hil5, hwf5⟩ := derivative_sum_keep h5
      cases s with
      | none =>
        dsimp only at h
        injection h with ha hb
        subst ha
        subst hb
        refine ⟨(g3.trans g4).trans g5, by omega, fun hwf hl hr ho hd1 hd2 => ?_⟩
        have w3 := hwf3 hwf hl
        have w4 := hwf4 w3 (by omega) (by have := hd2 d2 rfl; omega)
        exact ⟨(hwf5 w4 OptLt.none (OptLt.some hm2)).1, OptLt.none⟩
      | some s =>
        dsimp only at h
        rcases h6 : gen_binary_op st5 sp s .multiply original with ⟨st6, r⟩
        rw [h6] at h
        dsimp only at h
        injection h with ha hb
        subst ha
        subst hb
        obtain ⟨g6, hrr, hrl6, hil6, -, hwf6⟩ := gen_binary_op_keep h6
        refine ⟨((g3.trans g4).trans g5).trans g6, by omega,
          fun hwf hl hr ho hd1 hd2 => ?_⟩
        have w3 := hwf3 hwf hl
        have w4 := hwf4 w3 (by omega) (by have := hd2 d2 rfl; omega)
        have w5 := hwf5 w4 OptLt.none (OptLt.some hm2)
        have hs := w5.2 s rfl
        have w6 := hwf6 w5.1 hs
          (by have := ((g3.trans g4).trans g5).rlen_le; omega)
        exact ⟨w6, OptLt.some hrr⟩
    | none =>
      dsimp only at h
      rcases h5 : derivative_sum st sp none none with ⟨st5, s⟩
      rw [h5] at h
      obtain ⟨g5, hil5, hwf5⟩ := derivative_sum_keep h5
      cases s with
      | none =>
        dsimp only at h
        injection h with ha hb
        subst ha
        subst hb
        exact ⟨g5, by omega, fun hwf hl hr ho hd1 hd2 =>
          ⟨(hwf5 hwf OptLt.none OptLt.none).1, OptLt.none⟩⟩
      | some s =>
        dsimp only at h
        rcases h6 : gen_binary_op st5 sp s .multiply original with ⟨st6, r⟩
        rw [h6] at h
        dsimp only at h
        injection h with ha hb
        subst ha
        subst hb
        obtain ⟨g6, hrr, hrl6, hil6, -, hwf6⟩ := gen_binary_op_keep h6
        refine ⟨g5.trans g6, by omega, fun hwf hl hr ho hd1 hd2 => ?_⟩
        have w5 := hwf5 hwf OptLt.none OptLt.none
        have hs := w5.2 s rfl
        have w6 := hwf6 w5.1 hs (by have := g5.rlen_le; omega)
        exact ⟨w6, OptLt.some hrr⟩

theorem condTail_keep {st st' : AutoDiff} {sp : Span} {cond : Nat}
    {dt df : Option Nat} {o : Option Nat}
    (h : condTail st sp cond dt df = (st', o)) :
    Grows st st' ∧ ilen st' = ilen st ∧
    (st.mir.WF → cond < ilen st → OptLt dt (rlen st) → OptLt df (rlen st) →
      st'.mir.WF ∧ OptLt o (rlen st')) := by
  rw [condTail] at h
  rcases h1 : convert_to_paired st sp dt df with ⟨st1, p⟩
  rw [h1] at h
  obtain ⟨g1, hil1, hwf1⟩ := convert_to_paired_keep h1
  cases p with
  | none =>
    dsimp only at h
    injection h with ha hb
    subst ha
    subst hb
    exact ⟨g1, hil1, fun hwf hc h1' h2' => ⟨(hwf1 hwf h1' h2').1, OptLt.none⟩⟩
  | some p =>
    dsimp only at h
    rcases h2 : st1.add_to_mir sp (.condition cond p.1 p.2) with ⟨st2, r⟩
    rw [h2] at h
    dsimp only at h
    injection h with ha hb
    subst ha
    subst hb
    have g2 := grows_of_real_push h2
    obtain ⟨hrl2, hr2, hil2⟩ := rlen_of_real_push h2
    refine ⟨g1.trans g2, by omega, fun hwf hc h1' h2' => ?_⟩
    obtain ⟨w1, hp⟩ := hwf1 hwf h1' h2'
    obtain ⟨hp1, hp2⟩ := hp p rfl
    refine ⟨(add_to_mir_keep h2).2.2.2.2.2.2.2 w1 ?_ ?_ ?_, OptLt.some (by omega)⟩
    · simp only [RealExpression.rRefs]
      exact forall_mem_two hp1 hp2
    · simp only [RealExpression.iRefs]
      exact forall_mem_one (by omega)
    · simp [RealExpression.sRefs]

theorem param_derivative_keep {st st' : AutoDiff} {sp : Span} {u : Unknown}
    {p : Nat} {o : Option Nat} (h : param_derivative st sp u p = (st', o)) :
    Grows st st' ∧ ilen st' = ilen st ∧
    (st.mir.WF → st'.mir.WF ∧ OptLt o (rlen st')) := by
  rw [param_derivative] at h
  by_cases hu : u = .parameter p
  · rw [if_pos hu] at h
    rcases h1 : gen_constant st sp .one with ⟨st1, r⟩
    rw [h1] at h
    dsimp only at h
    injection h with ha hb
    subst ha
    subst hb
    obtain ⟨g1, hr, hrl, hil, hwf1⟩ := gen_constant_keep h1
    exact ⟨g1, hil, fun hwf => ⟨hwf1 hwf, OptLt.some hr⟩⟩
  · rw [if_neg hu] at h
    injection h with ha hb
    subst ha
    subst hb
    exact ⟨Grows.refl st, rfl, fun hwf => ⟨hwf, OptLt.none⟩⟩

/-- `derivative_var` never touches the expression arenas, the strings or the
branches. -/
theorem derivative_var_arenas {m m' : Mir} {v dv : Nat} {u : Unknown}
    (h : m.derivative_var v u = (m', dv)) :
    m'.real_expressions = m.real_expressions ∧
    m'.integer_expressions = m.integer_expressions ∧
    m'.string_expressions = m.string_expressions ∧
    m'.branches = m.branches := by
  rw [Mir.derivative_var] at h
  rcases hf : m.derivative_vars.find? (fun p => decide (p.1 = (v, u))) with - | p <;>
    rw [hf] at h <;> dsimp only at h <;> injection h with ha hb <;> subst ha <;>
    exact ⟨rfl, rfl, rfl, rfl⟩

/-- I1 only depends on the arenas, so `derivative_var` preserves it. -/
theorem derivative_var_wf {m m' : Mir} {v dv : Nat} {u : Unknown}
    (h : m.derivative_var v u = (m', dv)) (hwf : m.WF) : m'.WF := by
  obtain ⟨h1, h2, h3, h4⟩ := derivative_var_arenas h
  rw [Mir.WF, h1, h2, h3]
  exact hwf

theorem grows_of_arenas {st st' : AutoDiff}
    (h1 : st'.mir.real_expressions = st.mir.real_expressions)
    (h2 : st'.mir.integer_expressions = st.mir.integer_expressions)
    (h3 : st'.mir.string_expressions = st.mir.string_expressions)
    (h4 : st'.mir.branches = st.mir.branches) : Grows st st' :=
  ⟨⟨[], by rw [h1, List.append_nil]⟩, ⟨[], by rw [h2, List.append_nil]⟩, h3, h4⟩

theorem wf_of_arenas {m m' : Mir}
    (h1 : m'.real_expressions = m.real_expressions)
    (h2 : m'.integer_expressions = m.integer_expressions)
    (h3 : m'.string_expressions = m.string_expressions)
    (hwf : m.WF) : m'.WF := by
  rw [Mir.WF, h1, h2, h3]
  exact hwf

/-- Reading a non-literal node implies the id is in range (the out-of-range
default is a literal), real arena. -/
theorem lt_rlen_of_shape {st : AutoDiff} {e : Nat} {ndc : RealExpression}
    {sp : Span} (hnd : st.mir.real_expressions.getD e dfltR = ⟨ndc, sp⟩)
    (hne : ∀ v, ndc ≠ .literal v) : e < rlen st := by
  by_contra hc
  rw [List.getD_eq_default _ _ (Nat.le_of_not_lt hc)] at hnd
  rw [dfltR] at hnd
  injection hnd with h1 h2
  exact hne .zero h1.symm

/-- Reading a non-literal node implies the id is in range, integer arena. -/
theorem lt_ilen_of_shape {st : AutoDiff} {e : Nat} {ndc : IntegerExpression}
    {sp : Span} (hnd : st.mir.integer_expressions.getD e dfltI = ⟨ndc, sp⟩)
    (hne : ∀ v, ndc ≠ .literal v) : e < ilen st := by
  by_contra hc
  rw [List.getD_eq_default _ _ (Nat.le_of_not_lt hc)] at hnd
  rw [dfltI] at hnd
  injection hnd with h1 h2
  exact hne 0 h1.symm

/-- One real visit preserves the frame and I1, provided the recursive calls
do. -/
theorem realGo_keep (rec : AutoDiff → DiffArg → DiffRes)
    (hrec : ∀ s a s2 r2, rec s a = .ok (s2, r2) → DK s s2 r2)
    {st : AutoDiff} {u : Unknown} {e : Nat} {nd : Node RealExpression}
    (hnd : st.mir.real_expressions.getD e dfltR = nd)
    {st' : AutoDiff} {r : Option Nat}
    (h : realGo rec st u e nd = .ok (st', r)) : DK st st' r := by
  obtain ⟨ndc, sp⟩ := nd
  cases ndc with
  | literal v =>
    simp only [realGo] at h
    injection h with h1
    injection h1 with ha hb
    subst ha
    subst hb
    exact ⟨Grows.refl st, fun hwf => ⟨hwf, OptLt.none⟩⟩
  | negate opSpan a =>
    simp only [realGo] at h
    rcases hra : rec st (.real a) with m | ⟨st1, da⟩
    · rw [hra] at h
      dsimp only at h
      exact Except.noConfusion h
    · rw [hra] at h
      obtain ⟨g1, w1⟩ := hrec _ _ _ _ hra
      cases da with
      | none =>
        dsimp only at h
        injection h with h1
        injection h1 with ha hb
        subst ha
        subst hb
        exact ⟨g1, fun hwf => ⟨(w1 hwf).1, OptLt.none⟩⟩
      | some d =>
        dsimp only at h
        rcases h2 : st1.add_to_mir sp (.negate opSpan d) with ⟨st2, rr⟩
        rw [h2] at h
        dsimp only at h
        injection h with h1
        injection h1 with ha hb
        subst ha
        subst hb
        have g2 := grows_of_real_push h2
        obtain ⟨hrl2, hrr, hil2⟩ := rlen_of_real_push h2
        refine ⟨g1.trans g2, fun hwf => ?_⟩
        obtain ⟨wf1, hda⟩ := w1 hwf
        have hd := hda d rfl
        refine ⟨(add_to_mir_keep h2).2.2.2.2.2.2.2 wf1 ?_ ?_ ?_, OptLt.some (by omega)⟩
        · simp only [RealExpression.rRefs]
          exact forall_mem_one hd
        · simp [RealExpression.iRefs]
        · simp [RealExpression.sRefs]
  | binaryOperator lhs op rhs =>
    obtain ⟨opc, opsp⟩ := op
    have hne : ∀ v, RealExpression.binaryOperator lhs ⟨opc, opsp⟩ rhs ≠ .literal v :=
      fun v hv => RealExpression.noConfusion hv
    cases opc with
    | sum =>
      simp only [realGo] at h
      rcases hra : rec st (.real lhs) with m | ⟨st1, dl⟩
      · rw [hra] at h
        dsimp only at h
        exact Except.noConfusion h
      · rw [hra] at h
        dsimp only at h
        rcases hrb : rec st1 (.real rhs) with m | ⟨st2, dr⟩
        · rw [hrb] at h
          dsimp only at h
          exact Except.noConfusion h
        · rw [hrb] at h
          dsimp only at h
          rcases hds : derivative_sum st2 sp dl dr with ⟨st3, o3⟩
          rw [hds] at h
          injection h with h1
          injection h1 with ha hb
          subst ha
          subst hb
          obtain ⟨g1, w1⟩ := hrec _ _ _ _ hra
          obtain ⟨g2, w2⟩ := hrec _ _ _ _ hrb
          obtain ⟨g3, hil3, w3⟩ := derivative_sum_keep hds
          refine ⟨(g1.trans g2).trans g3, fun hwf => ?_⟩
          obtain ⟨wf1, hdl⟩ := w1 hwf
          obtain ⟨wf2, hdr⟩ := w2 wf1
          exact w3 wf2 (hdl.mono g2.rlen_le) hdr
    | subtract =>
      simp only [realGo] at h
      rcases hra : rec st (.real lhs) with m | ⟨st1, dl⟩
      · rw [hra] at h
        dsimp only at h
        exact Except.noConfusion h
      · rw [hra] at h
        dsimp only at h
        rcases hrb : rec st1 (.real rhs) with m | ⟨st2, dr⟩
        · rw [hrb] at h
          dsimp only at h
          exact Except.noConfusion h
        · rw [hrb] at h
          obtain ⟨g1, w1⟩ := hrec _ _ _ _ hra
          obtain ⟨g2, w2⟩ := hrec _ _ _ _ hrb
          cases dr with
          | none =>
            dsimp only at h
            rcases hds : derivative_sum st2 sp dl none with ⟨st3, o3⟩
            rw [hds] at h
            injection h with h1
            injection h1 with ha hb
            subst ha
            subst hb
            obtain ⟨g3, hil3, w3⟩ := derivative_sum_keep hds
            refine ⟨(g1.trans g2).trans g3, fun hwf => ?_⟩
            obtain ⟨wf1, hdl⟩ := w1 hwf
            obtain ⟨wf2, -⟩ := w2 wf1
            exact w3 wf2 (hdl.mono g2.rlen_le) OptLt.none
          | some d =>
            dsimp only at h
            rcases hn : gen_neg st2 sp d with ⟨st3, n⟩
            rw [hn] at h
            dsimp only at h
            rcases hds : derivative_sum st3 sp dl (some n) with ⟨st4, o4⟩
            rw [hds] at h
            injection h with h1
            injection h1 with ha hb
            subst ha
            subst hb
            obtain ⟨g3, hn', hrl3, hil3, w3⟩ := gen_neg_keep hn
            obtain ⟨g4, hil4, w4⟩ := derivative_sum_keep hds
            refine ⟨((g1.trans g2).trans g3).trans g4, fun hwf => ?_⟩
            obtain ⟨wf1, hdl⟩ := w1 hwf
            obtain ⟨wf2, hdr⟩ := w2 wf1
            have wf3 := w3 wf2 (hdr d rfl)
            exact w4 wf3 (hdl.mono (g2.trans g3).rlen_le) (OptLt.some hn')
    | multiply =>
      simp only [realGo] at h
      rcases hra : rec st (.real lhs) with m | ⟨st1, dl⟩
      · rw [hra] at h
        dsimp only at h
        exact Except.noConfusion h
      · rw [hra] at h
        dsimp only at h
        rcases hrb : rec st1 (.real rhs) with m | ⟨st2, dr⟩
        · rw [hrb] at h
          dsimp only at h
          exact Except.noConfusion h
        · rw [hrb] at h
          dsimp only at h
          rcases hmd : mul_derivative st2 sp lhs dl rhs dr with ⟨st3, o3⟩
          rw [hmd] at h
          injection h with h1
          injection h1 with ha hb
          subst ha
          subst hb
          obtain ⟨g1, w1⟩ := hrec _ _ _ _ hra
          obtain ⟨g2, w2⟩ := hrec _ _ _ _ hrb
          obtain ⟨g3, hil3, w3⟩ := mul_derivative_keep hmd
          refine ⟨(g1.trans g2).trans g3, fun hwf => ?_⟩
          have he := lt_rlen_of_shape hnd hne
          have hch : ∀ x ∈ (RealExpression.binaryOperator lhs ⟨.multiply, opsp⟩ rhs).rRefs, x < e := by
            have hx := (hwf.1 e he).1
            rw [hnd] at hx
            exact hx
          have hl : lhs < rlen st := Nat.lt_trans (hch lhs (by simp [RealExpression.rRefs])) he
          have hr : rhs < rlen st := Nat.lt_trans (hch rhs (by simp [RealExpression.rRefs])) he
          obtain ⟨wf1, hdl⟩ := w1 hwf
          obtain ⟨wf2, hdr⟩ := w2 wf1
          have hg12 := (g1.trans g2).rlen_le
          exact w3 wf2 (by omega) (by omega) (hdl.mono g2.rlen_le) hdr
    | divide =>
      simp only [realGo] at h
      rcases hra : rec st (.real lhs) with m | ⟨st1, dl⟩
      · rw [hra] at h
        dsimp only at h
        exact Except.noConfusion h
      · rw [hra] at h
        dsimp only at h
        rcases hrb : rec st1 (.real rhs) with m | ⟨st2, dr⟩
        · rw [hrb] at h
          dsimp only at h
          exact Except.noConfusion h
        · rw [hrb] at h
          dsimp only at h
          rcases hqd : quotient_derivative st2 sp lhs dl rhs dr with ⟨st3, o3⟩
          rw [hqd] at h
          injection h with h1
          injection h1 with ha hb
          subst ha
          subst hb
          obtain ⟨g1, w1⟩ := hrec _ _ _ _ hra
          obtain ⟨g2, w2⟩ := hrec _ _ _ _ hrb
          obtain ⟨g3, hil3, w3⟩ := quotient_derivative_keep hqd
          refine ⟨(g1.trans g2).trans g3, fun hwf => ?_⟩
          have he := lt_rlen_of_shape hnd hne
          have hch : ∀ x ∈ (RealExpression.binaryOperator lhs ⟨.divide, opsp⟩ rhs).rRefs, x < e := by
            have hx := (hwf.1 e he).1
            rw [hnd] at hx
            exact hx
          have hl : lhs < rlen st := Nat.lt_trans (hch lhs (by simp [RealExpression.rRefs])) he
          have hr : rhs < rlen st := Nat.lt_trans (hch rhs (by simp [RealExpression.rRefs])) he
          obtain ⟨wf1, hdl⟩ := w1 hwf
          obtain ⟨wf2, hdr⟩ := w2 wf1
          have hg12 := (g1.trans g2).rlen_le
          exact w3 wf2 (by omega) (by omega) (hdl.mono g2.rlen_le) hdr
    | power =>
      simp only [realGo] at h
      rcases hra : rec st (.real lhs) with m | ⟨st1, dl⟩
      · rw [hra] at h
        dsimp only at h
        exact Except.noConfusion h
      · rw [hra] at h
        dsimp only at h
        rcases hrb : rec st1 (.real rhs) with m | ⟨st2, dr⟩
        · rw [hrb] at h
          dsimp only at h
          exact Except.noConfusion h
        · rw [hrb] at h
          dsimp only at h
          rcases hpd : pow_derivative st2 sp lhs dl rhs dr e with ⟨st3, o3⟩
          rw [hpd] at h
          injection h with h1
          injection h1 with ha hb
          subst ha
          subst hb
          obtain ⟨g1, w1⟩ := hrec _ _ _ _ hra
          obtain ⟨g2, w2⟩ := hrec _ _ _ _ hrb
          obtain ⟨g3, hil3, w3⟩ := pow_derivative_keep hpd
          refine ⟨(g1.trans g2).trans g3, fun hwf => ?_⟩
          have he := lt_rlen_of_shape hnd hne
          have hch : ∀ x ∈ (RealExpression.binaryOperator lhs ⟨.power, opsp⟩ rhs).rRefs, x < e := by
            have hx := (hwf.1 e he).1
            rw [hnd] at hx
            exact hx
          have hl : lhs < rlen st := Nat.lt_trans (hch lhs (by simp [RealExpression.rRefs])) he
          have hr : rhs < rlen st := Nat.lt_trans (hch rhs (by simp [RealExpression.rRefs])) he
          obtain ⟨wf1, hdl⟩ := w1 hwf
          obtain ⟨wf2, hdr⟩ := w2 wf1
          have hg12 := (g1.trans g2).rlen_le
          exact w3 wf2 (by omega) (by omega) (by omega) (hdl.mono g2.rlen_le) hdr
    | modulus =>
      simp only [realGo] at h
      injection h with h1
      injection h1 with ha hb
      subst ha
      subst hb
      exact ⟨grows_of_arenas rfl rfl rfl rfl, fun hwf => ⟨hwf, OptLt.none⟩⟩
  | builtInFunctionCall1p call a =>
    have hne : ∀ v, RealExpression.builtInFunctionCall1p call a ≠ .literal v :=
      fun v hv => RealExpression.noConfusion hv
    cases call with
    | sqrt =>
      simp only [realGo] at h
      rcases hra : rec st (.real a) with m | ⟨st1, da⟩
      · rw [hra] at h
        dsimp only at h
        exact Except.noConfusion h
      · rw [hra] at h
        obtain ⟨g1, w1⟩ := hrec _ _ _ _ hra
        cases da with
        | none =>
          dsimp only at h
          injection h with h1
          injection h1 with ha hb
          subst ha
          subst hb
          exact ⟨g1, fun hwf => ⟨(w1 hwf).1, OptLt.none⟩⟩
        | some inner =>
          dsimp only at h
          rcases h2 : gen_constant st1 sp .two with ⟨st2, two⟩
          rw [h2] at h
          dsimp only at h
          rcases h3 : gen_binary_op st2 sp two .multiply e with ⟨st3, num⟩
          rw [h3] at h
          dsimp only at h
          rcases h4 : gen_binary_op st3 sp inner .divide num with ⟨st4, rr⟩
          rw [h4] at h
          dsimp only at h
          injection h with h1
          injection h1 with ha hb
          subst ha
          subst hb
          obtain ⟨g2, htwo, hrl2, hil2, w2⟩ := gen_constant_keep h2
          obtain ⟨g3, hnum, hrl3, hil3, -, w3⟩ := gen_binary_op_keep h3
          obtain ⟨g4, hrr, hrl4, hil4, -, w4⟩ := gen_binary_op_keep h4
          refine ⟨((g1.trans g2).trans g3).trans g4, fun hwf => ?_⟩
          have he := lt_rlen_of_shape hnd hne
          obtain ⟨wf1, hda⟩ := w1 hwf
          have hinner := hda inner rfl
          have hg1 := g1.rlen_le
          have wf2 := w2 wf1
          have wf3 := w3 wf2 htwo (by omega)
          have wf4 := w4 wf3 (by omega) (by omega)
          exact ⟨wf4, OptLt.some hrr⟩
    | exp =>
      simp only [realGo] at h
      rcases hra : rec st (.real a) with m | ⟨st1, da⟩
      · rw [hra] at h
        dsimp only at h
        exact Except.noConfusion h
      · rw [hra] at h
        obtain ⟨g1, w1⟩ := hrec _ _ _ _ hra
        cases da with
        | none =>
          dsimp only at h
          injection h with h1
          injection h1 with ha hb
          subst ha
          subst hb
          exact ⟨g1, fun hwf => ⟨(w1 hwf).1, OptLt.none⟩⟩
        | some inner =>
          dsimp only at h
          rcases h2 : gen_binary_op st1 sp inner .multiply e with ⟨st2, rr⟩
          rw [h2] at h
          dsimp only at h
          injection h with h1
          injection h1 with ha hb
          subst ha
          subst hb
          obtain ⟨g2, hrr, hrl2, hil2, -, w2⟩ := gen_binary_op_keep h2
          refine ⟨g1.trans g2, fun hwf => ?_⟩
          have he := lt_rlen_of_shape hnd hne
          obtain ⟨wf1, hda⟩ := w1 hwf
          have hinner := hda inner rfl
          have hg1 := g1.rlen_le
          exact ⟨w2 wf1 hinner (by omega), OptLt.some hrr⟩
    | ln =>
      simp only [realGo] at h
      rcases hra : rec st (.real a) with m | ⟨st1, da⟩
      · rw [hra] at h
        dsimp only at h
        exact Except.noConfusion h
      · rw [hra] at h
        obtain ⟨g1, w1⟩ := hrec _ _ _ _ hra
        cases da with
        | none =>
          dsimp only at h
          injection h with h1
          injection h1 with ha hb
          subst ha
          subst hb
          exact ⟨g1, fun hwf => ⟨(w1 hwf).1, OptLt.none⟩⟩
        | some inner =>
          dsimp only at h
          rcases h2 : gen_binary_op st1 sp inner .divide a with ⟨st2, rr⟩
          rw [h2] at h
          dsimp only at h
          injection h with h1
          injection h1 with ha hb
          subst ha
          subst hb
          obtain ⟨g2, hrr, hrl2, hil2, -, w2⟩ := gen_binary_op_keep h2
          refine ⟨g1.trans g2, fun hwf => ?_⟩
          have he := lt_rlen_of_shape hnd hne
          have hch : ∀ x ∈ (RealExpression.builtInFunctionCall1p .ln a).rRefs, x < e := by
            have hx := (hwf.1 e he).1
            rw [hnd] at hx
            exact hx
          have ha' : a < rlen st := Nat.lt_trans (hch a (by simp [RealExpression.rRefs])) he
          obtain ⟨wf1, hda⟩ := w1 hwf
          have hinner := hda inner rfl
          have hg1 := g1.rlen_le
          exact ⟨w2 wf1 hinner (by omega), OptLt.some hrr⟩
    | log =>
      simp only [realGo] at h
      rcases hra : rec st (.real a) with m | ⟨st1, da⟩
      · rw [hra] at h
        dsimp only at h
        exact Except.noConfusion h
      · rw [hra] at h
        obtain ⟨g1, w1⟩ := hrec _ _ _ _ hra
        cases da with
        | none =>
          dsimp only at h
          injection h with h1
          injection h1 with ha hb
          subst ha
          subst hb
          exact ⟨g1, fun hwf => ⟨(w1 hwf).1, OptLt.none⟩⟩
        | some inner =>
          dsimp only at h
          rcases h2 : gen_binary_op st1 sp inner .divide a with ⟨st2, res⟩
          rw [h2] at h
          dsimp only at h
          rcases h3 : gen_constant st2 sp .log10e with ⟨st3, factor⟩
          rw [h3] at h
          dsimp only at h
          rcases h4 : gen_binary_op st3 sp factor .multiply res with ⟨st4, rr⟩
          rw [h4] at h
          dsimp only at h
          injection h with h1
          injection h1 with ha hb
          subst ha
          subst hb
          obtain ⟨g2, hres, hrl2, hil2, -, w2⟩ := gen_binary_op_keep h2
          obtain ⟨g3, hfac, hrl3, hil3, w3⟩ := gen_constant_keep h3
          obtain ⟨g4, hrr, hrl4, hil4, -, w4⟩ := gen_binary_op_keep h4
          refine ⟨((g1.trans g2).trans g3).trans g4, fun hwf => ?_⟩
          have he := lt_rlen_of_shape hnd hne
          have hch : ∀ x ∈ (RealExpression.builtInFunctionCall1p .log a).rRefs, x < e := by
            have hx := (hwf.1 e he).1
            rw [hnd] at hx
            exact hx
          have ha' : a < rlen st := Nat.lt_trans (hch a (by simp [RealExpression.rRefs])) he
          obtain ⟨wf1, hda⟩ := w1 hwf
          have hinner := hda inner rfl
          have hg1 := g1.rlen_le
          have wf2 := w2 wf1 hinner (by omega)
          have wf3 := w3 wf2
          have wf4 := w4 wf3 (by omega) (by omega)
          exact ⟨wf4, OptLt.some hrr⟩
    | abs =>
      simp only [realGo] at h
      rcases h1 : gen_constant st sp .zero with ⟨st1, z⟩
      rw [h1] at h
      dsimp only at h
      rcases h2 : gen_lt_condition_real st1 sp a z with ⟨st2, cond⟩
      rw [h2] at h
      dsimp only at h
      obtain ⟨g1, hz, hrl1, hil1, w1⟩ := gen_constant_keep h1
      obtain ⟨g2, hcond, hil2, hrl2, -, w2⟩ := gen_lt_condition_real_keep h2
      rcases hra : rec st2 (.real a) with m | ⟨st3, da⟩
      · rw [hra] at h
        dsimp only at h
        exact Except.noConfusion h
      · rw [hra] at h
        obtain ⟨g3, w3⟩ := hrec _ _ _ _ hra
        cases da with
        | none =>
          dsimp only at h
          injection h with h1'
          injection h1' with ha hb
          subst ha
          subst hb
          refine ⟨(g1.trans g2).trans g3, fun hwf => ?_⟩
          have he := lt_rlen_of_shape hnd hne
          have hch : ∀ x ∈ (RealExpression.builtInFunctionCall1p .abs a).rRefs, x < e := by
            have hx := (hwf.1 e he).1
            rw [hnd] at hx
            exact hx
          have ha' : a < rlen st := Nat.lt_trans (hch a (by simp [RealExpression.rRefs])) he
          have wf1 := w1 hwf
          have wf2 := w2 wf1 (by omega) (by omega)
          exact ⟨(w3 wf2).1, OptLt.none⟩
        | some d =>
          dsimp only at h
          rcases h4 : gen_neg st3 sp d with ⟨st4, n⟩
          rw [h4] at h
          dsimp only at h
          rcases h5 : st4.add_to_mir sp (.condition cond n d) with ⟨st5, rr⟩
          rw [h5] at h
          dsimp only at h
          injection h with h1'
          injection h1' with ha hb
          subst ha
          subst hb
          obtain ⟨g4, hn, hrl4, hil4, w4⟩ := gen_neg_keep h4
          have g5 := grows_of_real_push h5
          obtain ⟨hrl5, hrr, hil5⟩ := rlen_of_real_push h5
          refine ⟨(((g1.trans g2).trans g3).trans g4).trans g5, fun hwf => ?_⟩
          have he := lt_rlen_of_shape hnd hne
          have hch : ∀ x ∈ (RealExpression.builtInFunctionCall1p .abs a).rRefs, x < e := by
            have hx := (hwf.1 e he).1
            rw [hnd] at hx
            exact hx
          have ha' : a < rlen st := Nat.lt_trans (hch a (by simp [RealExpression.rRefs])) he
          have wf1 := w1 hwf
          have wf2 := w2 wf1 (by omega) (by omega)
          obtain ⟨wf3, hda⟩ := w3 wf2
          have hd := hda d rfl
          have wf4 := w4 wf3 hd
          have hg3i := g3.ilen_le
          refine ⟨(add_to_mir_keep h5).2.2.2.2.2.2.2 wf4 ?_ ?_ ?_, OptLt.some (by omega)⟩
          · simp only [RealExpression.rRefs]
            exact forall_mem_two (by omega) (by omega)
          · simp only [RealExpression.iRefs]
            exact forall_mem_one (by omega)
          · simp [RealExpression.sRefs]
    | floor =>
      simp only [realGo] at h
      injection h with h1
      injection h1 with ha hb
      subst ha
      subst hb
      exact ⟨grows_of_arenas rfl rfl rfl rfl, fun hwf => ⟨hwf, OptLt.none⟩⟩
    | ceil =>
      simp only [realGo] at h
      injection h with h1
      injection h1 with ha hb
      subst ha
      subst hb
      exact ⟨grows_of_arenas rfl rfl rfl rfl, fun hwf => ⟨hwf, OptLt.none⟩⟩
    | sin =>
      simp only [realGo] at h
      rcases hra : rec st (.real a) with m | ⟨st1, da⟩
      · rw [hra] at h
        dsimp only at h
        exact Except.noConfusion h
      · rw [hra] at h
        obtain ⟨g1, w1⟩ := hrec _ _ _ _ hra
        cases da with
        | none =>
          dsimp only at h
          injection h with h1
          injection h1 with ha hb
          subst ha
          subst hb
          exact ⟨g1, fun hwf => ⟨(w1 hwf).1, OptLt.none⟩⟩
        | some inner =>
          dsimp only at h
          rcases h2 : gen_math_function st1 sp .cos a with ⟨st2, outer⟩
          rw [h2] at h
          dsimp only at h
          rcases h3 : gen_binary_op st2 sp inner .multiply outer with ⟨st3, rr⟩
          rw [h3] at h
          dsimp only at h
          injection h with h1
          injection h1 with ha hb
          subst ha
          subst hb
          obtain ⟨g2, hout, hrl2, hil2, w2⟩ := gen_math_function_keep h2
          obtain ⟨g3, hrr, hrl3, hil3, -, w3⟩ := gen_binary_op_keep h3
          refine ⟨(g1.trans g2).trans g3, fun hwf => ?_⟩
          have he := lt_rlen_of_shape hnd hne
          have hch : ∀ x ∈ (RealExpression.builtInFunctionCall1p .sin a).rRefs, x < e := by
            have hx := (hwf.1 e he).1
            rw [hnd] at hx
            exact hx
          have ha' : a < rlen st := Nat.lt_trans (hch a (by simp [RealExpression.rRefs])) he
          obtain ⟨wf1, hda⟩ := w1 hwf
          have hinner := hda inner rfl
          have hg1 := g1.rlen_le
          have wf2 := w2 wf1 (by omega)
          have wf3 := w3 wf2 (by omega) (by omega)
          exact ⟨wf3, OptLt.some hrr⟩
    | cos =>
      simp only [realGo] at h
      rcases hra : rec st (.real a) with m | ⟨st1, da⟩
      · rw [hra] at h
        dsimp only at h
        exact Except.noConfusion h
      · rw [hra] at h
        obtain ⟨g1, w1⟩ := hrec _ _ _ _ hra
        cases da with
        | none =>
          dsimp only at h
          injection h with h1
          injection h1 with ha hb
          subst ha
          subst hb
          exact ⟨g1, fun hwf => ⟨(w1 hwf).1, OptLt.none⟩⟩
        | some inner =>
          dsimp only at h
          rcases h2 : gen_math_function st1 sp .sin a with ⟨st2, s⟩
          rw [h2] at h
          dsimp only at h
          rcases h3 : gen_neg st2 sp s with ⟨st3, outer⟩
          rw [h3] at h
          dsimp only at h
          rcases h4 : gen_binary_op st3 sp inner .multiply outer with ⟨st4, rr⟩
          rw [h4] at h
          dsimp only at h
          injection h with h1
          injection h1 with ha hb
          subst ha
          subst hb
          obtain ⟨g2, hs, hrl2, hil2, w2⟩ := gen_math_function_keep h2
          obtain ⟨g3, hout, hrl3, hil3, w3⟩ := gen_neg_keep h3
          obtain ⟨g4, hrr, hrl4, hil4, -, w4⟩ := gen_binary_op_keep h4
          refine ⟨((g1.trans g2).trans g3).trans g4, fun hwf => ?_⟩
          have he := lt_rlen_of_shape hnd hne
          have hch : ∀ x ∈ (RealExpression.builtInFunctionCall1p .cos a).rRefs, x < e := by
            have hx := (hwf.1 e he).1
            rw [hnd] at hx
            exact hx
          have ha' : a < rlen st := Nat.lt_trans (hch a (by simp [RealExpression.rRefs])) he
          obtain ⟨wf1, hda⟩ := w1 hwf
          have hinner := hda inner rfl
          have hg1 := g1.rlen_le
          have wf2 := w2 wf1 (by omega)
          have wf3 := w3 wf2 (by omega)
          have wf4 := w4 wf3 (by omega) (by omega)
          exact ⟨wf4, OptLt.some hrr⟩
    | tan =>
      simp only [realGo] at h
      rcases hra : rec st (.real a) with m | ⟨st1, da⟩
      · rw [hra] at h
        dsimp only at h
        exact Except.noConfusion h
      · rw [hra] at h
        obtain ⟨g1, w1⟩ := hrec _ _ _ _ hra
        cases da with
        | none =>
          dsimp only at h
          injection h with h1
          injection h1 with ha hb
          subst ha
          subst hb
          exact ⟨g1, fun hwf => ⟨(w1 hwf).1, OptLt.none⟩⟩
        | some inner =>
          dsimp only at h
          rcases h2 : gen_binary_op st1 sp e .multiply e with ⟨st2, sq⟩
          rw [h2] at h
          dsimp only at h
          rcases h3 : gen_constant st2 sp .one with ⟨st3, one⟩
          rw [h3] at h
          dsimp only at h
          rcases h4 : gen_binary_op st3 sp one .sum sq with ⟨st4, s⟩
          rw [h4] at h
          dsimp only at h
          rcases h5 : gen_binary_op st4 sp inner .multiply s with ⟨st5, rr⟩
          rw [h5] at h
          dsimp only at h
          injection h with h1
          injection h1 with ha hb
          subst ha
          subst hb
          obtain ⟨g2, hsq, hrl2, hil2, -, w2⟩ := gen_binary_op_keep h2
          obtain ⟨g3, hone, hrl3, hil3, w3⟩ := gen_constant_keep h3
          obtain ⟨g4, hsum, hrl4, hil4, -, w4⟩ := gen_binary_op_keep h4
          obtain ⟨g5, hrr, hrl5, hil5, -, w5⟩ := gen_binary_op_keep h5
          refine ⟨(((g1.trans g2).trans g3).trans g4).trans g5, fun hwf => ?_⟩
          have he := lt_rlen_of_shape hnd hne
          obtain ⟨wf1, hda⟩ := w1 hwf
          have hinner := hda inner rfl
          have hg1 := g1.rlen_le
          have wf2 := w2 wf1 (by omega) (by omega)
          have wf3 := w3 wf2
          have wf4 := w4 wf3 (by omega) (by omega)
          have wf5 := w5 wf4 (by omega) (by omega)
          exact ⟨wf5, OptLt.some hrr⟩
    | arcsin =>
      simp only [realGo] at h
      rcases hra : rec st (.real a) with m | ⟨st1, da⟩
      · rw [hra] at h
        dsimp only at h
        exact Except.noConfusion h
      · rw [hra] at h
        obtain ⟨g1, w1⟩ := hrec _ _ _ _ hra
        cases da with
        | none =>
          dsimp only at h
          injection h with h1
          injection h1 with ha hb
          subst ha
          subst hb
          exact ⟨g1, fun hwf => ⟨(w1 hwf).1, OptLt.none⟩⟩
        | some inner =>
          dsimp only at h
          rcases h2 : arcsinTail st1 sp a inner with ⟨st2, rr⟩
          rw [h2] at h
          dsimp only at h
          injection h with h1
          injection h1 with ha hb
          subst ha
          subst hb
          obtain ⟨g2, hrr, hil2, w2⟩ := arcsinTail_keep h2
          refine ⟨g1.trans g2, fun hwf => ?_⟩
          have he := lt_rlen_of_shape hnd hne
          have hch : ∀ x ∈ (RealExpression.builtInFunctionCall1p .arcsin a).rRefs, x < e := by
            have hx := (hwf.1 e he).1
            rw [hnd] at hx
            exact hx
          have ha' : a < rlen st := Nat.lt_trans (hch a (by simp [RealExpression.rRefs])) he
          obtain ⟨wf1, hda⟩ := w1 hwf
          have hinner := hda inner rfl
          have hg1 := g1.rlen_le
          exact ⟨w2 wf1 (by omega) hinner, OptLt.some hrr⟩
    | arccos =>
      simp only [realGo] at h
      rcases hra : rec st (.real a) with m | ⟨st1, da⟩
      · rw [hra] at h
        dsimp only at h
        exact Except.noConfusion h
      · rw [hra] at h
        obtain ⟨g1, w1⟩ := hrec _ _ _ _ hra
        cases da with
        | none =>
          dsimp only at h
          injection h with h1
          injection h1 with ha hb
          subst ha
          subst hb
          exact ⟨g1, fun hwf => ⟨(w1 hwf).1, OptLt.none⟩⟩
        | some inner =>
          dsimp only at h
          rcases h2 : arcsinTail st1 sp a inner with ⟨st2, d⟩
          rw [h2] at h
          dsimp only at h
          rcases h3 : gen_neg st2 sp d with ⟨st3, rr⟩
          rw [h3] at h
          dsimp only at h
          injection h with h1
          injection h1 with ha hb
          subst ha
          subst hb
          obtain ⟨g2, hd, hil2, w2⟩ := arcsinTail_keep h2
          obtain ⟨g3, hrr, hrl3, hil3, w3⟩ := gen_neg_keep h3
          refine ⟨(g1.trans g2).trans g3, fun hwf => ?_⟩
          have he := lt_rlen_of_shape hnd hne
          have hch : ∀ x ∈ (RealExpression.builtInFunctionCall1p .arccos a).rRefs, x < e := by
            have hx := (hwf.1 e he).1
            rw [hnd] at hx
            exact hx
          have ha' : a < rlen st := Nat.lt_trans (hch a (by simp [RealExpression.rRefs])) he
          obtain ⟨wf1, hda⟩ := w1 hwf
          have hinner := hda inner rfl
          have hg1 := g1.rlen_le
          have wf2 := w2 wf1 (by omega) hinner
          exact ⟨w3 wf2 hd, OptLt.some hrr⟩
    | arctan =>
      simp only [realGo] at h
      rcases hra : rec st (.real a) with m | ⟨st1, da⟩
      · rw [hra] at h
        dsimp only at h
        exact Except.noConfusion h
      · rw [hra] at h
        obtain ⟨g1, w1⟩ := hrec _ _ _ _ hra
        cases da with
        | none =>
          dsimp only at h
          injection h with h1
          injection h1 with ha hb
          subst ha
          subst hb
          exact ⟨g1, fun hwf => ⟨(w1 hwf).1, OptLt.none⟩⟩
        | some inner =>
          dsimp only at h
          rcases h2 : gen_one_plus_minus_squared st1 sp false a with ⟨st2, den⟩
          rw [h2] at h
          dsimp only at h
          rcases h3 : gen_binary_op st2 sp inner .divide den with ⟨st3, rr⟩
          rw [h3] at h
          dsimp only at h
          injection h with h1
          injection h1 with ha hb
          subst ha
          subst hb
          obtain ⟨g2, hden, hil2, w2⟩ := gen_one_plus_minus_squared_keep h2
          obtain ⟨g3, hrr, hrl3, hil3, -, w3⟩ := gen_binary_op_keep h3
          refine ⟨(g1.trans g2).trans g3, fun hwf => ?_⟩
          have he := lt_rlen_of_shape hnd hne
          have hch : ∀ x ∈ (RealExpression.builtInFunctionCall1p .arctan a).rRefs, x < e := by
            have hx := (hwf.1 e he).1
            rw [hnd] at hx
            exact hx
          have ha' : a < rlen st := Nat.lt_trans (hch a (by simp [RealExpression.rRefs])) he
          obtain ⟨wf1, hda⟩ := w1 hwf
          have hinner := hda inner rfl
          have hg1 := g1.rlen_le
          have hg2 := g2.rlen_le
          have wf2 := w2 wf1 (by omega)
          have wf3 := w3 wf2 (by omega) (by omega)
          exact ⟨wf3, OptLt.some hrr⟩
    | sinh =>
      simp only [realGo] at h
      rcases hra : rec st (.real a) with m | ⟨st1, da⟩
      · rw [hra] at h
        dsimp only at h
        exact Except.noConfusion h
      · rw [hra] at h
        obtain ⟨g1, w1⟩ := hrec _ _ _ _ hra
        cases da with
        | none =>
          dsimp only at h
          injection h with h1
          injection h1 with ha hb
          subst ha
          subst hb
          exact ⟨g1, fun hwf => ⟨(w1 hwf).1, OptLt.none⟩⟩
        | some inner =>
          dsimp only at h
          rcases h2 : gen_math_function st1 sp .cosh a with ⟨st2, outer⟩
          rw [h2] at h
          dsimp only at h
          rcases h3 : gen_binary_op st2 sp inner .multiply outer with ⟨st3, rr⟩
          rw [h3] at h
          dsimp only at h
          injection h with h1
          injection h1 with ha hb
          subst ha
          subst hb
          obtain ⟨g2, hout, hrl2, hil2, w2⟩ := gen_math_function_keep h2
          obtain ⟨g3, hrr, hrl3, hil3, -, w3⟩ := gen_binary_op_keep h3
          refine ⟨(g1.trans g2).trans g3, fun hwf => ?_⟩
          have he := lt_rlen_of_shape hnd hne
          have hch : ∀ x ∈ (RealExpression.builtInFunctionCall1p .sinh a).rRefs, x < e := by
            have hx := (hwf.1 e he).1
            rw [hnd] at hx
            exact hx
          have ha' : a < rlen st := Nat.lt_trans (hch a (by simp [RealExpression.rRefs])) he
          obtain ⟨wf1, hda⟩ := w1 hwf
          have hinner := hda inner rfl
          have hg1 := g1.rlen_le
          have wf2 := w2 wf1 (by omega)
          have wf3 := w3 wf2 (by omega) (by omega)
          exact ⟨wf3, OptLt.some hrr⟩
    | cosh =>
      simp only [realGo] at h
      rcases hra : rec st (.real a) with m | ⟨st1, da⟩
      · rw [hra] at h
        dsimp only at h
        exact Except.noConfusion h
      · rw [hra] at h
        obtain ⟨g1, w1⟩ := hrec _ _ _ _ hra
        cases da with
        | none =>
          dsimp only at h
          injection h with h1
          injection h1 with ha hb
          subst ha
          subst hb
          exact ⟨g1, fun hwf => ⟨(w1 hwf).1, OptLt.none⟩⟩
        | some inner =>
          dsimp only at h
          rcases h2 : gen_math_function st1 sp .sinh a with ⟨st2, outer⟩
          rw [h2] at h
          dsimp only at h
          rcases h3 : gen_binary_op st2 sp inner .multiply outer with ⟨st3, rr⟩
          rw [h3] at h
          dsimp only at h
          injection h with h1
          injection h1 with ha hb
          subst ha
          subst hb
          obtain ⟨g2, hout, hrl2, hil2, w2⟩ := gen_math_function_keep h2
          obtain ⟨g3, hrr, hrl3, hil3, -, w3⟩ := gen_binary_op_keep h3
          refine ⟨(g1.trans g2).trans g3, fun hwf => ?_⟩
          have he := lt_rlen_of_shape hnd hne
          have hch : ∀ x ∈ (RealExpression.builtInFunctionCall1p .cosh a).rRefs, x < e := by
            have hx := (hwf.1 e he).1
            rw [hnd] at hx
            exact hx
          have ha' : a < rlen st := Nat.lt_trans (hch a (by simp [RealExpression.rRefs])) he
          obtain ⟨wf1, hda⟩ := w1 hwf
          have hinner := hda inner rfl
          have hg1 := g1.rlen_le
          have wf2 := w2 wf1 (by omega)
          have wf3 := w3 wf2 (by omega) (by omega)
          exact ⟨wf3, OptLt.some hrr⟩
    | tanh =>
      simp only [realGo] at h
      rcases hra : rec st (.real a) with m | ⟨st1, da⟩
      · rw [hra] at h
        dsimp only at h
        exact Except.noConfusion h
      · rw [hra] at h
        obtain ⟨g1, w1⟩ := hrec _ _ _ _ hra
        cases da with
        | none =>
          dsimp only at h
          injection h with h1
          injection h1 with ha hb
          subst ha
          subst hb
          exact ⟨g1, fun hwf => ⟨(w1 hwf).1, OptLt.none⟩⟩
        | some inner =>
          dsimp only at h
          rcases h2 : gen_one_plus_minus_squared st1 sp true e with ⟨st2, outer⟩
          rw [h2] at h
          dsimp only at h
          rcases h3 : gen_binary_op st2 sp inner .multiply outer with ⟨st3, rr⟩
          rw [h3] at h
          dsimp only at h
          injection h with h1
          injection h1 with ha hb
          subst ha
          subst hb
          obtain ⟨g2, hout, hil2, w2⟩ := gen_one_plus_minus_squared_keep h2
          obtain ⟨g3, hrr, hrl3, hil3, -, w3⟩ := gen_binary_op_keep h3
          refine ⟨(g1.trans g2).trans g3, fun hwf => ?_⟩
          have he := lt_rlen_of_shape hnd hne
          obtain ⟨wf1, hda⟩ := w1 hwf
          have hinner := hda inner rfl
          have hg1 := g1.rlen_le
          have hg2 := g2.rlen_le
          have wf2 := w2 wf1 (by omega)
          have wf3 := w3 wf2 (by omega) (by omega)
          exact ⟨wf3, OptLt.some hrr⟩
    | arcsinh =>
      simp only [realGo] at h
      rcases hra : rec st (.real a) with m | ⟨st1, da⟩
      · rw [hra] at h
        dsimp only at h
        exact Except.noConfusion h
      · rw [hra] at h
        obtain ⟨g1, w1⟩ := hrec _ _ _ _ hra
        cases da with
        | none =>
          dsimp only at h
          injection h with h1
          injection h1 with ha hb
          subst ha
          subst hb
          exact ⟨g1, fun hwf => ⟨(w1 hwf).1, OptLt.none⟩⟩
        | some inner =>
          dsimp only at h
          rcases h2 : gen_one_plus_minus_squared st1 sp false a with ⟨st2, sa⟩
          rw [h2] at h
          dsimp only at h
          rcases h3 : gen_math_function st2 sp .sqrt sa with ⟨st3, den⟩
          rw [h3] at h
          dsimp only at h
          rcases h4 : gen_binary_op st3 sp inner .divide den with ⟨st4, rr⟩
          rw [h4] at h
          dsimp only at h
          injection h with h1
          injection h1 with ha hb
          subst ha
          subst hb
          obtain ⟨g2, hsa, hil2, w2⟩ := gen_one_plus_minus_squared_keep h2
          obtain ⟨g3, hden, hrl3, hil3, w3⟩ := gen_math_function_keep h3
          obtain ⟨g4, hrr, hrl4, hil4, -, w4⟩ := gen_binary_op_keep h4
          refine ⟨((g1.trans g2).trans g3).trans g4, fun hwf => ?_⟩
          have he := lt_rlen_of_shape hnd hne
          have hch : ∀ x ∈ (RealExpression.builtInFunctionCall1p .arcsinh a).rRefs, x < e := by
            have hx := (hwf.1 e he).1
            rw [hnd] at hx
            exact hx
          have ha' : a < rlen st := Nat.lt_trans (hch a (by simp [RealExpression.rRefs])) he
          obtain ⟨wf1, hda⟩ := w1 hwf
          have hinner := hda inner rfl
          have hg1 := g1.rlen_le
          have hg2 := g2.rlen_le
          have wf2 := w2 wf1 (by omega)
          have wf3 := w3 wf2 hsa
          have wf4 := w4 wf3 (by omega) (by omega)
          exact ⟨wf4, OptLt.some hrr⟩
    | arccosh =>
      simp only [realGo] at h
      rcases hra : rec st (.real a) with m | ⟨st1, da⟩
      · rw [hra] at h
        dsimp only at h
        exact Except.noConfusion h
      · rw [hra] at h
        obtain ⟨g1, w1⟩ := hrec _ _ _ _ hra
        cases da with
        | none =>
          dsimp only at h
          injection h with h1
          injection h1 with ha hb
          subst ha
          subst hb
          exact ⟨g1, fun hwf => ⟨(w1 hwf).1, OptLt.none⟩⟩
        | some inner =>
          dsimp only at h
          rcases h2 : gen_one_plus_minus_squared st1 sp true a with ⟨st2, msa⟩
          rw [h2] at h
          dsimp only at h
          rcases h3 : gen_neg st2 sp msa with ⟨st3, sa⟩
          rw [h3] at h
          dsimp only at h
          rcases h4 : gen_math_function st3 sp .sqrt sa with ⟨st4, den⟩
          rw [h4] at h
          dsimp only at h
          rcases h5 : gen_binary_op st4 sp inner .divide den with ⟨st5, rr⟩
          rw [h5] at h
          dsimp only at h
          injection h with h1
          injection h1 with ha hb
          subst ha
          subst hb
          obtain ⟨g2, hmsa, hil2, w2⟩ := gen_one_plus_minus_squared_keep h2
          obtain ⟨g3, hsa, hrl3, hil3, w3⟩ := gen_neg_keep h3
          obtain ⟨g4, hden, hrl4, hil4, w4⟩ := gen_math_function_keep h4
          obtain ⟨g5, hrr, hrl5, hil5, -, w5⟩ := gen_binary_op_keep h5
          refine ⟨(((g1.trans g2).trans g3).trans g4).trans g5, fun hwf => ?_⟩
          have he := lt_rlen_of_shape hnd hne
          have hch : ∀ x ∈ (RealExpression.builtInFunctionCall1p .arccosh a).rRefs, x < e := by
            have hx := (hwf.1 e he).1
            rw [hnd] at hx
            exact hx
          have ha' : a < rlen st := Nat.lt_trans (hch a (by simp [RealExpression.rRefs])) he
          obtain ⟨wf1, hda⟩ := w1 hwf
          have hinner := hda inner rfl
          have hg1 := g1.rlen_le
          have hg2 := g2.rlen_le
          have wf2 := w2 wf1 (by omega)
          have wf3 := w3 wf2 hmsa
          have wf4 := w4 wf3 (by omega)
          have wf5 := w5 wf4 (by omega) (by omega)
          exact ⟨wf5, OptLt.some hrr⟩
    | arctanh =>
      simp only [realGo] at h
      rcases hra : rec st (.real a) with m | ⟨st1, da⟩
      · rw [hra] at h
        dsimp only at h
        exact Except.noConfusion h
      · rw [hra] at h
        obtain ⟨g1, w1⟩ := hrec _ _ _ _ hra
        cases da with
        | none =>
          dsimp only at h
          injection h with h1
          injection h1 with ha hb
          subst ha
          subst hb
          exact ⟨g1, fun hwf => ⟨(w1 hwf).1, OptLt.none⟩⟩
        | some inner =>
          dsimp only at h
          rcases h2 : gen_one_plus_minus_squared st1 sp true a with ⟨st2, den⟩
          rw [h2] at h
          dsimp only at h
          rcases h3 : gen_binary_op st2 sp inner .divide den with ⟨st3, rr⟩
          rw [h3] at h
          dsimp only at h
          injection h with h1
          injection h1 with ha hb
          subst ha
          subst hb
          obtain ⟨g2, hden, hil2, w2⟩ := gen_one_plus_minus_squared_keep h2
          obtain ⟨g3, hrr, hrl3, hil3, -, w3⟩ := gen_binary_op_keep h3
          refine ⟨(g1.trans g2).trans g3, fun hwf => ?_⟩
          have he := lt_rlen_of_shape hnd hne
          have hch : ∀ x ∈ (RealExpression.builtInFunctionCall1p .arctanh a).rRefs, x < e := by
            have hx := (hwf.1 e he).1
            rw [hnd] at hx
            exact hx
          have ha' : a < rlen st := Nat.lt_trans (hch a (by simp [RealExpression.rRefs])) he
          obtain ⟨wf1, hda⟩ := w1 hwf
          have hinner := hda inner rfl
          have hg1 := g1.rlen_le
          have hg2 := g2.rlen_le
          have wf2 := w2 wf1 (by omega)
          have wf3 := w3 wf2 (by omega) (by omega)
          exact ⟨wf3, OptLt.some hrr⟩
  | builtInFunctionCall2p call a b =>
    have hne : ∀ v, RealExpression.builtInFunctionCall2p call a b ≠ .literal v :=
      fun v hv => RealExpression.noConfusion hv
    cases call with
    | pow =>
      simp only [realGo] at h
      rcases hra : rec st (.real a) with m | ⟨st1, da⟩
      · rw [hra] at h
        dsimp only at h
        exact Except.noConfusion h
      · rw [hra] at h
        dsimp only at h
        rcases hrb : rec st1 (.real b) with m | ⟨st2, db⟩
        · rw [hrb] at h
          dsimp only at h
          exact Except.noConfusion h
        · rw [hrb] at h
          dsimp only at h
          rcases hpd : pow_derivative st2 sp a da b db e with ⟨st3, o3⟩
          rw [hpd] at h
          injection h with h1
          injection h1 with ha hb
          subst ha
          subst hb
          obtain ⟨g1, w1⟩ := hrec _ _ _ _ hra
          obtain ⟨g2, w2⟩ := hrec _ _ _ _ hrb
          obtain ⟨g3, hil3, w3⟩ := pow_derivative_keep hpd
          refine ⟨(g1.trans g2).trans g3, fun hwf => ?_⟩
          have he := lt_rlen_of_shape hnd hne
          have hch : ∀ x ∈ (RealExpression.builtInFunctionCall2p .pow a b).rRefs, x < e := by
            have hx := (hwf.1 e he).1
            rw [hnd] at hx
            exact hx
          have ha' : a < rlen st := Nat.lt_trans (hch a (by simp [RealExpression.rRefs])) he
          have hb' : b < rlen st := Nat.lt_trans (hch b (by simp [RealExpression.rRefs])) he
          obtain ⟨wf1, hda⟩ := w1 hwf
          obtain ⟨wf2, hdb⟩ := w2 wf1
          have hg12 := (g1.trans g2).rlen_le
          exact w3 wf2 (by omega) (by omega) (by omega) (hda.mono g2.rlen_le) hdb
    | hypot =>
      simp only [realGo] at h
      rcases hra : rec st (.real a) with m | ⟨st1, da⟩
      · rw [hra] at h
        dsimp only at h
        exact Except.noConfusion h
      · rw [hra] at h
        dsimp only at h
        rcases hrb : rec st1 (.real b) with m | ⟨st2, db⟩
        · rw [hrb] at h
          dsimp only at h
          exact Except.noConfusion h
        · rw [hrb] at h
          dsimp only at h
          rcases hmd : mul_derivative st2 sp b da a db with ⟨st3, o3⟩
          rw [hmd] at h
          obtain ⟨g1, w1⟩ := hrec _ _ _ _ hra
          obtain ⟨g2, w2⟩ := hrec _ _ _ _ hrb
          obtain ⟨g3, hil3, w3⟩ := mul_derivative_keep hmd
          cases o3 with
          | none =>
            dsimp only at h
            injection h with h1
            injection h1 with ha hb
            subst ha
            subst hb
            refine ⟨(g1.trans g2).trans g3, fun hwf => ?_⟩
            have he := lt_rlen_of_shape hnd hne
            have hch : ∀ x ∈ (RealExpression.builtInFunctionCall2p .hypot a b).rRefs, x < e := by
              have hx := (hwf.1 e he).1
              rw [hnd] at hx
              exact hx
            have ha' : a < rlen st := Nat.lt_trans (hch a (by simp [RealExpression.rRefs])) he
            have hb' : b < rlen st := Nat.lt_trans (hch b (by simp [RealExpression.rRefs])) he
            obtain ⟨wf1, hda⟩ := w1 hwf
            obtain ⟨wf2, hdb⟩ := w2 wf1
            have hg12 := (g1.trans g2).rlen_le
            exact ⟨(w3 wf2 (by omega) (by omega) (hda.mono g2.rlen_le) hdb).1, OptLt.none⟩
          | some num =>
            dsimp only at h
            rcases h4 : gen_binary_op st3 sp num .divide e with ⟨st4, rr⟩
            rw [h4] at h
            dsimp only at h
            injection h with h1
            injection h1 with ha hb
            subst ha
            subst hb
            obtain ⟨g4, hrr, hrl4, hil4, -, w4⟩ := gen_binary_op_keep h4
            refine ⟨((g1.trans g2).trans g3).trans g4, fun hwf => ?_⟩
            have he := lt_rlen_of_shape hnd hne
            have hch : ∀ x ∈ (RealExpression.builtInFunctionCall2p .hypot a b).rRefs, x < e := by
              have hx := (hwf.1 e he).1
              rw [hnd] at hx
              exact hx
            have ha' : a < rlen st := Nat.lt_trans (hch a (by simp [RealExpression.rRefs])) he
            have hb' : b < rlen st := Nat.lt_trans (hch b (by simp [RealExpression.rRefs])) he
            obtain ⟨wf1, hda⟩ := w1 hwf
            obtain ⟨wf2, hdb⟩ := w2 wf1
            have hg12 := (g1.trans g2).rlen_le
            obtain ⟨wf3, hnum⟩ := w3 wf2 (by omega) (by omega) (hda.mono g2.rlen_le) hdb
            have hnum' := hnum num rfl
            have hg123 := ((g1.trans g2).trans g3).rlen_le
            have wf4 := w4 wf3 (by omega) (by omega)
            exact ⟨wf4, OptLt.some hrr⟩
    | arctan2 =>
      simp only [realGo] at h
      rcases hra : rec st (.real a) with m | ⟨st1, da⟩
      · rw [hra] at h
        dsimp only at h
        exact Except.noConfusion h
      · rw [hra] at h
        dsimp only at h
        rcases hrb : rec st1 (.real b) with m | ⟨st2, db⟩
        · rw [hrb] at h
          dsimp only at h
          exact Except.noConfusion h
        · rw [hrb] at h
          obtain ⟨g1, w1⟩ := hrec _ _ _ _ hra
          obtain ⟨g2, w2⟩ := hrec _ _ _ _ hrb
          cases db with
          | none =>
            dsimp only at h
            rcases hmd : mul_derivative st2 sp a da b none with ⟨st3, o3⟩
            rw [hmd] at h
            obtain ⟨g3, hil3, w3⟩ := mul_derivative_keep hmd
            cases o3 with
            | none =>
              dsimp only at h
              injection h with h1
              injection h1 with ha hb
              subst ha
              subst hb
              refine ⟨(g1.trans g2).trans g3, fun hwf => ?_⟩
              have he := lt_rlen_of_shape hnd hne
              have hch : ∀ x ∈ (RealExpression.builtInFunctionCall2p .arctan2 a b).rRefs, x < e := by
                have hx := (hwf.1 e he).1
                rw [hnd] at hx
                exact hx
              have ha' : a < rlen st := Nat.lt_trans (hch a (by simp [RealExpression.rRefs])) he
              have hb' : b < rlen st := Nat.lt_trans (hch b (by simp [RealExpression.rRefs])) he
              obtain ⟨wf1, hda⟩ := w1 hwf
              obtain ⟨wf2, -⟩ := w2 wf1
              have hg12 := (g1.trans g2).rlen_le
              exact ⟨(w3 wf2 (by omega) (by omega) (hda.mono g2.rlen_le) OptLt.none).1,
                OptLt.none⟩
            | some num =>
              dsimp only at h
              rcases h4 : gen_binary_op st3 sp a .multiply a with ⟨st4, s1⟩
              rw [h4] at h
              dsimp only at h
              rcases h5 : gen_binary_op st4 sp b .multiply b with ⟨st5, s2⟩
              rw [h5] at h
              dsimp only at h
              rcases h6 : gen_binary_op st5 sp s1 .sum s2 with ⟨st6, den⟩
              rw [h6] at h
              dsimp only at h
              rcases h7 : gen_binary_op st6 sp num .divide den with ⟨st7, rr⟩
              rw [h7] at h
              dsimp only at h
              injection h with h1
              injection h1 with ha hb
              subst ha
              subst hb
              obtain ⟨g4, hs1, hrl4, hil4, -, w4⟩ := gen_binary_op_keep h4
              obtain ⟨g5, hs2, hrl5, hil5, -, w5⟩ := gen_binary_op_keep h5
              obtain ⟨g6, hden, hrl6, hil6, -, w6⟩ := gen_binary_op_keep h6
              obtain ⟨g7, hrr, hrl7, hil7, -, w7⟩ := gen_binary_op_keep h7
              refine ⟨((((((g1.trans g2).trans g3).trans g4).trans g5).trans g6).trans g7 :),
                fun hwf => ?_⟩
              have he := lt_rlen_of_shape hnd hne
              have hch : ∀ x ∈ (RealExpression.builtInFunctionCall2p .arctan2 a b).rRefs, x < e := by
                have hx := (hwf.1 e he).1
                rw [hnd] at hx
                exact hx
              have ha' : a < rlen st := Nat.lt_trans (hch a (by simp [RealExpression.rRefs])) he
              have hb' : b < rlen st := Nat.lt_trans (hch b (by simp [RealExpression.rRefs])) he
              obtain ⟨wf1, hda⟩ := w1 hwf
              obtain ⟨wf2, -⟩ := w2 wf1
              have hg12 := (g1.trans g2).rlen_le
              obtain ⟨wf3, hnum⟩ := w3 wf2 (by omega) (by omega) (hda.mono g2.rlen_le) OptLt.none
              have hnum' := hnum num rfl
              have hg3 := g3.rlen_le
              have wf4 := w4 wf3 (by omega) (by omega)
              have wf5 := w5 wf4 (by omega) (by omega)
              have wf6 := w6 wf5 (by omega) (by omega)
              have wf7 := w7 wf6 (by omega) (by omega)
              exact ⟨wf7, OptLt.some hrr⟩
          | some d =>
            dsimp only at h
            rcases hng : gen_neg st2 sp d with ⟨st2n, nneg⟩
            rw [hng] at h
            dsimp only at h
            rcases hmd : mul_derivative st2n sp a da b (some nneg) with ⟨st3, o3⟩
            rw [hmd] at h
            obtain ⟨gn, hnn, hrln, hiln, wn⟩ := gen_neg_keep hng
            obtain ⟨g3, hil3, w3⟩ := mul_derivative_keep hmd
            cases o3 with
            | none =>
              dsimp only at h
              injection h with h1
              injection h1 with ha hb
              subst ha
              subst hb
              refine ⟨((g1.trans g2).trans gn).trans g3, fun hwf => ?_⟩
              have he := lt_rlen_of_shape hnd hne
              have hch : ∀ x ∈ (RealExpression.builtInFunctionCall2p .arctan2 a b).rRefs, x < e := by
                have hx := (hwf.1 e he).1
                rw [hnd] at hx
                exact hx
              have ha' : a < rlen st := Nat.lt_trans (hch a (by simp [RealExpression.rRefs])) he
              have hb' : b < rlen st := Nat.lt_trans (hch b (by simp [RealExpression.rRefs])) he
              obtain ⟨wf1, hda⟩ := w1 hwf
              obtain ⟨wf2, hdb⟩ := w2 wf1
              have wfn := wn wf2 (hdb d rfl)
              have hg12 := (g1.trans g2).rlen_le
              exact ⟨(w3 wfn (by omega) (by omega)
                (hda.mono (g2.trans gn).rlen_le) (OptLt.some hnn)).1, OptLt.none⟩
            | some num =>
              dsimp only at h
              rcases h4 : gen_binary_op st3 sp a .multiply a with ⟨st4, s1⟩
              rw [h4] at h
              dsimp only at h
              rcases h5 : gen_binary_op st4 sp b .multiply b with ⟨st5, s2⟩
              rw [h5] at h
              dsimp only at h
              rcases h6 : gen_binary_op st5 sp s1 .sum s2 with ⟨st6, den⟩
              rw [h6] at h
              dsimp only at h
              rcases h7 : gen_binary_op st6 sp num .divide den with ⟨st7, rr⟩
              rw [h7] at h
              dsimp only at h
              injection h with h1
              injection h1 with ha hb
              subst ha
              subst hb
              obtain ⟨g4, hs1, hrl4, hil4, -, w4⟩ := gen_binary_op_keep h4
              obtain ⟨g5, hs2, hrl5, hil5, -, w5⟩ := gen_binary_op_keep h5
              obtain ⟨g6, hden, hrl6, hil6, -, w6⟩ := gen_binary_op_keep h6
              obtain ⟨g7, hrr, hrl7, hil7, -, w7⟩ := gen_binary_op_keep h7
              refine ⟨(((((((g1.trans g2).trans gn).trans g3).trans g4).trans g5).trans g6).trans g7 :),
                fun hwf => ?_⟩
              have he := lt_rlen_of_shape hnd hne
              have hch : ∀ x ∈ (RealExpression.builtInFunctionCall2p .arctan2 a b).rRefs, x < e := by
                have hx := (hwf.1 e he).1
                rw [hnd] at hx
                exact hx
              have ha' : a < rlen st := Nat.lt_trans (hch a (by simp [RealExpression.rRefs])) he
              have hb' : b < rlen st := Nat.lt_trans (hch b (by simp [RealExpression.rRefs])) he
              obtain ⟨wf1, hda⟩ := w1 hwf
              obtain ⟨wf2, hdb⟩ := w2 wf1
              have wfn := wn wf2 (hdb d rfl)
              have hg12 := (g1.trans g2).rlen_le
              obtain ⟨wf3, hnum⟩ := w3 wfn (by omega) (by omega)
                (hda.mono (g2.trans gn).rlen_le) (OptLt.some hnn)
              have hnum' := hnum num rfl
              have hg3 := g3.rlen_le
              have wf4 := w4 wf3 (by omega) (by omega)
              have wf5 := w5 wf4 (by omega) (by omega)
              have wf6 := w6 wf5 (by omega) (by omega)
              have wf7 := w7 wf6 (by omega) (by omega)
              exact ⟨wf7, OptLt.some hrr⟩
    | max =>
      simp only [realGo] at h
      rcases h1 : gen_lt_condition_real st sp b a with ⟨st1, cond⟩
      rw [h1] at h
      dsimp only at h
      rcases hra : rec st1 (.real a) with m | ⟨st2, da⟩
      · rw [hra] at h
        dsimp only at h
        exact Except.noConfusion h
      · rw [hra] at h
        dsimp only at h
        rcases hrb : rec st2 (.real b) with m | ⟨st3, db⟩
        · rw [hrb] at h
          dsimp only at h
          exact Except.noConfusion h
        · rw [hrb] at h
          dsimp only at h
          rcases hct : condTail st3 sp cond da db with ⟨st4, o4⟩
          rw [hct] at h
          injection h with h1'
          injection h1' with ha hb
          subst ha
          subst hb
          obtain ⟨g1, hcond, hil1, hrl1, -, w1⟩ := gen_lt_condition_real_keep h1
          obtain ⟨g2, w2⟩ := hrec _ _ _ _ hra
          obtain ⟨g3, w3⟩ := hrec _ _ _ _ hrb
          obtain ⟨g4, hil4, w4⟩ := condTail_keep hct
          refine ⟨((g1.trans g2).trans g3).trans g4, fun hwf => ?_⟩
          have he := lt_rlen_of_shape hnd hne
          have hch : ∀ x ∈ (RealExpression.builtInFunctionCall2p .max a b).rRefs, x < e := by
            have hx := (hwf.1 e he).1
            rw [hnd] at hx
            exact hx
          have ha' : a < rlen st := Nat.lt_trans (hch a (by simp [RealExpression.rRefs])) he
          have hb' : b < rlen st := Nat.lt_trans (hch b (by simp [RealExpression.rRefs])) he
          have wf1 := w1 hwf hb' ha'
          obtain ⟨wf2, hda⟩ := w2 wf1
          obtain ⟨wf3, hdb⟩ := w3 wf2
          have hg23 := (g2.trans g3).ilen_le
          exact w4 wf3 (by omega) (hda.mono g3.rlen_le) hdb
    | min =>
      simp only [realGo] at h
      rcases h1 : gen_lt_condition_real st sp a b with ⟨st1, cond⟩
      rw [h1] at h
      dsimp only at h
      rcases hra : rec st1 (.real a) with m | ⟨st2, da⟩
      · rw [hra] at h
        dsimp only at h
        exact Except.noConfusion h
      · rw [hra] at h
        dsimp only at h
        rcases hrb : rec st2 (.real b) with m | ⟨st3, db⟩
        · rw [hrb] at h
          dsimp only at h
          exact Except.noConfusion h
        · rw [hrb] at h
          dsimp only at h
          rcases hct : condTail st3 sp cond da db with ⟨st4, o4⟩
          rw [hct] at h
          injection h with h1'
          injection h1' with ha hb
          subst ha
          subst hb
          obtain ⟨g1, hcond, hil1, hrl1, -, w1⟩ := gen_lt_condition_real_keep h1
          obtain ⟨g2, w2⟩ := hrec _ _ _ _ hra
          obtain ⟨g3, w3⟩ := hrec _ _ _ _ hrb
          obtain ⟨g4, hil4, w4⟩ := condTail_keep hct
          refine ⟨((g1.trans g2).trans g3).trans g4, fun hwf => ?_⟩
          have he := lt_rlen_of_shape hnd hne
          have hch : ∀ x ∈ (RealExpression.builtInFunctionCall2p .min a b).rRefs, x < e := by
            have hx := (hwf.1 e he).1
            rw [hnd] at hx
            exact hx
          have ha' : a < rlen st := Nat.lt_trans (hch a (by simp [RealExpression.rRefs])) he
          have hb' : b < rlen st := Nat.lt_trans (hch b (by simp [RealExpression.rRefs])) he
          have wf1 := w1 hwf ha' hb'
          obtain ⟨wf2, hda⟩ := w2 wf1
          obtain ⟨wf3, hdb⟩ := w3 wf2
          have hg23 := (g2.trans g3).ilen_le
          exact w4 wf3 (by omega) (hda.mono g3.rlen_le) hdb
  | condition c t fv =>
    have hne : ∀ v, RealExpression.condition c t fv ≠ .literal v :=
      fun v hv => RealExpression.noConfusion hv
    simp only [realGo] at h
    rcases hra : rec st (.real t) with m | ⟨st1, dt⟩
    · rw [hra] at h
      dsimp only at h
      exact Except.noConfusion h
    · rw [hra] at h
      dsimp only at h
      rcases hrb : rec st1 (.real fv) with m | ⟨st2, df⟩
      · rw [hrb] at h
        dsimp only at h
        exact Except.noConfusion h
      · rw [hrb] at h
        dsimp only at h
        rcases hct : condTail st2 sp c dt df with ⟨st3, o3⟩
        rw [hct] at h
        injection h with h1
        injection h1 with ha hb
        subst ha
        subst hb
        obtain ⟨g1, w1⟩ := hrec _ _ _ _ hra
        obtain ⟨g2, w2⟩ := hrec _ _ _ _ hrb
        obtain ⟨g3, hil3, w3⟩ := condTail_keep hct
        refine ⟨(g1.trans g2).trans g3, fun hwf => ?_⟩
        have he := lt_rlen_of_shape hnd hne
        have hci : ∀ x ∈ (RealExpression.condition c t fv).iRefs, x < ilen st := by
          have hx := (hwf.1 e he).2.1
          rw [hnd] at hx
          exact hx
        have hc : c < ilen st := hci c (by simp [RealExpression.iRefs])
        obtain ⟨wf1, hdt⟩ := w1 hwf
        obtain ⟨wf2, hdf⟩ := w2 wf1
        have hg12 := (g1.trans g2).ilen_le
        exact w3 wf2 (by omega) (hdt.mono g2.rlen_le) hdf
  | variableReference v =>
    simp only [realGo] at h
    rcases hdv : st.mir.derivative_var v u with ⟨m1, dv⟩
    rw [hdv] at h
    dsimp only at h
    rcases h2 : AutoDiff.add_to_mir { st with mir := m1 } sp (.variableReference dv)
      with ⟨st2, rr⟩
    rw [h2] at h
    dsimp only at h
    injection h with h1
    injection h1 with ha hb
    subst ha
    subst hb
    obtain ⟨e1, e2, e3, e4⟩ := derivative_var_arenas hdv
    have g1 : Grows st { st with mir := m1 } := grows_of_arenas e1 e2 e3 e4
    have g2 := grows_of_real_push h2
    obtain ⟨hrl2, hrr, hil2⟩ := rlen_of_real_push h2
    refine ⟨g1.trans g2, fun hwf => ?_⟩
    have wf1 : m1.WF := derivative_var_wf hdv hwf
    have wf2 := (add_to_mir_keep h2).2.2.2.2.2.2.2 wf1 (by simp [RealExpression.rRefs])
      (by simp [RealExpression.iRefs]) (by simp [RealExpression.sRefs])
    exact ⟨wf2, OptLt.some (by omega)⟩
  | parameterReference p =>
    simp only [realGo] at h
    rcases hp : param_derivative st sp u p with ⟨st1, o1⟩
    rw [hp] at h
    injection h with h1
    injection h1 with ha hb
    subst ha
    subst hb
    obtain ⟨g1, hil1, w1⟩ := param_derivative_keep hp
    exact ⟨g1, fun hwf => w1 hwf⟩
  | branchAccess acc branch order =>
    cases u with
    | time =>
      simp only [realGo] at h
      rcases h2 : st.add_to_mir sp (.branchAccess acc branch (order + 1)) with ⟨st2, rr⟩
      rw [h2] at h
      dsimp only at h
      injection h with h1
      injection h1 with ha hb
      subst ha
      subst hb
      have g2 := grows_of_real_push h2
      obtain ⟨hrl2, hrr, hil2⟩ := rlen_of_real_push h2
      refine ⟨g2, fun hwf => ?_⟩
      have wf2 := (add_to_mir_keep h2).2.2.2.2.2.2.2 hwf (by simp [RealExpression.rRefs])
        (by simp [RealExpression.iRefs]) (by simp [RealExpression.sRefs])
      exact ⟨wf2, OptLt.some (by omega)⟩
    | nodePotential net =>
      simp only [realGo] at h
      rcases hbd : (st.mir.branches.getD branch dfltB).contents.branch with p | ⟨hi, lo⟩
      · rw [hbd] at h
        dsimp only at h
        injection h with h1
        injection h1 with ha hb
        subst ha
        subst hb
        exact ⟨Grows.refl st, fun hwf => ⟨hwf, OptLt.none⟩⟩
      · rw [hbd] at h
        dsimp only at h
        by_cases hhi : hi = net
        · rw [if_pos hhi] at h
          rcases h2 : gen_constant st sp .one with ⟨st2, rr⟩
          rw [h2] at h
          dsimp only at h
          injection h with h1
          injection h1 with ha hb
          subst ha
          subst hb
          obtain ⟨g2, hrr, hrl2, hil2, w2⟩ := gen_constant_keep h2
          exact ⟨g2, fun hwf => ⟨w2 hwf, OptLt.some hrr⟩⟩
        · rw [if_neg hhi] at h
          by_cases hlo : lo = net
          · rw [if_pos hlo] at h
            rcases h2 : gen_constant st sp .negOne with ⟨st2, rr⟩
            rw [h2] at h
            dsimp only at h
            injection h with h1
            injection h1 with ha hb
            subst ha
            subst hb
            obtain ⟨g2, hrr, hrl2, hil2, w2⟩ := gen_constant_keep h2
            exact ⟨g2, fun hwf => ⟨w2 hwf, OptLt.some hrr⟩⟩
          · rw [if_neg hlo] at h
            injection h with h1
            injection h1 with ha hb
            subst ha
            subst hb
            exact ⟨Grows.refl st, fun hwf => ⟨hwf, OptLt.none⟩⟩
    | flow unknown =>
      simp only [realGo] at h
      by_cases hu : unknown = branch
      · rw [if_pos hu] at h
        rcases h2 : gen_constant st sp .one with ⟨st2, rr⟩
        rw [h2] at h
        dsimp only at h
        injection h with h1
        injection h1 with ha hb
        subst ha
        subst hb
        obtain ⟨g2, hrr, hrl2, hil2, w2⟩ := gen_constant_keep h2
        exact ⟨g2, fun hwf => ⟨w2 hwf, OptLt.some hrr⟩⟩
      · rw [if_neg hu] at h
        injection h with h1
        injection h1 with ha hb
        subst ha
        subst hb
        exact ⟨Grows.refl st, fun hwf => ⟨hwf, OptLt.none⟩⟩
    | parameter p =>
      simp only [realGo] at h
      injection h with h1
      injection h1 with ha hb
      subst ha
      subst hb
      exact ⟨Grows.refl st, fun hwf => ⟨hwf, OptLt.none⟩⟩
    | temperature =>
      simp only [realGo] at h
      injection h with h1
      injection h1 with ha hb
      subst ha
      subst hb
      exact ⟨Grows.refl st, fun hwf => ⟨hwf, OptLt.none⟩⟩
  | integerConversion ie =>
    simp only [realGo] at h
    exact hrec _ _ _ _ h
  | noise args name =>
    simp only [realGo] at h
    injection h with h1
    injection h1 with ha hb
    subst ha
    subst hb
    exact ⟨Grows.refl st, fun hwf => ⟨hwf, OptLt.none⟩⟩
  | temperature =>
    simp only [realGo] at h
    by_cases hu : u = .temperature
    · rw [if_pos hu] at h
      rcases h2 : gen_constant st sp .one with ⟨st2, rr⟩
      rw [h2] at h
      dsimp only at h
      injection h with h1
      injection h1 with ha hb
      subst ha
      subst hb
      obtain ⟨g2, hrr, hrl2, hil2, w2⟩ := gen_constant_keep h2
      exact ⟨g2, fun hwf => ⟨w2 hwf, OptLt.some hrr⟩⟩
    · rw [if_neg hu] at h
      injection h with h1
      injection h1 with ha hb
      subst ha
      subst hb
      exact ⟨Grows.refl st, fun hwf => ⟨hwf, OptLt.none⟩⟩
  | simParam name dflt =>
    simp only [realGo] at h
    injection h with h1
    injection h1 with ha hb
    subst ha
    subst hb
    exact ⟨Grows.refl st, fun hwf => ⟨hwf, OptLt.none⟩⟩

/-- One integer visit preserves the frame and I1, provided the recursive calls
do. -/
theorem intGo_keep (rec : AutoDiff → DiffArg → DiffRes)
    (hrec : ∀ s a s2 r2, rec s a = .ok (s2, r2) → DK s s2 r2)
    {st : AutoDiff} {u : Unknown} {e : Nat} {nd : Node IntegerExpression}
    (hnd : st.mir.integer_expressions.getD e dfltI = nd)
    {st' : AutoDiff} {r : Option Nat}
    (h : intGo rec st u e nd = .ok (st', r)) : DK st st' r := by
  obtain ⟨ndc, sp⟩ := nd
  cases ndc with
  | literal v =>
    simp only [intGo] at h
    injection h with h1
    injection h1 with ha hb
    subst ha
    subst hb
    exact ⟨Grows.refl st, fun hwf => ⟨hwf, OptLt.none⟩⟩
  | binaryOperator lhs op rhs =>
    obtain ⟨opc, opsp⟩ := op
    have hne : ∀ v, IntegerExpression.binaryOperator lhs ⟨opc, opsp⟩ rhs ≠ .literal v :=
      fun v hv => IntegerExpression.noConfusion hv
    cases opc with
    | sum =>
      simp only [intGo] at h
      rcases hra : rec st (.int lhs) with m | ⟨st1, dl⟩
      · rw [hra] at h
        dsimp only at h
        exact Except.noConfusion h
      · rw [hra] at h
        dsimp only at h
        rcases hrb : rec st1 (.int rhs) with m | ⟨st2, dr⟩
        · rw [hrb] at h
          dsimp only at h
          exact Except.noConfusion h
        · rw [hrb] at h
          dsimp only at h
          rcases hds : derivative_sum st2 sp dl dr with ⟨st3, o3⟩
          rw [hds] at h
          injection h with h1
          injection h1 with ha hb
          subst ha
          subst hb
          obtain ⟨g1, w1⟩ := hrec _ _ _ _ hra
          obtain ⟨g2, w2⟩ := hrec _ _ _ _ hrb
          obtain ⟨g3, hil3, w3⟩ := derivative_sum_keep hds
          refine ⟨(g1.trans g2).trans g3, fun hwf => ?_⟩
          obtain ⟨wf1, hdl⟩ := w1 hwf
          obtain ⟨wf2, hdr⟩ := w2 wf1
          exact w3 wf2 (hdl.mono g2.rlen_le) hdr
    | subtract =>
      simp only [intGo] at h
      rcases hra : rec st (.int lhs) with m | ⟨st1, dl⟩
      · rw [hra] at h
        dsimp only at h
        exact Except.noConfusion h
      · rw [hra] at h
        dsimp only at h
        rcases hrb : rec st1 (.int rhs) with m | ⟨st2, dr⟩
        · rw [hrb] at h
          dsimp only at h
          exact Except.noConfusion h
        · rw [hrb] at h
          obtain ⟨g1, w1⟩ := hrec _ _ _ _ hra
          obtain ⟨g2, w2⟩ := hrec _ _ _ _ hrb
          cases dr with
          | none =>
            dsimp only at h
            rcases hds : derivative_sum st2 sp dl none with ⟨st3, o3⟩
            rw [hds] at h
            injection h with h1
            injection h1 with ha hb
            subst ha
            subst hb
            obtain ⟨g3, hil3, w3⟩ := derivative_sum_keep hds
            refine ⟨(g1.trans g2).trans g3, fun hwf => ?_⟩
            obtain ⟨wf1, hdl⟩ := w1 hwf
            obtain ⟨wf2, -⟩ := w2 wf1
            exact w3 wf2 (hdl.mono g2.rlen_le) OptLt.none
          | some d =>
            dsimp only at h
            rcases hn : gen_neg st2 sp d with ⟨st3, n⟩
            rw [hn] at h
            dsimp only at h
            rcases hds : derivative_sum st3 sp dl (some n) with ⟨st4, o4⟩
            rw [hds] at h
            injection h with h1
            injection h1 with ha hb
            subst ha
            subst hb
            obtain ⟨g3, hn', hrl3, hil3, w3⟩ := gen_neg_keep hn
            obtain ⟨g4, hil4, w4⟩ := derivative_sum_keep hds
            refine ⟨((g1.trans g2).trans g3).trans g4, fun hwf => ?_⟩
            obtain ⟨wf1, hdl⟩ := w1 hwf
            obtain ⟨wf2, hdr⟩ := w2 wf1
            have wf3 := w3 wf2 (hdr d rfl)
            exact w4 wf3 (hdl.mono (g2.trans g3).rlen_le) (OptLt.some hn')
    | multiply =>
      simp only [intGo] at h
      rcases hra : rec st (.int lhs) with m | ⟨st1, dl⟩
      · rw [hra] at h
        dsimp only at h
        exact Except.noConfusion h
      · rw [hra] at h
        dsimp only at h
        rcases hrb : rec st1 (.int rhs) with m | ⟨st2, dr⟩
        · rw [hrb] at h
          dsimp only at h
          exact Except.noConfusion h
        · rw [hrb] at h
          dsimp only at h
          rcases h3 : AutoDiff.add_to_mir st2 sp (.integerConversion lhs) with ⟨st3, lc⟩
          rw [h3] at h
          dsimp only at h
          rcases h4 : AutoDiff.add_to_mir st3 sp (.integerConversion rhs) with ⟨st4, rc⟩
          rw [h4] at h
          dsimp only at h
          rcases hmd : mul_derivative st4 sp lc dl rc dr with ⟨st5, o5⟩
          rw [hmd] at h
          injection h with h1
          injection h1 with ha hb
          subst ha
          subst hb
          obtain ⟨g1, w1⟩ := hrec _ _ _ _ hra
          obtain ⟨g2, w2⟩ := hrec _ _ _ _ hrb
          have g3 := grows_of_real_push h3
          have g4 := grows_of_real_push h4
          obtain ⟨hrl3, hlc, hil3⟩ := rlen_of_real_push h3
          obtain ⟨hrl4, hrc, hil4⟩ := rlen_of_real_push h4
          obtain ⟨g5, hil5, w5⟩ := mul_derivative_keep hmd
          refine ⟨(((g1.trans g2).trans g3).trans g4).trans g5, fun hwf => ?_⟩
          have he := lt_ilen_of_shape hnd hne
          have hch : ∀ x ∈ (IntegerExpression.binaryOperator lhs ⟨.multiply, opsp⟩ rhs).iRefs, x < e := by
            have hx := (hwf.2 e he).1
            rw [hnd] at hx
            exact hx
          have hl : lhs < ilen st := Nat.lt_trans (hch lhs (by simp [IntegerExpression.iRefs])) he
          have hr : rhs < ilen st := Nat.lt_trans (hch rhs (by simp [IntegerExpression.iRefs])) he
          obtain ⟨wf1, hdl⟩ := w1 hwf
          obtain ⟨wf2, hdr⟩ := w2 wf1
          have hg12i := (g1.trans g2).ilen_le
          have wf3 := (add_to_mir_keep h3).2.2.2.2.2.2.2 wf2 (by simp [RealExpression.rRefs])
            (by simp only [RealExpression.iRefs]; exact forall_mem_one (by omega))
            (by simp [RealExpression.sRefs])
          have wf4 := (add_to_mir_keep h4).2.2.2.2.2.2.2 wf3 (by simp [RealExpression.rRefs])
            (by simp only [RealExpression.iRefs]; exact forall_mem_one (by omega))
            (by simp [RealExpression.sRefs])
          have hg2 := g2.rlen_le
          exact w5 wf4 (by omega) (by omega) (hdl.mono (by omega)) (hdr.mono (by omega))
    | divide =>
      simp only [intGo] at h
      rcases hra : rec st (.int lhs) with m | ⟨st1, dl⟩
      · rw [hra] at h
        dsimp only at h
        exact Except.noConfusion h
      · rw [hra] at h
        dsimp only at h
        rcases hrb : rec st1 (.int rhs) with m | ⟨st2, dr⟩
        · rw [hrb] at h
          dsimp only at h
          exact Except.noConfusion h
        · rw [hrb] at h
          dsimp only at h
          rcases h3 : AutoDiff.add_to_mir st2 sp (.integerConversion lhs) with ⟨st3, lc⟩
          rw [h3] at h
          dsimp only at h
          rcases h4 : AutoDiff.add_to_mir st3 sp (.integerConversion rhs) with ⟨st4, rc⟩
          rw [h4] at h
          dsimp only at h
          rcases hmd : quotient_derivative st4 sp lc dl rc dr with ⟨st5, o5⟩
          rw [hmd] at h
          injection h with h1
          injection h1 with ha hb
          subst ha
          subst hb
          obtain ⟨g1, w1⟩ := hrec _ _ _ _ hra
          obtain ⟨g2, w2⟩ := hrec _ _ _ _ hrb
          have g3 := grows_of_real_push h3
          have g4 := grows_of_real_push h4
          obtain ⟨hrl3, hlc, hil3⟩ := rlen_of_real_push h3
          obtain ⟨hrl4, hrc, hil4⟩ := rlen_of_real_push h4
          obtain ⟨g5, hil5, w5⟩ := quotient_derivative_keep hmd
          refine ⟨(((g1.trans g2).trans g3).trans g4).trans g5, fun hwf => ?_⟩
          have he := lt_ilen_of_shape hnd hne
          have hch : ∀ x ∈ (IntegerExpression.binaryOperator lhs ⟨.divide, opsp⟩ rhs).iRefs, x < e := by
            have hx := (hwf.2 e he).1
            rw [hnd] at hx
            exact hx
          have hl : lhs < ilen st := Nat.lt_trans (hch lhs (by simp [IntegerExpression.iRefs])) he
          have hr : rhs < ilen st := Nat.lt_trans (hch rhs (by simp [IntegerExpression.iRefs])) he
          obtain ⟨wf1, hdl⟩ := w1 hwf
          obtain ⟨wf2, hdr⟩ := w2 wf1
          have hg12i := (g1.trans g2).ilen_le
          have wf3 := (add_to_mir_keep h3).2.2.2.2.2.2.2 wf2 (by simp [RealExpression.rRefs])
            (by simp only [RealExpression.iRefs]; exact forall_mem_one (by omega))
            (by simp [RealExpression.sRefs])
          have wf4 := (add_to_mir_keep h4).2.2.2.2.2.2.2 wf3 (by simp [RealExpression.rRefs])
            (by simp only [RealExpression.iRefs]; exact forall_mem_one (by omega))
            (by simp [RealExpression.sRefs])
          have hg2 := g2.rlen_le
          exact w5 wf4 (by omega) (by omega) (hdl.mono (by omega)) (hdr.mono (by omega))
    | power =>
      simp only [intGo] at h
      rcases hra : rec st (.int lhs) with m | ⟨st1, dl⟩
      · rw [hra] at h
        dsimp only at h
        exact Except.noConfusion h
      · rw [hra] at h
        dsimp only at h
        rcases hrb : rec st1 (.int rhs) with m | ⟨st2, dr⟩
        · rw [hrb] at h
          dsimp only at h
          exact Except.noConfusion h
        · rw [hrb] at h
          dsimp only at h
          rcases h3 : AutoDiff.add_to_mir st2 sp (.integerConversion lhs) with ⟨st3, lc⟩
          rw [h3] at h
          dsimp only at h
          rcases h4 : AutoDiff.add_to_mir st3 sp (.integerConversion rhs) with ⟨st4, rc⟩
          rw [h4] at h
          dsimp only at h
          rcases h5 : AutoDiff.add_to_mir st4 sp (.integerConversion e) with ⟨st5, original⟩
          rw [h5] at h
          dsimp only at h
          rcases hpd : pow_derivative st5 sp lc dl rc dr original with ⟨st6, o6⟩
          rw [hpd] at h
          injection h with h1
          injection h1 with ha hb
          subst ha
          subst hb
          obtain ⟨g1, w1⟩ := hrec _ _ _ _ hra
          obtain ⟨g2, w2⟩ := hrec _ _ _ _ hrb
          have g3 := grows_of_real_push h3
          have g4 := grows_of_real_push h4
          have g5 := grows_of_real_push h5
          obtain ⟨hrl3, hlc, hil3⟩ := rlen_of_real_push h3
          obtain ⟨hrl4, hrc, hil4⟩ := rlen_of_real_push h4
          obtain ⟨hrl5, horig, hil5⟩ := rlen_of_real_push h5
          obtain ⟨g6, hil6, w6⟩ := pow_derivative_keep hpd
          refine ⟨((((g1.trans g2).trans g3).trans g4).trans g5).trans g6, fun hwf => ?_⟩
          have he := lt_ilen_of_shape hnd hne
          have hch : ∀ x ∈ (IntegerExpression.binaryOperator lhs ⟨.power, opsp⟩ rhs).iRefs, x < e := by
            have hx := (hwf.2 e he).1
            rw [hnd] at hx
            exact hx
          have hl : lhs < ilen st := Nat.lt_trans (hch lhs (by simp [IntegerExpression.iRefs])) he
          have hr : rhs < ilen st := Nat.lt_trans (hch rhs (by simp [IntegerExpression.iRefs])) he
          obtain ⟨wf1, hdl⟩ := w1 hwf
          obtain ⟨wf2, hdr⟩ := w2 wf1
          have hg12i := (g1.trans g2).ilen_le
          have wf3 := (add_to_mir_keep h3).2.2.2.2.2.2.2 wf2 (by simp [RealExpression.rRefs])
            (by simp only [RealExpression.iRefs]; exact forall_mem_one (by omega))
            (by simp [RealExpression.sRefs])
          have wf4 := (add_to_mir_keep h4).2.2.2.2.2.2.2 wf3 (by simp [RealExpression.rRefs])
            (by simp only [RealExpression.iRefs]; exact forall_mem_one (by omega))
            (by simp [RealExpression.sRefs])
          have wf5 := (add_to_mir_keep h5).2.2.2.2.2.2.2 wf4 (by simp [RealExpression.rRefs])
            (by simp only [RealExpression.iRefs]; exact forall_mem_one (by omega))
            (by simp [RealExpression.sRefs])
          have hg2 := g2.rlen_le
          exact w6 wf5 (by omega) (by omega) (by omega) (hdl.mono (by omega))
            (hdr.mono (by omega))
    | modulus =>
      simp only [intGo] at h
      injection h with h1
      injection h1 with ha hb
      subst ha
      subst hb
      exact ⟨grows_of_arenas rfl rfl rfl rfl, fun hwf => ⟨hwf, OptLt.none⟩⟩
    | shiftLeft =>
      simp only [intGo] at h
      rcases hra : rec st (.int rhs) with m | ⟨st1, dbOpt⟩
      · rw [hra] at h
        dsimp only at h
        exact Except.noConfusion h
      · rw [hra] at h
        obtain ⟨g1, w1⟩ := hrec _ _ _ _ hra
        have he' : st.mir.WF → lhs < ilen st ∧ rhs < ilen st := by
          intro hwf
          have he := lt_ilen_of_shape hnd hne
          have hch : ∀ x ∈ (IntegerExpression.binaryOperator lhs ⟨.shiftLeft, opsp⟩ rhs).iRefs, x < e := by
            have hx := (hwf.2 e he).1
            rw [hnd] at hx
            exact hx
          exact ⟨Nat.lt_trans (hch lhs (by simp [IntegerExpression.iRefs])) he,
            Nat.lt_trans (hch rhs (by simp [IntegerExpression.iRefs])) he⟩
        cases dbOpt with
        | some db =>
          dsimp only at h
          rcases h2 : AutoDiff.add_to_mir st1 sp (.integerConversion lhs) with ⟨st2, lc⟩
          rw [h2] at h
          dsimp only at h
          rcases h3 : gen_constant st2 sp .ln2 with ⟨st3, c2⟩
          rw [h3] at h
          dsimp only at h
          rcases h4 : gen_binary_op st3 sp c2 .multiply lc with ⟨st4, p1⟩
          rw [h4] at h
          dsimp only at h
          rcases h5 : gen_binary_op st4 sp p1 .multiply db with ⟨st5, p2⟩
          rw [h5] at h
          dsimp only at h
          rcases hrb : rec st5 (.int lhs) with m | ⟨st6, dl⟩
          · rw [hrb] at h
            dsimp only at h
            exact Except.noConfusion h
          · rw [hrb] at h
            dsimp only at h
            rcases hds : derivative_sum st6 sp dl (some p2) with ⟨st7, o7⟩
            rw [hds] at h
            obtain ⟨g2'⟩ : Grows st1 st2 ∧ True := ⟨grows_of_real_push h2, trivial⟩
            obtain ⟨hrl2, hlc, hil2⟩ := rlen_of_real_push h2
            obtain ⟨g3, hc2, hrl3, hil3, w3⟩ := gen_constant_keep h3
            obtain ⟨g4, hp1, hrl4, hil4, -, w4⟩ := gen_binary_op_keep h4
            obtain ⟨g5, hp2, hrl5, hil5, -, w5⟩ := gen_binary_op_keep h5
            obtain ⟨g6, w6⟩ := hrec _ _ _ _ hrb
            obtain ⟨g7, hil7, w7⟩ := derivative_sum_keep hds
            cases o7 with
            | none =>
              dsimp only at h
              injection h with h1
              injection h1 with ha hb
              subst ha
              subst hb
              refine ⟨(((((g1.trans g2').trans g3).trans g4).trans g5).trans g6).trans g7,
                fun hwf => ?_⟩
              obtain ⟨hl, hr⟩ := he' hwf
              obtain ⟨wf1, hdb⟩ := w1 hwf
              have hg1i := g1.ilen_le
              have wf2 := (add_to_mir_keep h2).2.2.2.2.2.2.2 wf1 (by simp [RealExpression.rRefs])
                (by simp only [RealExpression.iRefs]; exact forall_mem_one (by omega))
                (by simp [RealExpression.sRefs])
              have wf3 := w3 wf2
              have wf4 := w4 wf3 (by omega) (by omega)
              have hdb' := hdb db rfl
              have wf5 := w5 wf4 (by omega) (by omega)
              obtain ⟨wf6, hdl⟩ := w6 wf5
              exact ⟨(w7 wf6 hdl (OptLt.some (by have := g6.rlen_le; omega))).1, OptLt.none⟩
            | some s =>
              dsimp only at h
              rcases h8 : AutoDiff.add_to_mir st7 sp (.integerConversion e) with ⟨st8, ce⟩
              rw [h8] at h
              dsimp only at h
              rcases h9 : gen_binary_op st8 sp s .multiply ce with ⟨st9, rr⟩
              rw [h9] at h
              dsimp only at h
              injection h with h1
              injection h1 with ha hb
              subst ha
              subst hb
              have g8 := grows_of_real_push h8
              obtain ⟨hrl8, hce, hil8⟩ := rlen_of_real_push h8
              obtain ⟨g9, hrr, hrl9, hil9, -, w9⟩ := gen_binary_op_keep h9
              refine ⟨(((((((g1.trans g2').trans g3).trans g4).trans g5).trans g6).trans g7).trans g8).trans g9,
                fun hwf => ?_⟩
              obtain ⟨hl, hr⟩ := he' hwf
              obtain ⟨wf1, hdb⟩ := w1 hwf
              have hg1i := g1.ilen_le
              have wf2 := (add_to_mir_keep h2).2.2.2.2.2.2.2 wf1 (by simp [RealExpression.rRefs])
                (by simp only [RealExpression.iRefs]; exact forall_mem_one (by omega))
                (by simp [RealExpression.sRefs])
              have wf3 := w3 wf2
              have wf4 := w4 wf3 (by omega) (by omega)
              have hdb' := hdb db rfl
              have wf5 := w5 wf4 (by omega) (by omega)
              obtain ⟨wf6, hdl⟩ := w6 wf5
              obtain ⟨wf7, hs⟩ := w7 wf6 hdl (OptLt.some (by have := g6.rlen_le; omega))
              have hs' := hs s rfl
              have he := lt_ilen_of_shape hnd hne
              have hgi : ilen st ≤ ilen st7 := by
                have h1i := g1.ilen_le
                have h6i := g6.ilen_le
                omega
              have wf8 := (add_to_mir_keep h8).2.2.2.2.2.2.2 wf7 (by simp [RealExpression.rRefs])
                (by simp only [RealExpression.iRefs]; exact forall_mem_one (by omega))
                (by simp [RealExpression.sRefs])
              have wf9 := w9 wf8 (by omega) (by omega)
              exact ⟨wf9, OptLt.some hrr⟩
        | none =>
          dsimp only at h
          rcases hrb : rec st1 (.int lhs) with m | ⟨st6, dl⟩
          · rw [hrb] at h
            dsimp only at h
            exact Except.noConfusion h
          · rw [hrb] at h
            dsimp only at h
            rcases hds : derivative_sum st6 sp dl none with ⟨st7, o7⟩
            rw [hds] at h
            obtain ⟨g6, w6⟩ := hrec _ _ _ _ hrb
            obtain ⟨g7, hil7, w7⟩ := derivative_sum_keep hds
            cases o7 with
            | none =>
              dsimp only at h
              injection h with h1
              injection h1 with ha hb
              subst ha
              subst hb
              refine ⟨(g1.trans g6).trans g7, fun hwf => ?_⟩
              obtain ⟨wf1, -⟩ := w1 hwf
              obtain ⟨wf6, hdl⟩ := w6 wf1
              exact ⟨(w7 wf6 hdl OptLt.none).1, OptLt.none⟩
            | some s =>
              dsimp only at h
              rcases h8 : AutoDiff.add_to_mir st7 sp (.integerConversion e) with ⟨st8, ce⟩
              rw [h8] at h
              dsimp only at h
              rcases h9 : gen_binary_op st8 sp s .multiply ce with ⟨st9, rr⟩
              rw [h9] at h
              dsimp only at h
              injection h with h1
              injection h1 with ha hb
              subst ha
              subst hb
              have g8 := grows_of_real_push h8
              obtain ⟨hrl8, hce, hil8⟩ := rlen_of_real_push h8
              obtain ⟨g9, hrr, hrl9, hil9, -, w9⟩ := gen_binary_op_keep h9
              refine ⟨(((g1.trans g6).trans g7).trans g8).trans g9, fun hwf => ?_⟩
              obtain ⟨wf1, -⟩ := w1 hwf
              obtain ⟨wf6, hdl⟩ := w6 wf1
              obtain ⟨wf7, hs⟩ := w7 wf6 hdl OptLt.none
              have hs' := hs s rfl
              have he := lt_ilen_of_shape hnd hne
              have hgi : ilen st ≤ ilen st7 := by
                have h1i := g1.ilen_le
                have h6i := g6.ilen_le
                omega
              have wf8 := (add_to_mir_keep h8).2.2.2.2.2.2.2 wf7 (by simp [RealExpression.rRefs])
                (by simp only [RealExpression.iRefs]; exact forall_mem_one (by omega))
                (by simp [RealExpression.sRefs])
              have wf9 := w9 wf8 (by omega) (by omega)
              exact ⟨wf9, OptLt.some hrr⟩
    | shiftRight =>
      simp only [intGo] at h
      rcases hra : rec st (.int rhs) with m | ⟨st1, dbOpt⟩
      · rw [hra] at h
        dsimp only at h
        exact Except.noConfusion h
      · rw [hra] at h
        obtain ⟨g1, w1⟩ := hrec _ _ _ _ hra
        have he' : st.mir.WF → lhs < ilen st ∧ rhs < ilen st := by
          intro hwf
          have he := lt_ilen_of_shape hnd hne
          have hch : ∀ x ∈ (IntegerExpression.binaryOperator lhs ⟨.shiftRight, opsp⟩ rhs).iRefs, x < e := by
            have hx := (hwf.2 e he).1
            rw [hnd] at hx
            exact hx
          exact ⟨Nat.lt_trans (hch lhs (by simp [IntegerExpression.iRefs])) he,
            Nat.lt_trans (hch rhs (by simp [IntegerExpression.iRefs])) he⟩
        cases dbOpt with
        | some db =>
          dsimp only at h
          rcases h2 : AutoDiff.add_to_mir st1 sp (.integerConversion lhs) with ⟨st2, lc⟩
          rw [h2] at h
          dsimp only at h
          rcases h3 : gen_constant st2 sp .negLn2 with ⟨st3, c2⟩
          rw [h3] at h
          dsimp only at h
          rcases h4 : gen_binary_op st3 sp c2 .multiply lc with ⟨st4, p1⟩
          rw [h4] at h
          dsimp only at h
          rcases h5 : gen_binary_op st4 sp p1 .multiply db with ⟨st5, p2⟩
          rw [h5] at h
          dsimp only at h
          rcases hrb : rec st5 (.int lhs) with m | ⟨st6, dl⟩
          · rw [hrb] at h
            dsimp only at h
            exact Except.noConfusion h
          · rw [hrb] at h
            dsimp only at h
            rcases hds : derivative_sum st6 sp dl (some p2) with ⟨st7, o7⟩
            rw [hds] at h
            obtain ⟨g2'⟩ : Grows st1 st2 ∧ True := ⟨grows_of_real_push h2, trivial⟩
            obtain ⟨hrl2, hlc, hil2⟩ := rlen_of_real_push h2
            obtain ⟨g3, hc2, hrl3, hil3, w3⟩ := gen_constant_keep h3
            obtain ⟨g4, hp1, hrl4, hil4, -, w4⟩ := gen_binary_op_keep h4
            obtain ⟨g5, hp2, hrl5, hil5, -, w5⟩ := gen_binary_op_keep h5
            obtain ⟨g6, w6⟩ := hrec _ _ _ _ hrb
            obtain ⟨g7, hil7, w7⟩ := derivative_sum_keep hds
            cases o7 with
            | none =>
              dsimp only at h
              injection h with h1
              injection h1 with ha hb
              subst ha
              subst hb
              refine ⟨(((((g1.trans g2').trans g3).trans g4).trans g5).trans g6).trans g7,
                fun hwf => ?_⟩
              obtain ⟨hl, hr⟩ := he' hwf
              obtain ⟨wf1, hdb⟩ := w1 hwf
              have hg1i := g1.ilen_le
              have wf2 := (add_to_mir_keep h2).2.2.2.2.2.2.2 wf1 (by simp [RealExpression.rRefs])
                (by simp only [RealExpression.iRefs]; exact forall_mem_one (by omega))
                (by simp [RealExpression.sRefs])
              have wf3 := w3 wf2
              have wf4 := w4 wf3 (by omega) (by omega)
              have hdb' := hdb db rfl
              have wf5 := w5 wf4 (by omega) (by omega)
              obtain ⟨wf6, hdl⟩ := w6 wf5
              exact ⟨(w7 wf6 hdl (OptLt.some (by have := g6.rlen_le; omega))).1, OptLt.none⟩
            | some s =>
              dsimp only at h
              rcases h8 : AutoDiff.add_to_mir st7 sp (.integerConversion e) with ⟨st8, ce⟩
              rw [h8] at h
              dsimp only at h
              rcases h9 : gen_binary_op st8 sp s .multiply ce with ⟨st9, rr⟩
              rw [h9] at h
              dsimp only at h
              injection h with h1
              injection h1 with ha hb
              subst ha
              subst hb
              have g8 := grows_of_real_push h8
              obtain ⟨hrl8, hce, hil8⟩ := rlen_of_real_push h8
              obtain ⟨g9, hrr, hrl9, hil9, -, w9⟩ := gen_binary_op_keep h9
              refine ⟨(((((((g1.trans g2').trans g3).trans g4).trans g5).trans g6).trans g7).trans g8).trans g9,
                fun hwf => ?_⟩
              obtain ⟨hl, hr⟩ := he' hwf
              obtain ⟨wf1, hdb⟩ := w1 hwf
              have hg1i := g1.ilen_le
              have wf2 := (add_to_mir_keep h2).2.2.2.2.2.2.2 wf1 (by simp [RealExpression.rRefs])
                (by simp only [RealExpression.iRefs]; exact forall_mem_one (by omega))
                (by simp [RealExpression.sRefs])
              have wf3 := w3 wf2
              have wf4 := w4 wf3 (by omega) (by omega)
              have hdb' := hdb db rfl
              have wf5 := w5 wf4 (by omega) (by omega)
              obtain ⟨wf6, hdl⟩ := w6 wf5
              obtain ⟨wf7, hs⟩ := w7 wf6 hdl (OptLt.some (by have := g6.rlen_le; omega))
              have hs' := hs s rfl
              have he := lt_ilen_of_shape hnd hne
              have hgi : ilen st ≤ ilen st7 := by
                have h1i := g1.ilen_le
                have h6i := g6.ilen_le
                omega
              have wf8 := (add_to_mir_keep h8).2.2.2.2.2.2.2 wf7 (by simp [RealExpression.rRefs])
                (by simp only [RealExpression.iRefs]; exact forall_mem_one (by omega))
                (by simp [RealExpression.sRefs])
              have wf9 := w9 wf8 (by omega) (by omega)
              exact ⟨wf9, OptLt.some hrr⟩
        | none =>
          dsimp only at h
          rcases hrb : rec st1 (.int lhs) with m | ⟨st6, dl⟩
          · rw [hrb] at h
            dsimp only at h
            exact Except.noConfusion h
          · rw [hrb] at h
            dsimp only at h
            rcases hds : derivative_sum st6 sp dl none with ⟨st7, o7⟩
            rw [hds] at h
            obtain ⟨g6, w6⟩ := hrec _ _ _ _ hrb
            obtain ⟨g7, hil7, w7⟩ := derivative_sum_keep hds
            cases o7 with
            | none =>
              dsimp only at h
              injection h with h1
              injection h1 with ha hb
              subst ha
              subst hb
              refine ⟨(g1.trans g6).trans g7, fun hwf => ?_⟩
              obtain ⟨wf1, -⟩ := w1 hwf
              obtain ⟨wf6, hdl⟩ := w6 wf1
              exact ⟨(w7 wf6 hdl OptLt.none).1, OptLt.none⟩
            | some s =>
              dsimp only at h
              rcases h8 : AutoDiff.add_to_mir st7 sp (.integerConversion e) with ⟨st8, ce⟩
              rw [h8] at h
              dsimp only at h
              rcases h9 : gen_binary_op st8 sp s .multiply ce with ⟨st9, rr⟩
              rw [h9] at h
              dsimp only at h
              injection h with h1
              injection h1 with ha hb
              subst ha
              subst hb
              have g8 := grows_of_real_push h8
              obtain ⟨hrl8, hce, hil8⟩ := rlen_of_real_push h8
              obtain ⟨g9, hrr, hrl9, hil9, -, w9⟩ := gen_binary_op_keep h9
              refine ⟨(((g1.trans g6).trans g7).trans g8).trans g9, fun hwf => ?_⟩
              obtain ⟨wf1, -⟩ := w1 hwf
              obtain ⟨wf6, hdl⟩ := w6 wf1
              obtain ⟨wf7, hs⟩ := w7 wf6 hdl OptLt.none
              have hs' := hs s rfl
              have he := lt_ilen_of_shape hnd hne
              have hgi : ilen st ≤ ilen st7 := by
                have h1i := g1.ilen_le
                have h6i := g6.ilen_le
                omega
              have wf8 := (add_to_mir_keep h8).2.2.2.2.2.2.2 wf7 (by simp [RealExpression.rRefs])
                (by simp only [RealExpression.iRefs]; exact forall_mem_one (by omega))
                (by simp [RealExpression.sRefs])
              have wf9 := w9 wf8 (by omega) (by omega)
              exact ⟨wf9, OptLt.some hrr⟩
    | xor =>
      simp only [intGo] at h
      injection h with h1
      injection h1 with ha hb
      subst ha
      subst hb
      exact ⟨grows_of_arenas rfl rfl rfl rfl, fun hwf => ⟨hwf, OptLt.none⟩⟩
    | nxor =>
      simp only [intGo] at h
      injection h with h1
      injection h1 with ha hb
      subst ha
      subst hb
      exact ⟨grows_of_arenas rfl rfl rfl rfl, fun hwf => ⟨hwf, OptLt.none⟩⟩
    | and =>
      simp only [intGo] at h
      injection h with h1
      injection h1 with ha hb
      subst ha
      subst hb
      exact ⟨grows_of_arenas rfl rfl rfl rfl, fun hwf => ⟨hwf, OptLt.none⟩⟩
    | or =>
      simp only [intGo] at h
      injection h with h1
      injection h1 with ha hb
      subst ha
      subst hb
      exact ⟨grows_of_arenas rfl rfl rfl rfl, fun hwf => ⟨hwf, OptLt.none⟩⟩
    | logicOr =>
      simp only [intGo] at h
      injection h with h1
      injection h1 with ha hb
      subst ha
      subst hb
      exact ⟨grows_of_arenas rfl rfl rfl rfl, fun hwf => ⟨hwf, OptLt.none⟩⟩
    | logicAnd =>
      simp only [intGo] at h
      injection h with h1
      injection h1 with ha hb
      subst ha
      subst hb
      exact ⟨grows_of_arenas rfl rfl rfl rfl, fun hwf => ⟨hwf, OptLt.none⟩⟩
  | integerComparison lc opc rc =>
    simp only [intGo] at h
    injection h with h1
    injection h1 with ha hb
    subst ha
    subst hb
    exact ⟨grows_of_arenas rfl rfl rfl rfl, fun hwf => ⟨hwf, OptLt.none⟩⟩
  | realComparison lc opc rc =>
    simp only [intGo] at h
    injection h with h1
    injection h1 with ha hb
    subst ha
    subst hb
    exact ⟨grows_of_arenas rfl rfl rfl rfl, fun hwf => ⟨hwf, OptLt.none⟩⟩
  | unaryOperator op a =>
    obtain ⟨opc, opsp⟩ := op
    cases opc with
    | arithmeticNegate =>
      simp only [intGo] at h
      rcases hra : rec st (.int a) with m | ⟨st1, da⟩
      · rw [hra] at h
        dsimp only at h
        exact Except.noConfusion h
      · rw [hra] at h
        obtain ⟨g1, w1⟩ := hrec _ _ _ _ hra
        cases da with
        | none =>
          dsimp only at h
          injection h with h1
          injection h1 with ha hb
          subst ha
          subst hb
          exact ⟨g1, fun hwf => ⟨(w1 hwf).1, OptLt.none⟩⟩
        | some d =>
          dsimp only at h
          rcases h2 : gen_neg st1 sp d with ⟨st2, rr⟩
          rw [h2] at h
          dsimp only at h
          injection h with h1
          injection h1 with ha hb
          subst ha
          subst hb
          obtain ⟨g2, hrr, hrl2, hil2, w2⟩ := gen_neg_keep h2
          refine ⟨g1.trans g2, fun hwf => ?_⟩
          obtain ⟨wf1, hda⟩ := w1 hwf
          exact ⟨w2 wf1 (hda d rfl), OptLt.some hrr⟩
    | explicitPositive =>
      simp only [intGo] at h
      exact hrec _ _ _ _ h
    | bitNegate =>
      simp only [intGo] at h
      injection h with h1
      injection h1 with ha hb
      subst ha
      subst hb
      exact ⟨grows_of_arenas rfl rfl rfl rfl, fun hwf => ⟨hwf, OptLt.none⟩⟩
    | logicNegate =>
      simp only [intGo] at h
      injection h with h1
      injection h1 with ha hb
      subst ha
      subst hb
      exact ⟨grows_of_arenas rfl rfl rfl rfl, fun hwf => ⟨hwf, OptLt.none⟩⟩
  | condition c t fv =>
    have hne : ∀ v, IntegerExpression.condition c t fv ≠ .literal v :=
      fun v hv => IntegerExpression.noConfusion hv
    simp only [intGo] at h
    rcases hra : rec st (.int t) with m | ⟨st1, dt⟩
    · rw [hra] at h
      dsimp only at h
      exact Except.noConfusion h
    · rw [hra] at h
      dsimp only at h
      rcases hrb : rec st1 (.int fv) with m | ⟨st2, df⟩
      · rw [hrb] at h
        dsimp only at h
        exact Except.noConfusion h
      · rw [hrb] at h
        dsimp only at h
        rcases hct : condTail st2 sp c dt df with ⟨st3, o3⟩
        rw [hct] at h
        injection h with h1
        injection h1 with ha hb
        subst ha
        subst hb
        obtain ⟨g1, w1⟩ := hrec _ _ _ _ hra
        obtain ⟨g2, w2⟩ := hrec _ _ _ _ hrb
        obtain ⟨g3, hil3, w3⟩ := condTail_keep hct
        refine ⟨(g1.trans g2).trans g3, fun hwf => ?_⟩
        have he := lt_ilen_of_shape hnd hne
        have hci : ∀ x ∈ (IntegerExpression.condition c t fv).iRefs, x < e := by
          have hx := (hwf.2 e he).1
          rw [hnd] at hx
          exact hx
        have hc : c < ilen st := Nat.lt_trans (hci c (by simp [IntegerExpression.iRefs])) he
        obtain ⟨wf1, hdt⟩ := w1 hwf
        obtain ⟨wf2, hdf⟩ := w2 wf1
        have hg12 := (g1.trans g2).ilen_le
        exact w3 wf2 (by omega) (hdt.mono g2.rlen_le) hdf
  | min a b =>
    have hne : ∀ v, IntegerExpression.min a b ≠ .literal v :=
      fun v hv => IntegerExpression.noConfusion hv
    simp only [intGo] at h
    rcases h1 : gen_lt_condition_int st sp a b with ⟨st1, cond⟩
    rw [h1] at h
    dsimp only at h
    rcases hra : rec st1 (.int a) with m | ⟨st2, da⟩
    · rw [hra] at h
      dsimp only at h
      exact Except.noConfusion h
    · rw [hra] at h
      dsimp only at h
      rcases hrb : rec st2 (.int b) with m | ⟨st3, db⟩
      · rw [hrb] at h
        dsimp only at h
        exact Except.noConfusion h
      · rw [hrb] at h
        dsimp only at h
        rcases hct : condTail st3 sp cond da db with ⟨st4, o4⟩
        rw [hct] at h
        injection h with h1'
        injection h1' with ha hb
        subst ha
        subst hb
        obtain ⟨g1, hcond, hil1, hrl1, -, w1⟩ := gen_lt_condition_int_keep h1
        obtain ⟨g2, w2⟩ := hrec _ _ _ _ hra
        obtain ⟨g3, w3⟩ := hrec _ _ _ _ hrb
        obtain ⟨g4, hil4, w4⟩ := condTail_keep hct
        refine ⟨((g1.trans g2).trans g3).trans g4, fun hwf => ?_⟩
        have he := lt_ilen_of_shape hnd hne
        have hch : ∀ x ∈ (IntegerExpression.min a b).iRefs, x < e := by
          have hx := (hwf.2 e he).1
          rw [hnd] at hx
          exact hx
        have ha' : a < ilen st := Nat.lt_trans (hch a (by simp [IntegerExpression.iRefs])) he
        have hb' : b < ilen st := Nat.lt_trans (hch b (by simp [IntegerExpression.iRefs])) he
        have wf1 := w1 hwf ha' hb'
        obtain ⟨wf2, hda⟩ := w2 wf1
        obtain ⟨wf3, hdb⟩ := w3 wf2
        have hg23 := (g2.trans g3).ilen_le
        exact w4 wf3 (by omega) (hda.mono g3.rlen_le) hdb
  | max a b =>
    have hne : ∀ v, IntegerExpression.max a b ≠ .literal v :=
      fun v hv => IntegerExpression.noConfusion hv
    simp only [intGo] at h
    rcases h1 : gen_lt_condition_int st sp b a with ⟨st1, cond⟩
    rw [h1] at h
    dsimp only at h
    rcases hra : rec st1 (.int a) with m | ⟨st2, da⟩
    · rw [hra] at h
      dsimp only at h
      exact Except.noConfusion h
    · rw [hra] at h
      dsimp only at h
      rcases hrb : rec st2 (.int b) with m | ⟨st3, db⟩
      · rw [hrb] at h
        dsimp only at h
        exact Except.noConfusion h
      · rw [hrb] at h
        dsimp only at h
        rcases hct : condTail st3 sp cond da db with ⟨st4, o4⟩
        rw [hct] at h
        injection h with h1'
        injection h1' with ha hb
        subst ha
        subst hb
        obtain ⟨g1, hcond, hil1, hrl1, -, w1⟩ := gen_lt_condition_int_keep h1
        obtain ⟨g2, w2⟩ := hrec _ _ _ _ hra
        obtain ⟨g3, w3⟩ := hrec _ _ _ _ hrb
        obtain ⟨g4, hil4, w4⟩ := condTail_keep hct
        refine ⟨((g1.trans g2).trans g3).trans g4, fun hwf => ?_⟩
        have he := lt_ilen_of_shape hnd hne
        have hch : ∀ x ∈ (IntegerExpression.max a b).iRefs, x < e := by
          have hx := (hwf.2 e he).1
          rw [hnd] at hx
          exact hx
        have ha' : a < ilen st := Nat.lt_trans (hch a (by simp [IntegerExpression.iRefs])) he
        have hb' : b < ilen st := Nat.lt_trans (hch b (by simp [IntegerExpression.iRefs])) he
        have wf1 := w1 hwf hb' ha'
        obtain ⟨wf2, hda⟩ := w2 wf1
        obtain ⟨wf3, hdb⟩ := w3 wf2
        have hg23 := (g2.trans g3).ilen_le
        exact w4 wf3 (by omega) (hda.mono g3.rlen_le) hdb
  | abs a =>
    have hne : ∀ v, IntegerExpression.abs a ≠ .literal v :=
      fun v hv => IntegerExpression.noConfusion hv
    simp only [intGo] at h
    rcases h1 : gen_int_constant st sp 0 with ⟨st1, z⟩
    rw [h1] at h
    dsimp only at h
    rcases h2 : gen_lt_condition_int st1 sp a z with ⟨st2, cond⟩
    rw [h2] at h
    dsimp only at h
    obtain ⟨g1, hz, hil1, hrl1, w1⟩ := gen_int_constant_keep h1
    obtain ⟨g2, hcond, hil2, hrl2, -, w2⟩ := gen_lt_condition_int_keep h2
    rcases hra : rec st2 (.int a) with m | ⟨st3, da⟩
    · rw [hra] at h
      dsimp only at h
      exact Except.noConfusion h
    · rw [hra] at h
      obtain ⟨g3, w3⟩ := hrec _ _ _ _ hra
      cases da with
      | none =>
        dsimp only at h
        injection h with h1'
        injection h1' with ha hb
        subst ha
        subst hb
        refine ⟨(g1.trans g2).trans g3, fun hwf => ?_⟩
        have he := lt_ilen_of_shape hnd hne
        have hch : ∀ x ∈ (IntegerExpression.abs a).iRefs, x < e := by
          have hx := (hwf.2 e he).1
          rw [hnd] at hx
          exact hx
        have ha' : a < ilen st := Nat.lt_trans (hch a (by simp [IntegerExpression.iRefs])) he
        have wf1 := w1 hwf
        have wf2 := w2 wf1 (by omega) (by omega)
        exact ⟨(w3 wf2).1, OptLt.none⟩
      | some d =>
        dsimp only at h
        rcases h4 : gen_neg st3 sp d with ⟨st4, n⟩
        rw [h4] at h
        dsimp only at h
        rcases h5 : st4.add_to_mir sp (.condition cond n d) with ⟨st5, rr⟩
        rw [h5] at h
        dsimp only at h
        injection h with h1'
        injection h1' with ha hb
        subst ha
        subst hb
        obtain ⟨g4, hn, hrl4, hil4, w4⟩ := gen_neg_keep h4
        have g5 := grows_of_real_push h5
        obtain ⟨hrl5, hrr, hil5⟩ := rlen_of_real_push h5
        refine ⟨(((g1.trans g2).trans g3).trans g4).trans g5, fun hwf => ?_⟩
        have he := lt_ilen_of_shape hnd hne
        have hch : ∀ x ∈ (IntegerExpression.abs a).iRefs, x < e := by
          have hx := (hwf.2 e he).1
          rw [hnd] at hx
          exact hx
        have ha' : a < ilen st := Nat.lt_trans (hch a (by simp [IntegerExpression.iRefs])) he
        have wf1 := w1 hwf
        have wf2 := w2 wf1 (by omega) (by omega)
        obtain ⟨wf3, hda⟩ := w3 wf2
        have hd := hda d rfl
        have wf4 := w4 wf3 hd
        have hg3i := g3.ilen_le
        refine ⟨(add_to_mir_keep h5).2.2.2.2.2.2.2 wf4 ?_ ?_ ?_, OptLt.some (by omega)⟩
        · simp only [RealExpression.rRefs]
          exact forall_mem_two (by omega) (by omega)
        · simp only [RealExpression.iRefs]
          exact forall_mem_one (by omega)
        · simp [RealExpression.sRefs]
  | variableReference v =>
    simp only [intGo] at h
    rcases hdv : st.mir.derivative_var v u with ⟨m1, dv⟩
    rw [hdv] at h
    dsimp only at h
    rcases h2 : AutoDiff.add_to_mir { st with mir := m1 } sp (.variableReference dv)
      with ⟨st2, rr⟩
    rw [h2] at h
    dsimp only at h
    injection h with h1
    injection h1 with ha hb
    subst ha
    subst hb
    obtain ⟨e1, e2, e3, e4⟩ := derivative_var_arenas hdv
    have g1 : Grows st { st with mir := m1 } := grows_of_arenas e1 e2 e3 e4
    have g2 := grows_of_real_push h2
    obtain ⟨hrl2, hrr, hil2⟩ := rlen_of_real_push h2
    refine ⟨g1.trans g2, fun hwf => ?_⟩
    have wf1 : m1.WF := derivative_var_wf hdv hwf
    have wf2 := (add_to_mir_keep h2).2.2.2.2.2.2.2 wf1 (by simp [RealExpression.rRefs])
      (by simp [RealExpression.iRefs]) (by simp [RealExpression.sRefs])
    exact ⟨wf2, OptLt.some (by omega)⟩
  | parameterReference p =>
    simp only [intGo] at h
    rcases hp : param_derivative st sp u p with ⟨st1, o1⟩
    rw [hp] at h
    injection h with h1
    injection h1 with ha hb
    subst ha
    subst hb
    obtain ⟨g1, hil1, w1⟩ := param_derivative_keep hp
    exact ⟨g1, fun hwf => w1 hwf⟩
  | netReference net =>
    simp only [intGo] at h
    exact Except.noConfusion h
  | portReference port =>
    simp only [intGo] at h
    exact Except.noConfusion h
  | portConnected port =>
    simp only [intGo] at h
    injection h with h1
    injection h1 with ha hb
    subst ha
    subst hb
    exact ⟨Grows.refl st, fun hwf => ⟨hwf, OptLt.none⟩⟩
  | paramGiven p =>
    simp only [intGo] at h
    injection h with h1
    injection h1 with ha hb
    subst ha
    subst hb
    exact ⟨Grows.refl st, fun hwf => ⟨hwf, OptLt.none⟩⟩
  | stringEq lc rc =>
    simp only [intGo] at h
    injection h with h1
    injection h1 with ha hb
    subst ha
    subst hb
    exact ⟨grows_of_arenas rfl rfl rfl rfl, fun hwf => ⟨hwf, OptLt.none⟩⟩
  | stringNEq lc rc =>
    simp only [intGo] at h
    injection h with h1
    injection h1 with ha hb
    subst ha
    subst hb
    exact ⟨grows_of_arenas rfl rfl rfl rfl, fun hwf => ⟨hwf, OptLt.none⟩⟩
  | realCast re =>
    simp only [intGo] at h
    exact hrec _ _ _ _ h

/-- The traversal preserves the append-only frame and I1 at every fuel. -/
theorem diff_keep : ∀ (f : Nat) (st : AutoDiff) (u : Unknown) (a : DiffArg)
    (st' : AutoDiff) (r : Option Nat), diff f st u a = .ok (st', r) → DK st st' r := by
  intro f
  induction f with
  | zero =>
    intro st u a st' r h
    simp only [diff] at h
    injection h with h1
    injection h1 with ha hb
    subst ha
    subst hb
    exact ⟨Grows.refl st, fun hwf => ⟨hwf, OptLt.none⟩⟩
  | succ f ih =>
    intro st u a st' r h
    cases a with
    | real e =>
      simp only [diff] at h
      exact realGo_keep _ (fun s a s2 r2 hr => ih s u a s2 r2 hr) rfl h
    | int e =>
      simp only [diff] at h
      exact intGo_keep _ (fun s a s2 r2 hr => ih s u a s2 r2 hr) rfl h

/-- The entry point preserves the append-only frame and I1 and returns a
valid real expression id. -/
theorem deriveBy_keep {fuel : Nat} {st : AutoDiff} {u : Unknown} {x : ExpressionId}
    {st' : AutoDiff} {rr : Nat} (h : st.deriveBy fuel u x = .ok (st', rr)) :
    Grows st st' ∧ (st.mir.WF → st'.mir.WF ∧ rr < rlen st') := by
  cases x with
  | real e =>
    simp only [AutoDiff.deriveBy] at h
    rcases hd : diff fuel st u (.real e) with m | ⟨st1, o⟩
    · rw [hd] at h
      dsimp only at h
      exact Except.noConfusion h
    · rw [hd] at h
      obtain ⟨g1, w1⟩ := diff_keep _ _ _ _ _ _ hd
      cases o with
      | some r0 =>
        dsimp only at h
        injection h with h1
        injection h1 with ha hb
        subst ha
        subst hb
        exact ⟨g1, fun hwf => ⟨(w1 hwf).1, (w1 hwf).2 _ rfl⟩⟩
      | none =>
        dsimp only at h
        rcases h2 : gen_constant st1 ((st1.mir.real_expressions.getD e dfltR).span) .zero
          with ⟨st2, z⟩
        rw [h2] at h
        injection h with h1
        injection h1 with ha hb
        subst ha
        subst hb
        obtain ⟨g2, hz, hrl2, hil2, w2⟩ := gen_constant_keep h2
        exact ⟨g1.trans g2, fun hwf => ⟨w2 (w1 hwf).1, hz⟩⟩
  | integer e =>
    simp only [AutoDiff.deriveBy] at h
    rcases hd : diff fuel st u (.int e) with m | ⟨st1, o⟩
    · rw [hd] at h
      dsimp only at h
      exact Except.noConfusion h
    · rw [hd] at h
      obtain ⟨g1, w1⟩ := diff_keep _ _ _ _ _ _ hd
      cases o with
      | some r0 =>
        dsimp only at h
        injection h with h1
        injection h1 with ha hb
        subst ha
        subst hb
        exact ⟨g1, fun hwf => ⟨(w1 hwf).1, (w1 hwf).2 _ rfl⟩⟩
      | none =>
        dsimp only at h
        rcases h2 : gen_constant st1 ((st1.mir.integer_expressions.getD e dfltI).span) .zero
          with ⟨st2, z⟩
        rw [h2] at h
        injection h with h1
        injection h1 with ha hb
        subst ha
        subst hb
        obtain ⟨g2, hz, hrl2, hil2, w2⟩ := gen_constant_keep h2
        exact ⟨g1.trans g2, fun hwf => ⟨w2 (w1 hwf).1, hz⟩⟩
  | string s =>
    simp only [AutoDiff.deriveBy] at h
    rcases h2 : AutoDiff.add_to_mir
        { st with errors := st.errors ++
            [DiffError.onlyNumericExpressionsCanBeDerived
              (st.mir.string_expressions.getD s DUMMY_SP)] }
        DUMMY_SP (.literal .zero) with ⟨st2, z⟩
    rw [h2] at h
    injection h with h1
    injection h1 with ha hb
    subst ha
    subst hb
    have g2 := grows_of_real_push h2
    obtain ⟨hrl2, hz, hil2⟩ := rlen_of_real_push h2
    have g1 : Grows st
        { st with errors := st.errors ++
            [DiffError.onlyNumericExpressionsCanBeDerived
              (st.mir.string_expressions.getD s DUMMY_SP)] } :=
      grows_of_arenas rfl rfl rfl rfl
    refine ⟨g1.trans g2, fun hwf => ?_⟩
    have wf2 := (add_to_mir_keep h2).2.2.2.2.2.2.2 hwf (by simp [RealExpression.rRefs])
      (by simp [RealExpression.iRefs]) (by simp [RealExpression.sRefs])
    exact ⟨wf2, by simp [rlen] at hrl2 hz ⊢; omega⟩

/-- If the full tree below the request (in the well-formed original MIR
`st0.mir`) contains no port- or net-reference, the differentiator never
panics: it returns `.ok` at every fuel, from any state extending `st0`. -/
theorem scan_ok : ∀ (f : Nat) (u : Unknown) (a : DiffArg) (st0 st : AutoDiff),
    st0.mir.WF → Grows st0 st → validArg st0 a →
    scanPN f st0.mir a = false →
    ∃ p, diff f st u a = .ok p := by
  intro f
  induction f with
  | zero =>
    intro u a st0 st hwf hg hv hs
    exact ⟨(st, none), rfl⟩
  | succ f ih =>
    intro u a st0 st hwf hg hv hs
    cases a with
    | real e =>
      have he0 : e < rlen st0 := hv
      rcases hnd0 : st0.mir.real_expressions.getD e dfltR with ⟨ndc, sp⟩
      simp only [scanPN] at hs
      rw [hnd0] at hs
      have hndst : st.mir.real_expressions.getD e dfltR = ⟨ndc, sp⟩ :=
        (hg.getD_real he0).trans hnd0
      simp only [diff]
      rw [hndst]
      have hch : ∀ x ∈ ndc.rRefs, x < e := by
        have hx := (hwf.1 e he0).1
        rw [hnd0] at hx
        exact hx
      have hci : ∀ x ∈ ndc.iRefs, x < ilen st0 := by
        have hx := (hwf.1 e he0).2.1
        rw [hnd0] at hx
        exact hx
      cases ndc with
      | literal v =>
        exact ⟨_, rfl⟩
      | negate opSpan a =>
        dsimp only at hs
        have ha0 : a < rlen st0 :=
          Nat.lt_trans (hch a (by simp [RealExpression.rRefs])) he0
        obtain ⟨⟨st1, da⟩, hd1⟩ := ih u (.real a) st0 st hwf hg ha0 hs
        simp only [realGo]
        rw [hd1]
        cases da with
        | none => exact ⟨_, rfl⟩
        | some d => exact ⟨_, rfl⟩
      | binaryOperator lhs op rhs =>
        obtain ⟨opc, opsp⟩ := op
        dsimp only at hs
        simp only [Bool.or_eq_false_iff] at hs
        obtain ⟨hs1, hs2⟩ := hs
        have hl0 : lhs < rlen st0 :=
          Nat.lt_trans (hch lhs (by simp [RealExpression.rRefs])) he0
        have hr0 : rhs < rlen st0 :=
          Nat.lt_trans (hch rhs (by simp [RealExpression.rRefs])) he0
        cases opc with
        | sum =>
          obtain ⟨⟨st1, dl⟩, hd1⟩ := ih u (.real lhs) st0 st hwf hg hl0 hs1
          have hg1 : Grows st0 st1 := hg.trans (diff_keep _ _ _ _ _ _ hd1).1
          obtain ⟨⟨st2, dr⟩, hd2⟩ := ih u (.real rhs) st0 st1 hwf hg1 hr0 hs2
          simp only [realGo]
          rw [hd1]
          dsimp only
          rw [hd2]
          exact ⟨_, rfl⟩
        | subtract =>
          obtain ⟨⟨st1, dl⟩, hd1⟩ := ih u (.real lhs) st0 st hwf hg hl0 hs1
          have hg1 : Grows st0 st1 := hg.trans (diff_keep _ _ _ _ _ _ hd1).1
          obtain ⟨⟨st2, dr⟩, hd2⟩ := ih u (.real rhs) st0 st1 hwf hg1 hr0 hs2
          simp only [realGo]
          rw [hd1]
          dsimp only
          rw [hd2]
          cases dr with
          | none => exact ⟨_, rfl⟩
          | some d => exact ⟨_, rfl⟩
        | multiply =>
          obtain ⟨⟨st1, dl⟩, hd1⟩ := ih u (.real lhs) st0 st hwf hg hl0 hs1
          have hg1 : Grows st0 st1 := hg.trans (diff_keep _ _ _ _ _ _ hd1).1
          obtain ⟨⟨st2, dr⟩, hd2⟩ := ih u (.real rhs) st0 st1 hwf hg1 hr0 hs2
          simp only [realGo]
          rw [hd1]
          dsimp only
          rw [hd2]
          exact ⟨_, rfl⟩
        | divide =>
          obtain ⟨⟨st1, dl⟩, hd1⟩ := ih u (.real lhs) st0 st hwf hg hl0 hs1
          have hg1 : Grows st0 st1 := hg.trans (diff_keep _ _ _ _ _ _ hd1).1
          obtain ⟨⟨st2, dr⟩, hd2⟩ := ih u (.real rhs) st0 st1 hwf hg1 hr0 hs2
          simp only [realGo]
          rw [hd1]
          dsimp only
          rw [hd2]
          exact ⟨_, rfl⟩
        | power =>
          obtain ⟨⟨st1, dl⟩, hd1⟩ := ih u (.real lhs) st0 st hwf hg hl0 hs1
          have hg1 : Grows st0 st1 := hg.trans (diff_keep _ _ _ _ _ _ hd1).1
          obtain ⟨⟨st2, dr⟩, hd2⟩ := ih u (.real rhs) st0 st1 hwf hg1 hr0 hs2
          simp only [realGo]
          rw [hd1]
          dsimp only
          rw [hd2]
          exact ⟨_, rfl⟩
        | modulus => exact ⟨_, rfl⟩
      | builtInFunctionCall1p call a =>
        dsimp only at hs
        have ha0 : a < rlen st0 :=
          Nat.lt_trans (hch a (by simp [RealExpression.rRefs])) he0
        cases call with
        | sqrt =>
          obtain ⟨⟨st1, da⟩, hd1⟩ := ih u (.real a) st0 st hwf hg ha0 hs
          simp only [realGo]
          rw [hd1]
          cases da with
          | none => exact ⟨_, rfl⟩
          | some d => exact ⟨_, rfl⟩
        | exp =>
          obtain ⟨⟨st1, da⟩, hd1⟩ := ih u (.real a) st0 st hwf hg ha0 hs
          simp only [realGo]
          rw [hd1]
          cases da with
          | none => exact ⟨_, rfl⟩
          | some d => exact ⟨_, rfl⟩
        | ln =>
          obtain ⟨⟨st1, da⟩, hd1⟩ := ih u (.real a) st0 st hwf hg ha0 hs
          simp only [realGo]
          rw [hd1]
          cases da with
          | none => exact ⟨_, rfl⟩
          | some d => exact ⟨_, rfl⟩
        | log =>
          obtain ⟨⟨st1, da⟩, hd1⟩ := ih u (.real a) st0 st hwf hg ha0 hs
          simp only [realGo]
          rw [hd1]
          cases da with
          | none => exact ⟨_, rfl⟩
          | some d => exact ⟨_, rfl⟩
        | abs =>
          simp only [realGo]
          rcases h1 : gen_constant st sp .zero with ⟨st1, z⟩
          dsimp only
          rcases h2 : gen_lt_condition_real st1 sp a z with ⟨st2, cond⟩
          dsimp only
          have hg2 : Grows st0 st2 :=
            (hg.trans (gen_constant_keep h1).1).trans (gen_lt_condition_real_keep h2).1
          obtain ⟨⟨st3, da⟩, hd1⟩ := ih u (.real a) st0 st2 hwf hg2 ha0 hs
          rw [hd1]
          cases da with
          | none => exact ⟨_, rfl⟩
          | some d => exact ⟨_, rfl⟩
        | floor => exact ⟨_, rfl⟩
        | ceil => exact ⟨_, rfl⟩
        | sin =>
          obtain ⟨⟨st1, da⟩, hd1⟩ := ih u (.real a) st0 st hwf hg ha0 hs
          simp only [realGo]
          rw [hd1]
          cases da with
          | none => exact ⟨_, rfl⟩
          | some d => exact ⟨_, rfl⟩
        | cos =>
          obtain ⟨⟨st1, da⟩, hd1⟩ := ih u (.real a) st0 st hwf hg ha0 hs
          simp only [realGo]
          rw [hd1]
          cases da with
          | none => exact ⟨_, rfl⟩
          | some d => exact ⟨_, rfl⟩
        | tan =>
          obtain ⟨⟨st1, da⟩, hd1⟩ := ih u (.real a) st0 st hwf hg ha0 hs
          simp only [realGo]
          rw [hd1]
          cases da with
          | none => exact ⟨_, rfl⟩
          | some d => exact ⟨_, rfl⟩
        | arcsin =>
          obtain ⟨⟨st1, da⟩, hd1⟩ := ih u (.real a) st0 st hwf hg ha0 hs
          simp only [realGo]
          rw [hd1]
          cases da with
          | none => exact ⟨_, rfl⟩
          | some d => exact ⟨_, rfl⟩
        | arccos =>
          obtain ⟨⟨st1, da⟩, hd1⟩ := ih u (.real a) st0 st hwf hg ha0 hs
          simp only [realGo]
          rw [hd1]
          cases da with
          | none => exact ⟨_, rfl⟩
          | some d => exact ⟨_, rfl⟩
        | arctan =>
          obtain ⟨⟨st1, da⟩, hd1⟩ := ih u (.real a) st0 st hwf hg ha0 hs
          simp only [realGo]
          rw [hd1]
          cases da with
          | none => exact ⟨_, rfl⟩
          | some d => exact ⟨_, rfl⟩
        | sinh =>
          obtain ⟨⟨st1, da⟩, hd1⟩ := ih u (.real a) st0 st hwf hg ha0 hs
          simp only [realGo]
          rw [hd1]
          cases da with
          | none => exact ⟨_, rfl⟩
          | some d => exact ⟨_, rfl⟩
        | cosh =>
          obtain ⟨⟨st1, da⟩, hd1⟩ := ih u (.real a) st0 st hwf hg ha0 hs
          simp only [realGo]
          rw [hd1]
          cases da with
          | none => exact ⟨_, rfl⟩
          | some d => exact ⟨_, rfl⟩
        | tanh =>
          obtain ⟨⟨st1, da⟩, hd1⟩ := ih u (.real a) st0 st hwf hg ha0 hs
          simp only [realGo]
          rw [hd1]
          cases da with
          | none => exact ⟨_, rfl⟩
          | some d => exact ⟨_, rfl⟩
        | arcsinh =>
          obtain ⟨⟨st1, da⟩, hd1⟩ := ih u (.real a) st0 st hwf hg ha0 hs
          simp only [realGo]
          rw [hd1]
          cases da with
          | none => exact ⟨_, rfl⟩
          | some d => exact ⟨_, rfl⟩
        | arccosh =>
          obtain ⟨⟨st1, da⟩, hd1⟩ := ih u (.real a) st0 st hwf hg ha0 hs
          simp only [realGo]
          rw [hd1]
          cases da with
          | none => exact ⟨_, rfl⟩
          | some d => exact ⟨_, rfl⟩
        | arctanh =>
          obtain ⟨⟨st1, da⟩, hd1⟩ := ih u (.real a) st0 st hwf hg ha0 hs
          simp only [realGo]
          rw [hd1]
          cases da with
          | none => exact ⟨_, rfl⟩
          | some d => exact ⟨_, rfl⟩
      | builtInFunctionCall2p call a b =>
        dsimp only at hs
        simp only [Bool.or_eq_false_iff] at hs
        obtain ⟨hs1, hs2⟩ := hs
        have ha0 : a < rlen st0 :=
          Nat.lt_trans (hch a (by simp [RealExpression.rRefs])) he0
        have hb0 : b < rlen st0 :=
          Nat.lt_trans (hch b (by simp [RealExpression.rRefs])) he0
        cases call with
        | pow =>
          obtain ⟨⟨st1, da⟩, hd1⟩ := ih u (.real a) st0 st hwf hg ha0 hs1
          have hg1 : Grows st0 st1 := hg.trans (diff_keep _ _ _ _ _ _ hd1).1
          obtain ⟨⟨st2, db⟩, hd2⟩ := ih u (.real b) st0 st1 hwf hg1 hb0 hs2
          simp only [realGo]
          rw [hd1]
          dsimp only
          rw [hd2]
          exact ⟨_, rfl⟩
        | hypot =>
          obtain ⟨⟨st1, da⟩, hd1⟩ := ih u (.real a) st0 st hwf hg ha0 hs1
          have hg1 : Grows st0 st1 := hg.trans (diff_keep _ _ _ _ _ _ hd1).1
          obtain ⟨⟨st2, db⟩, hd2⟩ := ih u (.real b) st0 st1 hwf hg1 hb0 hs2
          simp only [realGo]
          rw [hd1]
          dsimp only
          rw [hd2]
          dsimp only
          rcases hmd : mul_derivative st2 sp b da a db with ⟨st3, o3⟩
          cases o3 with
          | none => exact ⟨_, rfl⟩
          | some num => exact ⟨_, rfl⟩
        | arctan2 =>
          obtain ⟨⟨st1, da⟩, hd1⟩ := ih u (.real a) st0 st hwf hg ha0 hs1
          have hg1 : Grows st0 st1 := hg.trans (diff_keep _ _ _ _ _ _ hd1).1
          obtain ⟨⟨st2, db⟩, hd2⟩ := ih u (.real b) st0 st1 hwf hg1 hb0 hs2
          simp only [realGo]
          rw [hd1]
          dsimp only
          rw [hd2]
          cases db with
          | none =>
            dsimp only
            rcases hmd : mul_derivative st2 sp a da b none with ⟨st3, o3⟩
            cases o3 with
            | none => exact ⟨_, rfl⟩
            | some num => exact ⟨_, rfl⟩
          | some d =>
            dsimp only
            rcases hn : gen_neg st2 sp d with ⟨st2n, nn⟩
            dsimp only
            rcases hmd : mul_derivative st2n sp a da b (some nn) with ⟨st3, o3⟩
            cases o3 with
            | none => exact ⟨_, rfl⟩
            | some num => exact ⟨_, rfl⟩
        | max =>
          simp only [realGo]
          rcases h1 : gen_lt_condition_real st sp b a with ⟨st1, cond⟩
          dsimp only
          have hg1 : Grows st0 st1 :=
            hg.trans (gen_lt_condition_real_keep h1).1
          obtain ⟨⟨st2, da⟩, hd1⟩ := ih u (.real a) st0 st1 hwf hg1 ha0 hs1
          have hg2 : Grows st0 st2 := hg1.trans (diff_keep _ _ _ _ _ _ hd1).1
          obtain ⟨⟨st3, db⟩, hd2⟩ := ih u (.real b) st0 st2 hwf hg2 hb0 hs2
          rw [hd1]
          dsimp only
          rw [hd2]
          exact ⟨_, rfl⟩
        | min =>
          simp only [realGo]
          rcases h1 : gen_lt_condition_real st sp a b with ⟨st1, cond⟩
          dsimp only
          have hg1 : Grows st0 st1 :=
            hg.trans (gen_lt_condition_real_keep h1).1
          obtain ⟨⟨st2, da⟩, hd1⟩ := ih u (.real a) st0 st1 hwf hg1 ha0 hs1
          have hg2 : Grows st0 st2 := hg1.trans (diff_keep _ _ _ _ _ _ hd1).1
          obtain ⟨⟨st3, db⟩, hd2⟩ := ih u (.real b) st0 st2 hwf hg2 hb0 hs2
          rw [hd1]
          dsimp only
          rw [hd2]
          exact ⟨_, rfl⟩
      | condition c t fv =>
        dsimp only at hs
        simp only [Bool.or_eq_false_iff] at hs
        obtain ⟨⟨hsc, hst⟩, hsf⟩ := hs
        have ht0 : t < rlen st0 :=
          Nat.lt_trans (hch t (by simp [RealExpression.rRefs])) he0
        have hf0 : fv < rlen st0 :=
          Nat.lt_trans (hch fv (by simp [RealExpression.rRefs])) he0
        obtain ⟨⟨st1, dt⟩, hd1⟩ := ih u (.real t) st0 st hwf hg ht0 hst
        have hg1 : Grows st0 st1 := hg.trans (diff_keep _ _ _ _ _ _ hd1).1
        obtain ⟨⟨st2, df⟩, hd2⟩ := ih u (.real fv) st0 st1 hwf hg1 hf0 hsf
        simp only [realGo]
        rw [hd1]
        dsimp only
        rw [hd2]
        exact ⟨_, rfl⟩
      | variableReference v =>
        simp only [realGo]
        rcases hdv : st.mir.derivative_var v u with ⟨m1, dv⟩
        exact ⟨_, rfl⟩
      | parameterReference p =>
        exact ⟨_, rfl⟩
      | branchAccess acc branch order =>
        cases u with
        | time => exact ⟨_, rfl⟩
        | nodePotential net =>
          simp only [realGo]
          split
          · split
            · exact ⟨_, rfl⟩
            · split
              · exact ⟨_, rfl⟩
              · exact ⟨_, rfl⟩
          · exact ⟨_, rfl⟩
        | flow unknown =>
          simp only [realGo]
          split
          · exact ⟨_, rfl⟩
          · exact ⟨_, rfl⟩
        | parameter p => exact ⟨_, rfl⟩
        | temperature => exact ⟨_, rfl⟩
      | integerConversion ie =>
        dsimp only at hs
        have hie0 : ie < ilen st0 := hci ie (by simp [RealExpression.iRefs])
        obtain ⟨p, hp⟩ := ih u (.int ie) st0 st hwf hg hie0 hs
        simp only [realGo]
        exact ⟨p, hp⟩
      | noise args name => exact ⟨_, rfl⟩
      | temperature =>
        simp only [realGo]
        split
        · exact ⟨_, rfl⟩
        · exact ⟨_, rfl⟩
      | simParam name dflt => exact ⟨_, rfl⟩
    | int e =>
      have he0 : e < ilen st0 := hv
      rcases hnd0 : st0.mir.integer_expressions.getD e dfltI with ⟨ndc, sp⟩
      simp only [scanPN] at hs
      rw [hnd0] at hs
      have hndst : st.mir.integer_expressions.getD e dfltI = ⟨ndc, sp⟩ :=
        (hg.getD_int he0).trans hnd0
      simp only [diff]
      rw [hndst]
      have hch : ∀ x ∈ ndc.iRefs, x < e := by
        have hx := (hwf.2 e he0).1
        rw [hnd0] at hx
        exact hx
      have hcr : ∀ x ∈ ndc.rRefs, x < rlen st0 := by
        have hx := (hwf.2 e he0).2.1
        rw [hnd0] at hx
        exact hx
      cases ndc with
      | literal v => exact ⟨_, rfl⟩
      | binaryOperator lhs op rhs =>
        obtain ⟨opc, opsp⟩ := op
        dsimp only at hs
        simp only [Bool.or_eq_false_iff] at hs
        obtain ⟨hs1, hs2⟩ := hs
        have hl0 : lhs < ilen st0 :=
          Nat.lt_trans (hch lhs (by simp [IntegerExpression.iRefs])) he0
        have hr0 : rhs < ilen st0 :=
          Nat.lt_trans (hch rhs (by simp [IntegerExpression.iRefs])) he0
        cases opc with
        | sum =>
          obtain ⟨⟨st1, dl⟩, hd1⟩ := ih u (.int lhs) st0 st hwf hg hl0 hs1
          have hg1 : Grows st0 st1 := hg.trans (diff_keep _ _ _ _ _ _ hd1).1
          obtain ⟨⟨st2, dr⟩, hd2⟩ := ih u (.int rhs) st0 st1 hwf hg1 hr0 hs2
          simp only [intGo]
          rw [hd1]
          dsimp only
          rw [hd2]
          exact ⟨_, rfl⟩
        | subtract =>
          obtain ⟨⟨st1, dl⟩, hd1⟩ := ih u (.int lhs) st0 st hwf hg hl0 hs1
          have hg1 : Grows st0 st1 := hg.trans (diff_keep _ _ _ _ _ _ hd1).1
          obtain ⟨⟨st2, dr⟩, hd2⟩ := ih u (.int rhs) st0 st1 hwf hg1 hr0 hs2
          simp only [intGo]
          rw [hd1]
          dsimp only
          rw [hd2]
          cases dr with
          | none => exact ⟨_, rfl⟩
          | some d => exact ⟨_, rfl⟩
        | multiply =>
          obtain ⟨⟨st1, dl⟩, hd1⟩ := ih u (.int lhs) st0 st hwf hg hl0 hs1
          have hg1 : Grows st0 st1 := hg.trans (diff_keep _ _ _ _ _ _ hd1).1
          obtain ⟨⟨st2, dr⟩, hd2⟩ := ih u (.int rhs) st0 st1 hwf hg1 hr0 hs2
          simp only [intGo]
          rw [hd1]
          dsimp only
          rw [hd2]
          exact ⟨_, rfl⟩
        | divide =>
          obtain ⟨⟨st1, dl⟩, hd1⟩ := ih u (.int lhs) st0 st hwf hg hl0 hs1
          have hg1 : Grows st0 st1 := hg.trans (diff_keep _ _ _ _ _ _ hd1).1
          obtain ⟨⟨st2, dr⟩, hd2⟩ := ih u (.int rhs) st0 st1 hwf hg1 hr0 hs2
          simp only [intGo]
          rw [hd1]
          dsimp only
          rw [hd2]
          exact ⟨_, rfl⟩
        | power =>
          obtain ⟨⟨st1, dl⟩, hd1⟩ := ih u (.int lhs) st0 st hwf hg hl0 hs1
          have hg1 : Grows st0 st1 := hg.trans (diff_keep _ _ _ _ _ _ hd1).1
          obtain ⟨⟨st2, dr⟩, hd2⟩ := ih u (.int rhs) st0 st1 hwf hg1 hr0 hs2
          simp only [intGo]
          rw [hd1]
          dsimp only
          rw [hd2]
          exact ⟨_, rfl⟩
        | modulus => exact ⟨_, rfl⟩
        | shiftLeft =>
          obtain ⟨⟨st1, dbOpt⟩, hd1⟩ := ih u (.int rhs) st0 st hwf hg hr0 hs2
          have hg1 : Grows st0 st1 := hg.trans (diff_keep _ _ _ _ _ _ hd1).1
          simp only [intGo]
          rw [hd1]
          cases dbOpt with
          | some db =>
            dsimp only
            rcases h2 : AutoDiff.add_to_mir st1 sp (.integerConversion lhs) with ⟨st2, lc⟩
            dsimp only
            rcases h3 : gen_constant st2 sp .ln2 with ⟨st3, c2⟩
            dsimp only
            rcases h4 : gen_binary_op st3 sp c2 .multiply lc with ⟨st4, p1⟩
            dsimp only
            rcases h5 : gen_binary_op st4 sp p1 .multiply db with ⟨st5, p2⟩
            dsimp only
            have hg5 : Grows st0 st5 :=
              (((hg1.trans (grows_of_real_push h2)).trans
                (gen_constant_keep h3).1).trans
                (gen_binary_op_keep h4).1).trans
                (gen_binary_op_keep h5).1
            obtain ⟨⟨st6, dl⟩, hd2⟩ := ih u (.int lhs) st0 st5 hwf hg5 hl0 hs1
            rw [hd2]
            dsimp only
            rcases hds : derivative_sum st6 sp dl (some p2) with ⟨st7, o7⟩
            cases o7 with
            | none => exact ⟨_, rfl⟩
            | some s => exact ⟨_, rfl⟩
          | none =>
            dsimp only
            obtain ⟨⟨st6, dl⟩, hd2⟩ := ih u (.int lhs) st0 st1 hwf hg1 hl0 hs1
            rw [hd2]
            dsimp only
            rcases hds : derivative_sum st6 sp dl none with ⟨st7, o7⟩
            cases o7 with
            | none => exact ⟨_, rfl⟩
            | some s => exact ⟨_, rfl⟩
        | shiftRight =>
          obtain ⟨⟨st1, dbOpt⟩, hd1⟩ := ih u (.int rhs) st0 st hwf hg hr0 hs2
          have hg1 : Grows st0 st1 := hg.trans (diff_keep _ _ _ _ _ _ hd1).1
          simp only [intGo]
          rw [hd1]
          cases dbOpt with
          | some db =>
            dsimp only
            rcases h2 : AutoDiff.add_to_mir st1 sp (.integerConversion lhs) with ⟨st2, lc⟩
            dsimp only
            rcases h3 : gen_constant st2 sp .negLn2 with ⟨st3, c2⟩
            dsimp only
            rcases h4 : gen_binary_op st3 sp c2 .multiply lc with ⟨st4, p1⟩
            dsimp only
            rcases h5 : gen_binary_op st4 sp p1 .multiply db with ⟨st5, p2⟩
            dsimp only
            have hg5 : Grows st0 st5 :=
              (((hg1.trans (grows_of_real_push h2)).trans
                (gen_constant_keep h3).1).trans
                (gen_binary_op_keep h4).1).trans
                (gen_binary_op_keep h5).1
            obtain ⟨⟨st6, dl⟩, hd2⟩ := ih u (.int lhs) st0 st5 hwf hg5 hl0 hs1
            rw [hd2]
            dsimp only
            rcases hds : derivative_sum st6 sp dl (some p2) with ⟨st7, o7⟩
            cases o7 with
            | none => exact ⟨_, rfl⟩
            | some s => exact ⟨_, rfl⟩
          | none =>
            dsimp only
            obtain ⟨⟨st6, dl⟩, hd2⟩ := ih u (.int lhs) st0 st1 hwf hg1 hl0 hs1
            rw [hd2]
            dsimp only
            rcases hds : derivative_sum st6 sp dl none with ⟨st7, o7⟩
            cases o7 with
            | none => exact ⟨_, rfl⟩
            | some s => exact ⟨_, rfl⟩
        | xor => exact ⟨_, rfl⟩
        | nxor => exact ⟨_, rfl⟩
        | and => exact ⟨_, rfl⟩
        | or => exact ⟨_, rfl⟩
        | logicOr => exact ⟨_, rfl⟩
        | logicAnd => exact ⟨_, rfl⟩
      | integerComparison lc opc rc => exact ⟨_, rfl⟩
      | realComparison lc opc rc => exact ⟨_, rfl⟩
      | unaryOperator op a =>
        obtain ⟨opc, opsp⟩ := op
        dsimp only at hs
        cases opc with
        | arithmeticNegate =>
          have ha0 : a < ilen st0 :=
            Nat.lt_trans (hch a (by simp [IntegerExpression.iRefs])) he0
          obtain ⟨⟨st1, da⟩, hd1⟩ := ih u (.int a) st0 st hwf hg ha0 hs
          simp only [intGo]
          rw [hd1]
          cases da with
          | none => exact ⟨_, rfl⟩
          | some d => exact ⟨_, rfl⟩
        | explicitPositive =>
          have ha0 : a < ilen st0 :=
            Nat.lt_trans (hch a (by simp [IntegerExpression.iRefs])) he0
          obtain ⟨p, hp⟩ := ih u (.int a) st0 st hwf hg ha0 hs
          simp only [intGo]
          exact ⟨p, hp⟩
        | bitNegate => exact ⟨_, rfl⟩
        | logicNegate => exact ⟨_, rfl⟩
      | condition c t fv =>
        dsimp only at hs
        simp only [Bool.or_eq_false_iff] at hs
        obtain ⟨⟨hsc, hst⟩, hsf⟩ := hs
        have ht0 : t < ilen st0 :=
          Nat.lt_trans (hch t (by simp [IntegerExpression.iRefs])) he0
        have hf0 : fv < ilen st0 :=
          Nat.lt_trans (hch fv (by simp [IntegerExpression.iRefs])) he0
        obtain ⟨⟨st1, dt⟩, hd1⟩ := ih u (.int t) st0 st hwf hg ht0 hst
        have hg1 : Grows st0 st1 := hg.trans (diff_keep _ _ _ _ _ _ hd1).1
        obtain ⟨⟨st2, df⟩, hd2⟩ := ih u (.int fv) st0 st1 hwf hg1 hf0 hsf
        simp only [intGo]
        rw [hd1]
        dsimp only
        rw [hd2]
        exact ⟨_, rfl⟩
      | min a b =>
        dsimp only at hs
        simp only [Bool.or_eq_false_iff] at hs
        obtain ⟨hs1, hs2⟩ := hs
        have ha0 : a < ilen st0 :=
          Nat.lt_trans (hch a (by simp [IntegerExpression.iRefs])) he0
        have hb0 : b < ilen st0 :=
          Nat.lt_trans (hch b (by simp [IntegerExpression.iRefs])) he0
        simp only [intGo]
        rcases h1 : gen_lt_condition_int st sp a b with ⟨st1, cond⟩
        dsimp only
        have hg1 : Grows st0 st1 :=
          hg.trans (gen_lt_condition_int_keep h1).1
        obtain ⟨⟨st2, da⟩, hd1⟩ := ih u (.int a) st0 st1 hwf hg1 ha0 hs1
        have hg2 : Grows st0 st2 := hg1.trans (diff_keep _ _ _ _ _ _ hd1).1
        obtain ⟨⟨st3, db⟩, hd2⟩ := ih u (.int b) st0 st2 hwf hg2 hb0 hs2
        rw [hd1]
        dsimp only
        rw [hd2]
        exact ⟨_, rfl⟩
      | max a b =>
        dsimp only at hs
        simp only [Bool.or_eq_false_iff] at hs
        obtain ⟨hs1, hs2⟩ := hs
        have ha0 : a < ilen st0 :=
          Nat.lt_trans (hch a (by simp [IntegerExpression.iRefs])) he0
        have hb0 : b < ilen st0 :=
          Nat.lt_trans (hch b (by simp [IntegerExpression.iRefs])) he0
        simp only [intGo]
        rcases h1 : gen_lt_condition_int st sp b a with ⟨st1, cond⟩
        dsimp only
        have hg1 : Grows st0 st1 :=
          hg.trans (gen_lt_condition_int_keep h1).1
        obtain ⟨⟨st2, da⟩, hd1⟩ := ih u (.int a) st0 st1 hwf hg1 ha0 hs1
        have hg2 : Grows st0 st2 := hg1.trans (diff_keep _ _ _ _ _ _ hd1).1
        obtain ⟨⟨st3, db⟩, hd2⟩ := ih u (.int b) st0 st2 hwf hg2 hb0 hs2
        rw [hd1]
        dsimp only
        rw [hd2]
        exact ⟨_, rfl⟩
      | abs a =>
        dsimp only at hs
        have ha0 : a < ilen st0 :=
          Nat.lt_trans (hch a (by simp [IntegerExpression.iRefs])) he0
        simp only [intGo]
        rcases h1 : gen_int_constant st sp 0 with ⟨st1, z⟩
        dsimp only
        rcases h2 : gen_lt_condition_int st1 sp a z with ⟨st2, cond⟩
        dsimp only
        have hg2 : Grows st0 st2 :=
          (hg.trans (gen_int_constant_keep h1).1).trans (gen_lt_condition_int_keep h2).1
        obtain ⟨⟨st3, da⟩, hd1⟩ := ih u (.int a) st0 st2 hwf hg2 ha0 hs
        rw [hd1]
        cases da with
        | none => exact ⟨_, rfl⟩
        | some d => exact ⟨_, rfl⟩
      | variableReference v =>
        simp only [intGo]
        rcases hdv : st.mir.derivative_var v u with ⟨m1, dv⟩
        exact ⟨_, rfl⟩
      | parameterReference p => exact ⟨_, rfl⟩
      | netReference net =>
        dsimp only at hs
        exact Bool.noConfusion hs
      | portReference port =>
        dsimp only at hs
        exact Bool.noConfusion hs
      | portConnected port => exact ⟨_, rfl⟩
      | paramGiven p => exact ⟨_, rfl⟩
      | stringEq lc rc => exact ⟨_, rfl⟩
      | stringNEq lc rc => exact ⟨_, rfl⟩
      | realCast re =>
        dsimp only at hs
        have hre0 : re < rlen st0 := hcr re (by simp [IntegerExpression.rRefs])
        obtain ⟨p, hp⟩ := ih u (.real re) st0 st hwf hg hre0 hs
        simp only [intGo]
        exact ⟨p, hp⟩

/-! ## Claim theorems -/

/-- C1 (amended): for a real `hypot(a, b)` node `e`, with `D(a)`, `D(b)` the
recursive results, the emitted derivative is `(D(a)*a + b*D(b)) / e` — each
argument's derivative is multiplied by the SAME argument (the source pairs
`mul_derivative(arg2, darg1, arg1, darg2)`, giving `darg1*arg1` and
`arg2*darg2`), the divisor reuses the existing hypot node `e`, 0-elision drops
whichever product has a structurally zero derivative, and the result is `none`
exactly when both are `none`. -/
theorem claim_C1_amended (f : Nat) (st st1 st2 : AutoDiff) (u : Unknown)
    (e a b : Nat) (sp : Span) (da db : Option Nat)
    (hnd : st.mir.real_expressions.getD e dfltR =
      ⟨.builtInFunctionCall2p .hypot a b, sp⟩)
    (hra : diff f st u (.real a) = .ok (st1, da))
    (hrb : diff f st1 u (.real b) = .ok (st2, db)) :
    diff (f + 1) st u (.real e) =
      match da, db with
      | none, none => .ok (st2, none)
      | some x, none =>
        .ok (pushesR st2
          [⟨.binaryOperator x ⟨.multiply, sp⟩ a, sp⟩,
           ⟨.binaryOperator (rlen st2) ⟨.divide, sp⟩ e, sp⟩],
          some (rlen st2 + 1))
      | none, some y =>
        .ok (pushesR st2
          [⟨.binaryOperator b ⟨.multiply, sp⟩ y, sp⟩,
           ⟨.binaryOperator (rlen st2) ⟨.divide, sp⟩ e, sp⟩],
          some (rlen st2 + 1))
      | some x, some y =>
        .ok (pushesR st2
          [⟨.binaryOperator x ⟨.multiply, sp⟩ a, sp⟩,
           ⟨.binaryOperator b ⟨.multiply, sp⟩ y, sp⟩,
           ⟨.binaryOperator (rlen st2) ⟨.sum, sp⟩ (rlen st2 + 1), sp⟩,
           ⟨.binaryOperator (rlen st2 + 2) ⟨.divide, sp⟩ e, sp⟩],
          some (rlen st2 + 3)) := by
  cases da <;> cases db <;>
    first
    | (simp only [diff]
       rw [hnd]
       simp only [realGo]
       rw [hra]
       dsimp only
       rw [hrb]
       dsimp only
       simp [mul_derivative, derivative_sum, gen_binary_op, AutoDiff.add_to_mir,
         pushesR, rlen])

/-- C1 counterexample: differentiating `hypot(p, 5.0)` by `Parameter p`, where
`D(b)` is structurally zero, the claim predicts the numerator `b*D(a)` — a
multiplication involving the literal operand `b` (id 1).  The code instead
emits `D(a)*a` (node 4 = `binaryOperator 3 · 0`), and neither operand of the
numerator node is the id of `b`. -/
theorem claim_C1_counterexample :
    diff 2 exC1 (.parameter 0) (.real 2) =
      .ok (⟨⟨[⟨.parameterReference 0, 10⟩, ⟨.literal (.num 5), 11⟩,
              ⟨.builtInFunctionCall2p .hypot 0 1, 12⟩,
              ⟨.literal .one, 10⟩,
              ⟨.binaryOperator 3 ⟨.multiply, 12⟩ 0, 12⟩,
              ⟨.binaryOperator 4 ⟨.divide, 12⟩ 2, 12⟩], [], [], [], [], 0⟩, [], []⟩,
        some 5) ∧
    ∀ (x : Nat) (op : Node RealBinaryOperator) (y : Nat),
      (match diff 2 exC1 (.parameter 0) (.real 2) with
        | .ok (st', _) => (st'.mir.real_expressions.getD 4 dfltR).contents
        | .error _ => .temperature) = .binaryOperator x op y →
      x ≠ 1 ∧ y ≠ 1 := by
  constructor
  · rfl
  · intro x op y hxy
    rw [show (match diff 2 exC1 (.parameter 0) (.real 2) with
        | .ok (st', _) => (st'.mir.real_expressions.getD 4 dfltR).contents
        | .error _ => RealExpression.temperature) =
        RealExpression.binaryOperator 3 ⟨.multiply, 12⟩ 0 from rfl] at hxy
    injection hxy with e1 e2 e3
    subst e1
    subst e3
    exact ⟨by decide, by decide⟩

/-- C1 witness: the amended theorem evaluated on `exC1` (derivative by the
parameter; `D(a) = 1.0` at id 3, `D(b)` structurally zero). -/
theorem claim_C1_witness :
    exC1.mir.real_expressions.getD 2 dfltR = ⟨.builtInFunctionCall2p .hypot 0 1, 12⟩ ∧
    diff 1 exC1 (.parameter 0) (.real 0) = .ok (exC1a, some 3) ∧
    diff 1 exC1a (.parameter 0) (.real 1) = .ok (exC1a, none) ∧
    diff 2 exC1 (.parameter 0) (.real 2) =
      .ok (pushesR exC1a
        [⟨.binaryOperator 3 ⟨.multiply, 12⟩ 0, 12⟩,
         ⟨.binaryOperator (rlen exC1a) ⟨.divide, 12⟩ 2, 12⟩],
        some (rlen exC1a + 1)) :=
  ⟨rfl, rfl, rfl,
    claim_C1_amended 1 exC1 exC1a exC1a (.parameter 0) 2 0 1 12 (some 3) none
      rfl rfl rfl⟩

/-- C2: the `NodePotential` arm of `visit_branch_access` never inspects the
discipline access.  Differentiating the FLOW access `I(br)` (branch `Nets(7,3)`)
by `NodePotential 7` therefore emits the literal `+1.0` (a fresh node, id 1),
although the claim — and the mathematics, `∂flow/∂V = 0` — requires `None`. -/
theorem claim_C2_bug :
    diff 1 exC2 (.nodePotential 7) (.real 0) =
      .ok (⟨⟨[⟨.branchAccess .flow 0 0, 42⟩, ⟨.literal .one, 42⟩], [], [],
             [⟨⟨.nets 7 3⟩, 9⟩], [], 0⟩, [], []⟩, some 1) := by
  rfl

/-- C3: for a real binary `pow(l, r)` node `o = e`: `sum1 = (r/l)*D(l)` when
`D(l)` exists, `sum2 = ln(l)*D(r)` when `D(r)` exists, the two are combined by
the 0-eliding sum, the result is `none` when the combined sum is `none`, and
otherwise `sum * o` where the final multiplication's right operand is the very
id `e` of the input pow node — the existing node is reused, never cloned. -/
theorem claim_C3 (f : Nat) (st st1 st2 : AutoDiff) (u : Unknown)
    (e l r : Nat) (sp opsp : Span) (dl dr : Option Nat)
    (hnd : st.mir.real_expressions.getD e dfltR =
      ⟨.binaryOperator l ⟨.power, opsp⟩ r, sp⟩)
    (hrl : diff f st u (.real l) = .ok (st1, dl))
    (hrr : diff f st1 u (.real r) = .ok (st2, dr)) :
    diff (f + 1) st u (.real e) =
      match dl, dr with
      | none, none => .ok (st2, none)
      | some x, none =>
        .ok (pushesR st2
          [⟨.binaryOperator r ⟨.divide, sp⟩ l, sp⟩,
           ⟨.binaryOperator (rlen st2) ⟨.multiply, sp⟩ x, sp⟩,
           ⟨.binaryOperator (rlen st2 + 1) ⟨.multiply, sp⟩ e, sp⟩],
          some (rlen st2 + 2))
      | none, some y =>
        .ok (pushesR st2
          [⟨.builtInFunctionCall1p .ln l, sp⟩,
           ⟨.binaryOperator (rlen st2) ⟨.multiply, sp⟩ y, sp⟩,
           ⟨.binaryOperator (rlen st2 + 1) ⟨.multiply, sp⟩ e, sp⟩],
          some (rlen st2 + 2))
      | some x, some y =>
        .ok (pushesR st2
          [⟨.binaryOperator r ⟨.divide, sp⟩ l, sp⟩,
           ⟨.binaryOperator (rlen st2) ⟨.multiply, sp⟩ x, sp⟩,
           ⟨.builtInFunctionCall1p .ln l, sp⟩,
           ⟨.binaryOperator (rlen st2 + 2) ⟨.multiply, sp⟩ y, sp⟩,
           ⟨.binaryOperator (rlen st2 + 1) ⟨.sum, sp⟩ (rlen st2 + 3), sp⟩,
           ⟨.binaryOperator (rlen st2 + 4) ⟨.multiply, sp⟩ e, sp⟩],
          some (rlen st2 + 5)) := by
  cases dl <;> cases dr <;>
    first
    | (simp only [diff]
       rw [hnd]
       simp only [realGo]
       rw [hrl]
       dsimp only
       rw [hrr]
       dsimp only
       simp [pow_derivative, derivative_sum, gen_binary_op, gen_math_function,
         AutoDiff.add_to_mir, pushesR, rlen])

/-- C3 witness: `pow(p, 3.0)` differentiated by `p`: `D(l) = 1.0` (id 3),
`D(r)` structurally zero; result `((3.0/p)*1.0) * o` with `o` the original
node id 2. -/
theorem claim_C3_witness :
    exC3.mir.real_expressions.getD 2 dfltR = ⟨.binaryOperator 0 ⟨.power, 22⟩ 1, 22⟩ ∧
    diff 1 exC3 (.parameter 0) (.real 0) = .ok (exC3a, some 3) ∧
    diff 1 exC3a (.parameter 0) (.real 1) = .ok (exC3a, none) ∧
    diff 2 exC3 (.parameter 0) (.real 2) =
      .ok (pushesR exC3a
        [⟨.binaryOperator 1 ⟨.divide, 22⟩ 0, 22⟩,
         ⟨.binaryOperator (rlen exC3a) ⟨.multiply, 22⟩ 3, 22⟩,
         ⟨.binaryOperator (rlen exC3a + 1) ⟨.multiply, 22⟩ 2, 22⟩],
        some (rlen exC3a + 2)) :=
  ⟨rfl, rfl, rfl,
    claim_C3 1 exC3 exC3a exC3a (.parameter 0) 2 0 1 22 22 (some 3) none
      rfl rfl rfl⟩

/-- C4: the entry point always returns a real expression id: a real or integer
expression whose differentiator yields structural zero gets a freshly pushed
literal `0.0` (tagged with the input expression's span); a non-zero derivative
id is returned as is; a string expression adds
`OnlyNumericExpressionsCanBeDerived` with the string expression's span to the
sink and returns a freshly pushed literal `0.0` tagged with the dummy span. -/
theorem claim_C4 :
    (∀ (f : Nat) (st st1 : AutoDiff) (u : Unknown) (e : Nat),
      diff f st u (.real e) = .ok (st1, none) →
      st.deriveBy f u (.real e) =
        .ok (pushesR st1
          [⟨.literal .zero, (st1.mir.real_expressions.getD e dfltR).span⟩],
          rlen st1)) ∧
    (∀ (f : Nat) (st st1 : AutoDiff) (u : Unknown) (e r : Nat),
      diff f st u (.real e) = .ok (st1, some r) →
      st.deriveBy f u (.real e) = .ok (st1, r)) ∧
    (∀ (f : Nat) (st st1 : AutoDiff) (u : Unknown) (e : Nat),
      diff f st u (.int e) = .ok (st1, none) →
      st.deriveBy f u (.integer e) =
        .ok (pushesR st1
          [⟨.literal .zero, (st1.mir.integer_expressions.getD e dfltI).span⟩],
          rlen st1)) ∧
    (∀ (f : Nat) (st st1 : AutoDiff) (u : Unknown) (e r : Nat),
      diff f st u (.int e) = .ok (st1, some r) →
      st.deriveBy f u (.integer e) = .ok (st1, r)) ∧
    (∀ (f : Nat) (st : AutoDiff) (u : Unknown) (s : Nat),
      st.deriveBy f u (.string s) =
        .ok (pushesR
          { st with errors := st.errors ++
              [DiffError.onlyNumericExpressionsCanBeDerived
                (st.mir.string_expressions.getD s DUMMY_SP)] }
          [⟨.literal .zero, DUMMY_SP⟩],
          rlen st)) := by
  refine ⟨?_, ?_, ?_, ?_, ?_⟩
  · intro f st st1 u e h
    simp only [AutoDiff.deriveBy]
    rw [h]
    simp [gen_constant, AutoDiff.add_to_mir, pushesR, rlen]
  · intro f st st1 u e r h
    simp only [AutoDiff.deriveBy]
    rw [h]
  · intro f st st1 u e h
    simp only [AutoDiff.deriveBy]
    rw [h]
    simp [gen_constant, AutoDiff.add_to_mir, pushesR, rlen]
  · intro f st st1 u e r h
    simp only [AutoDiff.deriveBy]
    rw [h]
  · intro f st u s
    simp only [AutoDiff.deriveBy]
    simp [AutoDiff.add_to_mir, pushesR, rlen]

/-- C4 witness: differentiating the literal (structural zero) pushes a fresh
`0.0` with the literal's span; the string entry point records the diagnostic
with the string's span and pushes `0.0` at the dummy span. -/
theorem claim_C4_witness :
    diff 1 exC4 .temperature (.real 0) = .ok (exC4, none) ∧
    exC4.deriveBy 1 .temperature (.real 0) =
      .ok (pushesR exC4 [⟨.literal .zero, (exC4.mir.real_expressions.getD 0 dfltR).span⟩],
        rlen exC4) ∧
    exC4.deriveBy 1 .temperature (.string 0) =
      .ok (pushesR
        { exC4 with errors := exC4.errors ++
            [DiffError.onlyNumericExpressionsCanBeDerived
              (exC4.mir.string_expressions.getD 0 DUMMY_SP)] }
        [⟨.literal .zero, DUMMY_SP⟩],
        rlen exC4) :=
  ⟨rfl, claim_C4.1 1 exC4 exC4 .temperature 0 rfl,
    claim_C4.2.2.2.2 1 exC4 .temperature 0⟩

/-- C5: for a real `condition(c, t, e)` node: both branch derivatives `none`
gives `none`; exactly one `none` is replaced by a freshly pushed literal `0.0`
with the branch order preserved; otherwise `condition(c, D(t), D(e))` is
synthesized — in every case the guard of the new node is the original integer
expression id `c`, reused as-is, and the traversal never recurses into it. -/
theorem claim_C5 (f : Nat) (st st1 st2 : AutoDiff) (u : Unknown)
    (e c t fv : Nat) (sp : Span) (dt df : Option Nat)
    (hnd : st.mir.real_expressions.getD e dfltR = ⟨.condition c t fv, sp⟩)
    (hrt : diff f st u (.real t) = .ok (st1, dt))
    (hrf : diff f st1 u (.real fv) = .ok (st2, df)) :
    diff (f + 1) st u (.real e) =
      match dt, df with
      | none, none => .ok (st2, none)
      | some x, none =>
        .ok (pushesR st2 [⟨.literal .zero, sp⟩, ⟨.condition c x (rlen st2), sp⟩],
          some (rlen st2 + 1))
      | none, some y =>
        .ok (pushesR st2 [⟨.literal .zero, sp⟩, ⟨.condition c (rlen st2) y, sp⟩],
          some (rlen st2 + 1))
      | some x, some y =>
        .ok (pushesR st2 [⟨.condition c x y, sp⟩], some (rlen st2)) := by
  cases dt <;> cases df <;>
    first
    | (simp only [diff]
       rw [hnd]
       simp only [realGo]
       rw [hrt]
       dsimp only
       rw [hrf]
       dsimp only
       simp [condTail, convert_to_paired, gen_constant, AutoDiff.add_to_mir,
         pushesR, rlen])

/-- C5 witness: `condition(c, p, 9.0)` by `p`: `D(t) = 1.0` (id 3), `D(e)`
structurally zero; a fresh `0.0` is substituted at id 4 and
`condition(0, 3, 4)` is synthesized at id 5 with the guard id 0 reused. -/
theorem claim_C5_witness :
    exC5.mir.real_expressions.getD 2 dfltR = ⟨.condition 0 0 1, 52⟩ ∧
    diff 1 exC5 (.parameter 0) (.real 0) = .ok (exC5a, some 3) ∧
    diff 1 exC5a (.parameter 0) (.real 1) = .ok (exC5a, none) ∧
    diff 2 exC5 (.parameter 0) (.real 2) =
      .ok (pushesR exC5a [⟨.literal .zero, 52⟩, ⟨.condition 0 3 (rlen exC5a), 52⟩],
        some (rlen exC5a + 1)) :=
  ⟨rfl, rfl, rfl,
    claim_C5 1 exC5 exC5a exC5a (.parameter 0) 2 0 0 1 52 (some 3) none rfl rfl rfl⟩

/-- C6: each visited occurrence of a `mod` operator, a bitwise operator
(`~`, `^`, `^~`, `&`, `|` — shifts excluded), a logic operator (`&&`, `||`,
`!`), or a comparison (integer, real, or string `==`/`!=`) appends exactly one
`DerivativeNotDefined` entry with the matching reason and the occurrence's
span to the error sink, returns `.ok` (the traversal continues, it never
aborts), leaves the MIR and the lint channel untouched, and contributes the
structural zero `none`; the operands of such a node are not visited. -/
theorem claim_C6 :
    (∀ (f : Nat) (st : AutoDiff) (u : Unknown) (e l r : Nat) (opsp sp : Span),
      st.mir.real_expressions.getD e dfltR =
        ⟨.binaryOperator l ⟨.modulus, opsp⟩ r, sp⟩ →
      diff (f + 1) st u (.real e) =
        .ok ({ st with errors := st.errors ++ [.derivativeNotDefined .modulus sp] },
          none)) ∧
    (∀ (f : Nat) (st : AutoDiff) (u : Unknown) (e l r : Nat) (opsp sp : Span),
      st.mir.integer_expressions.getD e dfltI =
        ⟨.binaryOperator l ⟨.modulus, opsp⟩ r, sp⟩ →
      diff (f + 1) st u (.int e) =
        .ok ({ st with errors := st.errors ++ [.derivativeNotDefined .modulus sp] },
          none)) ∧
    (∀ (f : Nat) (st : AutoDiff) (u : Unknown) (e l r : Nat) (opsp sp : Span),
      st.mir.integer_expressions.getD e dfltI =
        ⟨.binaryOperator l ⟨.xor, opsp⟩ r, sp⟩ →
      diff (f + 1) st u (.int e) =
        .ok ({ st with errors := st.errors ++ [.derivativeNotDefined .bitWiseOp sp] },
          none)) ∧
    (∀ (f : Nat) (st : AutoDiff) (u : Unknown) (e l r : Nat) (opsp sp : Span),
      st.mir.integer_expressions.getD e dfltI =
        ⟨.binaryOperator l ⟨.nxor, opsp⟩ r, sp⟩ →
      diff (f + 1) st u (.int e) =
        .ok ({ st with errors := st.errors ++ [.derivativeNotDefined .bitWiseOp sp] },
          none)) ∧
    (∀ (f : Nat) (st : AutoDiff) (u : Unknown) (e l r : Nat) (opsp sp : Span),
      st.mir.integer_expressions.getD e dfltI =
        ⟨.binaryOperator l ⟨.and, opsp⟩ r, sp⟩ →
      diff (f + 1) st u (.int e) =
        .ok ({ st with errors := st.errors ++ [.derivativeNotDefined .bitWiseOp sp] },
          none)) ∧
    (∀ (f : Nat) (st : AutoDiff) (u : Unknown) (e l r : Nat) (opsp sp : Span),
      st.mir.integer_expressions.getD e dfltI =
        ⟨.binaryOperator l ⟨.or, opsp⟩ r, sp⟩ →
      diff (f + 1) st u (.int e) =
        .ok ({ st with errors := st.errors ++ [.derivativeNotDefined .bitWiseOp sp] },
          none)) ∧
    (∀ (f : Nat) (st : AutoDiff) (u : Unknown) (e l r : Nat) (opsp sp : Span),
      st.mir.integer_expressions.getD e dfltI =
        ⟨.binaryOperator l ⟨.logicAnd, opsp⟩ r, sp⟩ →
      diff (f + 1) st u (.int e) =
        .ok ({ st with errors := st.errors ++ [.derivativeNotDefined .logicOp sp] },
          none)) ∧
    (∀ (f : Nat) (st : AutoDiff) (u : Unknown) (e l r : Nat) (opsp sp : Span),
      st.mir.integer_expressions.getD e dfltI =
        ⟨.binaryOperator l ⟨.logicOr, opsp⟩ r, sp⟩ →
      diff (f + 1) st u (.int e) =
        .ok ({ st with errors := st.errors ++ [.derivativeNotDefined .logicOp sp] },
          none)) ∧
    (∀ (f : Nat) (st : AutoDiff) (u : Unknown) (e a : Nat) (opsp sp : Span),
      st.mir.integer_expressions.getD e dfltI =
        ⟨.unaryOperator ⟨.bitNegate, opsp⟩ a, sp⟩ →
      diff (f + 1) st u (.int e) =
        .ok ({ st with errors := st.errors ++ [.derivativeNotDefined .bitWiseOp sp] },
          none)) ∧
    (∀ (f : Nat) (st : AutoDiff) (u : Unknown) (e a : Nat) (opsp sp : Span),
      st.mir.integer_expressions.getD e dfltI =
        ⟨.unaryOperator ⟨.logicNegate, opsp⟩ a, sp⟩ →
      diff (f + 1) st u (.int e) =
        .ok ({ st with errors := st.errors ++ [.derivativeNotDefined .logicOp sp] },
          none)) ∧
    (∀ (f : Nat) (st : AutoDiff) (u : Unknown) (e l r : Nat)
        (op : Node ComparisonOperator) (sp : Span),
      st.mir.integer_expressions.getD e dfltI = ⟨.integerComparison l op r, sp⟩ →
      diff (f + 1) st u (.int e) =
        .ok ({ st with errors := st.errors ++ [.derivativeNotDefined .comparison sp] },
          none)) ∧
    (∀ (f : Nat) (st : AutoDiff) (u : Unknown) (e l r : Nat)
        (op : Node ComparisonOperator) (sp : Span),
      st.mir.integer_expressions.getD e dfltI = ⟨.realComparison l op r, sp⟩ →
      diff (f + 1) st u (.int e) =
        .ok ({ st with errors := st.errors ++ [.derivativeNotDefined .comparison sp] },
          none)) ∧
    (∀ (f : Nat) (st : AutoDiff) (u : Unknown) (e l r : Nat) (sp : Span),
      st.mir.integer_expressions.getD e dfltI = ⟨.stringEq l r, sp⟩ →
      diff (f + 1) st u (.int e) =
        .ok ({ st with errors := st.errors ++ [.derivativeNotDefined .comparison sp] },
          none)) ∧
    (∀ (f : Nat) (st : AutoDiff) (u : Unknown) (e l r : Nat) (sp : Span),
      st.mir.integer_expressions.getD e dfltI = ⟨.stringNEq l r, sp⟩ →
      diff (f + 1) st u (.int e) =
        .ok ({ st with errors := st.errors ++ [.derivativeNotDefined .comparison sp] },
          none)) := by
  refine ⟨?_, ?_, ?_, ?_, ?_, ?_, ?_, ?_, ?_, ?_, ?_, ?_, ?_, ?_⟩ <;>
    (intros
     rename_i h
     simp only [diff]
     rw [h]
     first
       | (simp only [realGo]
          simp [undefined_derivative])
       | (simp only [intGo]
          simp [undefined_derivative]))

/-- C6 witness: differentiating a real `mod` node appends exactly
`DerivativeNotDefined(Modulus, span)` and yields structural zero without
touching the arenas. -/
theorem claim_C6_witness :
    exC6.mir.real_expressions.getD 2 dfltR = ⟨.binaryOperator 0 ⟨.modulus, 62⟩ 1, 63⟩ ∧
    diff 1 exC6 (.parameter 0) (.real 2) =
      .ok ({ exC6 with errors := exC6.errors ++ [.derivativeNotDefined .modulus 63] },
        none) :=
  ⟨rfl, claim_C6.1 0 exC6 (.parameter 0) 2 0 1 62 63 rfl⟩

/-- C7: for an integer `l << r` node `e` (visited right operand first):
when `D(r)` exists the term `(ln 2 * int2real(l)) * D(r)` is built (the real
literal `ln 2`, the operand `l` wrapped in an integer-conversion node); it is
combined with `D(l)` by the 0-eliding sum as `D(l) + ln2*l*D(r)`; the result
is `none` exactly when both derivatives are `none`, and otherwise
`sum * int2real(l << r)` where the whole shift node `e` is wrapped in a fresh
integer-conversion node. -/
theorem claim_C7 :
    (∀ (f : Nat) (st st1 st2 : AutoDiff) (u : Unknown) (e l r : Nat)
        (opsp sp : Span) (dl : Option Nat),
      st.mir.integer_expressions.getD e dfltI =
        ⟨.binaryOperator l ⟨.shiftLeft, opsp⟩ r, sp⟩ →
      diff f st u (.int r) = .ok (st1, none) →
      diff f st1 u (.int l) = .ok (st2, dl) →
      diff (f + 1) st u (.int e) =
        match dl with
        | none => .ok (st2, none)
        | some x =>
          .ok (pushesR st2
            [⟨.integerConversion e, sp⟩,
             ⟨.binaryOperator x ⟨.multiply, sp⟩ (rlen st2), sp⟩],
            some (rlen st2 + 1))) ∧
    (∀ (f : Nat) (st st1 st2 : AutoDiff) (u : Unknown) (e l r y : Nat)
        (opsp sp : Span) (dl : Option Nat),
      st.mir.integer_expressions.getD e dfltI =
        ⟨.binaryOperator l ⟨.shiftLeft, opsp⟩ r, sp⟩ →
      diff f st u (.int r) = .ok (st1, some y) →
      diff f
        (pushesR st1
          [⟨.integerConversion l, sp⟩,
           ⟨.literal .ln2, sp⟩,
           ⟨.binaryOperator (rlen st1 + 1) ⟨.multiply, sp⟩ (rlen st1), sp⟩,
           ⟨.binaryOperator (rlen st1 + 2) ⟨.multiply, sp⟩ y, sp⟩])
        u (.int l) = .ok (st2, dl) →
      diff (f + 1) st u (.int e) =
        match dl with
        | none =>
          .ok (pushesR st2
            [⟨.integerConversion e, sp⟩,
             ⟨.binaryOperator (rlen st1 + 3) ⟨.multiply, sp⟩ (rlen st2), sp⟩],
            some (rlen st2 + 1))
        | some x =>
          .ok (pushesR st2
            [⟨.binaryOperator x ⟨.sum, sp⟩ (rlen st1 + 3), sp⟩,
             ⟨.integerConversion e, sp⟩,
             ⟨.binaryOperator (rlen st2) ⟨.multiply, sp⟩ (rlen st2 + 1), sp⟩],
            some (rlen st2 + 2))) := by
  constructor
  · intro f st st1 st2 u e l r opsp sp dl hnd hrr hrl
    cases dl <;>
      (simp only [diff]
       rw [hnd]
       simp only [intGo]
       rw [hrr]
       dsimp only
       rw [hrl]
       dsimp only
       simp [derivative_sum, gen_binary_op, AutoDiff.add_to_mir, pushesR, rlen])
  · intro f st st1 st2 u e l r y opsp sp dl hnd hrr hrl
    cases dl <;>
      (simp only [diff]
       rw [hnd]
       simp only [intGo]
       rw [hrr]
       dsimp only
       simp only [AutoDiff.add_to_mir, gen_constant, gen_binary_op, pushesR, rlen,
         List.append_assoc, List.cons_append, List.nil_append, List.length_append,
         List.length_cons, List.length_nil, Nat.add_zero, Nat.zero_add] at hrl ⊢
       rw [hrl]
       dsimp only
       simp [derivative_sum, gen_binary_op, AutoDiff.add_to_mir, pushesR, rlen,
         List.append_assoc])

/-- C7 witness: differentiating `param << 3` w.r.t. the parameter — the
right operand's derivative is `none`, the left one's is the literal `1.0`, so
the result is `D(l) * int2real(l << r)` built from a fresh integer-conversion
node. -/
theorem claim_C7_witness :
    exC7.mir.integer_expressions.getD 2 dfltI =
      ⟨.binaryOperator 0 ⟨.shiftLeft, 92⟩ 1, 93⟩ ∧
    diff 1 exC7 (.parameter 0) (.int 1) = .ok (exC7, none) ∧
    diff 1 exC7 (.parameter 0) (.int 0) =
      .ok (pushesR exC7 [⟨.literal .one, 90⟩], some 0) ∧
    diff 2 exC7 (.parameter 0) (.int 2) =
      .ok (pushesR (pushesR exC7 [⟨.literal .one, 90⟩])
        [⟨.integerConversion 2, 93⟩, ⟨.binaryOperator 0 ⟨.multiply, 93⟩ 1, 93⟩],
        some 2) :=
  ⟨rfl, rfl, rfl,
    claim_C7.1 1 exC7 exC7 (pushesR exC7 [⟨.literal .one, 90⟩]) (.parameter 0)
      2 0 1 92 93 (some 0) rfl rfl rfl⟩

theorem ilen_le_of_grows {s1 s2 : AutoDiff} (g : Grows s1 s2) : ilen s1 ≤ ilen s2 := by
  obtain ⟨_, ⟨t, ht⟩, _, _⟩ := g
  simp [ilen, ht]

theorem igetD_of_grows {s1 s2 : AutoDiff} (g : Grows s1 s2) {i : Nat}
    (hi : i < ilen s1) :
    s2.mir.integer_expressions.getD i dfltI = s1.mir.integer_expressions.getD i dfltI := by
  obtain ⟨_, ⟨t, ht⟩, _, _⟩ := g
  rw [ht]
  exact List.getD_append _ _ _ _ hi

theorem rgetD_of_grows {s1 s2 : AutoDiff} (g : Grows s1 s2) {i : Nat}
    (hi : i < rlen s1) :
    s2.mir.real_expressions.getD i dfltR = s1.mir.real_expressions.getD i dfltR := by
  obtain ⟨⟨t, ht⟩, _, _, _⟩ := g
  rw [ht]
  exact List.getD_append _ _ _ _ hi

/-- C8: if the MIR satisfies the invariant I1 (`Mir.WF`: every id stored in a
node is strictly smaller than the node's own index in its arena, and every
cross-arena id is in range), then whenever `partial_derivative` returns, the
resulting MIR still satisfies I1, the returned id is a valid real-arena id,
and the original arenas are untouched prefixes of the new ones (append-only:
no node is mutated or removed). -/
theorem claim_C8 (fuel : Nat) (st : AutoDiff) (u : Unknown) (x : ExpressionId)
    (st' : AutoDiff) (rr : Nat) (hwf : st.mir.WF)
    (h : st.deriveBy fuel u x = .ok (st', rr)) :
    st'.mir.WF ∧ rr < rlen st' ∧ Grows st st' := by
  obtain ⟨g, w⟩ := deriveBy_keep h
  exact ⟨(w hwf).1, (w hwf).2, g⟩

/-- C8 witness: the example MIR satisfies I1, `partial_derivative` succeeds on
it (derivative of the parameter w.r.t. itself: the literal `1.0` is appended),
and the conclusion of C8 holds for the concrete output. -/
theorem claim_C8_witness :
    exC8.mir.WF ∧
    exC8.deriveBy 1 (.parameter 0) (.real 0) =
      .ok (pushesR exC8 [⟨.literal .one, 70⟩], 1) ∧
    ((pushesR exC8 [⟨.literal .one, 70⟩]).mir.WF ∧
      1 < rlen (pushesR exC8 [⟨.literal .one, 70⟩]) ∧
      Grows exC8 (pushesR exC8 [⟨.literal .one, 70⟩])) :=
  ⟨by simp only [Mir.WF]; decide, rfl,
    claim_C8 1 exC8 (.parameter 0) (.real 0) _ 1 (by simp only [Mir.WF]; decide) rfl⟩

/-- C9 counterexample: the tree of integer expression 3 does contain a
net-reference node (the full-tree scan reports one), yet `partial_derivative`
returns normally — the condition guard is never visited by the
differentiator, so no fatal error is signalled. -/
theorem claim_C9_counterexample :
    scanPN 2 exC9.mir (.int 3) = true ∧
    exC9.deriveBy 2 (.parameter 0) (.integer 3) =
      .ok (pushesR exC9 [⟨.literal .zero, 23⟩], 0) :=
  ⟨rfl, rfl⟩

/-- C9 (amended): if no port- or net-reference occurs anywhere in the tree of
a real or integer input (well-formed MIR, id in range), `partial_derivative`
returns normally with `.ok`; and whenever the traversal actually reaches a
port-reference or net-reference node, it aborts with the fatal internal error
`"Ditigal"`.  (The original claim's converse direction fails: a reference in
a position the differentiator skips — e.g. a condition guard — does not
abort; see the counterexample.) -/
theorem claim_C9_amended :
    (∀ (f : Nat) (st : AutoDiff) (u : Unknown) (e : Nat),
      st.mir.WF → e < rlen st → scanPN f st.mir (.real e) = false →
      ∃ p, st.deriveBy f u (.real e) = .ok p) ∧
    (∀ (f : Nat) (st : AutoDiff) (u : Unknown) (e : Nat),
      st.mir.WF → e < ilen st → scanPN f st.mir (.int e) = false →
      ∃ p, st.deriveBy f u (.integer e) = .ok p) ∧
    (∀ (f : Nat) (st : AutoDiff) (u : Unknown) (e p : Nat) (sp : Span),
      st.mir.integer_expressions.getD e dfltI = ⟨.portReference p, sp⟩ →
      diff (f + 1) st u (.int e) = .error "Ditigal") ∧
    (∀ (f : Nat) (st : AutoDiff) (u : Unknown) (e n : Nat) (sp : Span),
      st.mir.integer_expressions.getD e dfltI = ⟨.netReference n, sp⟩ →
      diff (f + 1) st u (.int e) = .error "Ditigal") := by
  refine ⟨?_, ?_, ?_, ?_⟩
  · intro f st u e hwf hv hs
    obtain ⟨⟨st1, o⟩, hp⟩ := scan_ok f u (.real e) st st hwf (Grows.refl st) hv hs
    cases o with
    | none => exact ⟨_, by simp only [AutoDiff.deriveBy]; rw [hp]⟩
    | some r => exact ⟨_, by simp only [AutoDiff.deriveBy]; rw [hp]⟩
  · intro f st u e hwf hv hs
    obtain ⟨⟨st1, o⟩, hp⟩ := scan_ok f u (.int e) st st hwf (Grows.refl st) hv hs
    cases o with
    | none => exact ⟨_, by simp only [AutoDiff.deriveBy]; rw [hp]⟩
    | some r => exact ⟨_, by simp only [AutoDiff.deriveBy]; rw [hp]⟩
  · intro f st u e p sp h
    simp only [diff]
    rw [h]
    simp only [intGo]
  · intro f st u e n sp h
    simp only [diff]
    rw [h]
    simp only [intGo]

/-- C9 witness: on a well-formed scan-clean input the entry point returns
`.ok`. -/
theorem claim_C9_witness :
    (exC9w.mir.WF ∧ 0 < rlen exC9w ∧ scanPN 1 exC9w.mir (.real 0) = false) ∧
    (∃ p, exC9w.deriveBy 1 (.parameter 0) (.real 0) = .ok p) :=
  ⟨⟨by simp only [Mir.WF]; decide, by decide, rfl⟩,
   claim_C9_amended.1 1 exC9w (.parameter 0) 0 (by simp only [Mir.WF]; decide)
     (by decide) rfl⟩

/-- C10: a structural-zero result does not mean the arenas are unchanged.
Whenever a visit of `abs(f)`, `min(a,b)` or `max(a,b)` (real or integer)
returns — with any derivative result, in particular `none` — the synthesized
less-than comparison node sits in the integer arena at the old length (for
real `abs` together with its literal-`0.0` operand in the real arena, for
integer `abs` preceded by its literal-`0` operand), having been appended
before the argument's derivative was computed, so the integer arena has grown
by at least one node (two for integer `abs`). -/
theorem claim_C10 :
    (∀ (f : Nat) (st : AutoDiff) (u : Unknown) (e a : Nat) (sp : Span)
        (st' : AutoDiff) (r : Option Nat),
      st.mir.real_expressions.getD e dfltR = ⟨.builtInFunctionCall1p .abs a, sp⟩ →
      diff (f + 1) st u (.real e) = .ok (st', r) →
      ilen st + 1 ≤ ilen st' ∧
      st'.mir.integer_expressions.getD (ilen st) dfltI =
        ⟨.realComparison a ⟨.lessThen, sp⟩ (rlen st), sp⟩ ∧
      st'.mir.real_expressions.getD (rlen st) dfltR = ⟨.literal .zero, sp⟩) ∧
    (∀ (f : Nat) (st : AutoDiff) (u : Unknown) (e a b : Nat) (sp : Span)
        (st' : AutoDiff) (r : Option Nat),
      st.mir.real_expressions.getD e dfltR = ⟨.builtInFunctionCall2p .min a b, sp⟩ →
      diff (f + 1) st u (.real e) = .ok (st', r) →
      ilen st + 1 ≤ ilen st' ∧
      st'.mir.integer_expressions.getD (ilen st) dfltI =
        ⟨.realComparison a ⟨.lessThen, sp⟩ b, sp⟩) ∧
    (∀ (f : Nat) (st : AutoDiff) (u : Unknown) (e a b : Nat) (sp : Span)
        (st' : AutoDiff) (r : Option Nat),
      st.mir.real_expressions.getD e dfltR = ⟨.builtInFunctionCall2p .max a b, sp⟩ →
      diff (f + 1) st u (.real e) = .ok (st', r) →
      ilen st + 1 ≤ ilen st' ∧
      st'.mir.integer_expressions.getD (ilen st) dfltI =
        ⟨.realComparison b ⟨.lessThen, sp⟩ a, sp⟩) ∧
    (∀ (f : Nat) (st : AutoDiff) (u : Unknown) (e a : Nat) (sp : Span)
        (st' : AutoDiff) (r : Option Nat),
      st.mir.integer_expressions.getD e dfltI = ⟨.abs a, sp⟩ →
      diff (f + 1) st u (.int e) = .ok (st', r) →
      ilen st + 2 ≤ ilen st' ∧
      st'.mir.integer_expressions.getD (ilen st) dfltI = ⟨.literal 0, sp⟩ ∧
      st'.mir.integer_expressions.getD (ilen st + 1) dfltI =
        ⟨.integerComparison a ⟨.lessThen, sp⟩ (ilen st), sp⟩) ∧
    (∀ (f : Nat) (st : AutoDiff) (u : Unknown) (e a b : Nat) (sp : Span)
        (st' : AutoDiff) (r : Option Nat),
      st.mir.integer_expressions.getD e dfltI = ⟨.min a b, sp⟩ →
      diff (f + 1) st u (.int e) = .ok (st', r) →
      ilen st + 1 ≤ ilen st' ∧
      st'.mir.integer_expressions.getD (ilen st) dfltI =
        ⟨.integerComparison a ⟨.lessThen, sp⟩ b, sp⟩) ∧
    (∀ (f : Nat) (st : AutoDiff) (u : Unknown) (e a b : Nat) (sp : Span)
        (st' : AutoDiff) (r : Option Nat),
      st.mir.integer_expressions.getD e dfltI = ⟨.max a b, sp⟩ →
      diff (f + 1) st u (.int e) = .ok (st', r) →
      ilen st + 1 ≤ ilen st' ∧
      st'.mir.integer_expressions.getD (ilen st) dfltI =
        ⟨.integerComparison b ⟨.lessThen, sp⟩ a, sp⟩) := by
  refine ⟨?_, ?_, ?_, ?_, ?_, ?_⟩
  · -- real abs
    intro f st u e a sp st' r hnd h
    simp only [diff] at h
    rw [hnd] at h
    simp only [realGo] at h
    rcases hz : gen_constant st sp FloatLit.zero with ⟨stA, z⟩
    rw [hz] at h
    dsimp only at h
    rcases hc : gen_lt_condition_real stA sp a z with ⟨stB, cond⟩
    rw [hc] at h
    dsimp only at h
    obtain ⟨-, -, hrA, hiA, -⟩ := gen_constant_keep hz
    obtain ⟨-, -, hiB, hrB, -, -⟩ := gen_lt_condition_real_keep hc
    rw [gen_constant] at hz
    obtain ⟨eAr, eAi, -, -, -, -, hzj, -⟩ := add_to_mir_keep hz
    rw [gen_lt_condition_real] at hc
    obtain ⟨eBr, eBi, -, -, -, -, -, -⟩ := add_int_to_mir_keep hc
    subst hzj
    have key : ∀ s2, Grows stB s2 →
        ilen st + 1 ≤ ilen s2 ∧
        s2.mir.integer_expressions.getD (ilen st) dfltI =
          ⟨.realComparison a ⟨.lessThen, sp⟩ (rlen st), sp⟩ ∧
        s2.mir.real_expressions.getD (rlen st) dfltR = ⟨.literal .zero, sp⟩ := by
      intro s2 g
      have hiStB : ilen stB = ilen st + 1 := by rw [hiB, hiA]
      have hrStB : rlen stB = rlen st + 1 := by rw [hrB, hrA]
      refine ⟨?_, ?_, ?_⟩
      · have := ilen_le_of_grows g
        omega
      · rw [igetD_of_grows g (by omega), eBi, eAi]
        exact getD_snoc_self _ _ _
      · rw [rgetD_of_grows g (by omega), eBr, eAr]
        exact getD_snoc_self _ _ _
    rcases hra : diff f stB u (.real a) with m | ⟨st1, o⟩
    · rw [hra] at h
      exact Except.noConfusion h
    · have g1 : Grows stB st1 := (diff_keep _ _ _ _ _ _ hra).1
      cases o with
      | none =>
        rw [hra] at h
        dsimp only at h
        injection h with h1
        injection h1 with ha hb
        subst ha
        exact key st1 g1
      | some d =>
        rw [hra] at h
        dsimp only at h
        rcases hn : gen_neg st1 sp d with ⟨st2, nn⟩
        rw [hn] at h
        dsimp only at h
        rcases hcd : st2.add_to_mir sp (.condition cond nn d) with ⟨st3, rr⟩
        rw [hcd] at h
        dsimp only at h
        injection h with h1
        injection h1 with ha hb
        subst ha
        exact key st3 (g1.trans ((gen_neg_keep hn).1.trans (grows_of_real_push hcd)))
  · -- real min
    intro f st u e a b sp st' r hnd h
    simp only [diff] at h
    rw [hnd] at h
    simp only [realGo] at h
    rcases hc : gen_lt_condition_real st sp a b with ⟨stB, cond⟩
    rw [hc] at h
    dsimp only at h
    obtain ⟨-, -, hiB, -, -, -⟩ := gen_lt_condition_real_keep hc
    rw [gen_lt_condition_real] at hc
    obtain ⟨eBr, eBi, -, -, -, -, -, -⟩ := add_int_to_mir_keep hc
    have key : ∀ s2, Grows stB s2 →
        ilen st + 1 ≤ ilen s2 ∧
        s2.mir.integer_expressions.getD (ilen st) dfltI =
          ⟨.realComparison a ⟨.lessThen, sp⟩ b, sp⟩ := by
      intro s2 g
      have hiStB : ilen stB = ilen st + 1 := by rw [hiB]
      refine ⟨?_, ?_⟩
      · have := ilen_le_of_grows g
        omega
      · rw [igetD_of_grows g (by omega), eBi]
        exact getD_snoc_self _ _ _
    rcases hra : diff f stB u (.real a) with m | ⟨st1, da⟩
    · rw [hra] at h
      exact Except.noConfusion h
    · rw [hra] at h
      dsimp only at h
      rcases hrb : diff f st1 u (.real b) with m | ⟨st2, db⟩
      · rw [hrb] at h
        exact Except.noConfusion h
      · rw [hrb] at h
        dsimp only at h
        rcases hct : condTail st2 sp cond da db with ⟨st3, o⟩
        rw [hct] at h
        injection h with h1
        injection h1 with ha hb'
        subst ha
        exact key st3 (((diff_keep _ _ _ _ _ _ hra).1.trans
          (diff_keep _ _ _ _ _ _ hrb).1).trans (condTail_keep hct).1)
  · -- real max
    intro f st u e a b sp st' r hnd h
    simp only [diff] at h
    rw [hnd] at h
    simp only [realGo] at h
    rcases hc : gen_lt_condition_real st sp b a with ⟨stB, cond⟩
    rw [hc] at h
    dsimp only at h
    obtain ⟨-, -, hiB, -, -, -⟩ := gen_lt_condition_real_keep hc
    rw [gen_lt_condition_real] at hc
    obtain ⟨eBr, eBi, -, -, -, -, -, -⟩ := add_int_to_mir_keep hc
    have key : ∀ s2, Grows stB s2 →
        ilen st + 1 ≤ ilen s2 ∧
        s2.mir.integer_expressions.getD (ilen st) dfltI =
          ⟨.realComparison b ⟨.lessThen, sp⟩ a, sp⟩ := by
      intro s2 g
      have hiStB : ilen stB = ilen st + 1 := by rw [hiB]
      refine ⟨?_, ?_⟩
      · have := ilen_le_of_grows g
        omega
      · rw [igetD_of_grows g (by omega), eBi]
        exact getD_snoc_self _ _ _
    rcases hra : diff f stB u (.real a) with m | ⟨st1, da⟩
    · rw [hra] at h
      exact Except.noConfusion h
    · rw [hra] at h
      dsimp only at h
      rcases hrb : diff f st1 u (.real b) with m | ⟨st2, db⟩
      · rw [hrb] at h
        exact Except.noConfusion h
      · rw [hrb] at h
        dsimp only at h
        rcases hct : condTail st2 sp cond da db with ⟨st3, o⟩
        rw [hct] at h
        injection h with h1
        injection h1 with ha hb'
        subst ha
        exact key st3 (((diff_keep _ _ _ _ _ _ hra).1.trans
          (diff_keep _ _ _ _ _ _ hrb).1).trans (condTail_keep hct).1)
  · -- integer abs
    intro f st u e a sp st' r hnd h
    simp only [diff] at h
    rw [hnd] at h
    simp only [intGo] at h
    rcases hz : gen_int_constant st sp 0 with ⟨stA, z⟩
    rw [hz] at h
    dsimp only at h
    rcases hc : gen_lt_condition_int stA sp a z with ⟨stB, cond⟩
    rw [hc] at h
    dsimp only at h
    obtain ⟨-, -, hiA, hrA, -⟩ := gen_int_constant_keep hz
    obtain ⟨-, -, hiB, hrB, -, -⟩ := gen_lt_condition_int_keep hc
    rw [gen_int_constant] at hz
    obtain ⟨eAr, eAi, -, -, -, -, hzj, -⟩ := add_int_to_mir_keep hz
    rw [gen_lt_condition_int] at hc
    obtain ⟨eBr, eBi, -, -, -, -, -, -⟩ := add_int_to_mir_keep hc
    subst hzj
    have hlenA : (st.mir.integer_expressions ++
        [(⟨.literal 0, sp⟩ : Node IntegerExpression)]).length = ilen st + 1 := by
      simp [ilen]
    have key : ∀ s2, Grows stB s2 →
        ilen st + 2 ≤ ilen s2 ∧
        s2.mir.integer_expressions.getD (ilen st) dfltI = ⟨.literal 0, sp⟩ ∧
        s2.mir.integer_expressions.getD (ilen st + 1) dfltI =
          ⟨.integerComparison a ⟨.lessThen, sp⟩ (ilen st), sp⟩ := by
      intro s2 g
      have hiStB : ilen stB = ilen st + 2 := by rw [hiB, hiA]
      refine ⟨?_, ?_, ?_⟩
      · have := ilen_le_of_grows g
        omega
      · rw [igetD_of_grows g (by omega), eBi, eAi]
        rw [getD_snoc_lt _ _ _ (by rw [hlenA]; omega)]
        exact getD_snoc_self _ _ _
      · rw [igetD_of_grows g (by omega), eBi, eAi]
        rw [← hlenA]
        exact getD_snoc_self _ _ _
    rcases hra : diff f stB u (.int a) with m | ⟨st1, o⟩
    · rw [hra] at h
      exact Except.noConfusion h
    · have g1 : Grows stB st1 := (diff_keep _ _ _ _ _ _ hra).1
      cases o with
      | none =>
        rw [hra] at h
        dsimp only at h
        injection h with h1
        injection h1 with ha hb
        subst ha
        exact key st1 g1
      | some d =>
        rw [hra] at h
        dsimp only at h
        rcases hn : gen_neg st1 sp d with ⟨st2, nn⟩
        rw [hn] at h
        dsimp only at h
        rcases hcd : st2.add_to_mir sp (.condition cond nn d) with ⟨st3, rr⟩
        rw [hcd] at h
        dsimp only at h
        injection h with h1
        injection h1 with ha hb
        subst ha
        exact key st3 (g1.trans ((gen_neg_keep hn).1.trans (grows_of_real_push hcd)))
  · -- integer min
    intro f st u e a b sp st' r hnd h
    simp only [diff] at h
    rw [hnd] at h
    simp only [intGo] at h
    rcases hc : gen_lt_condition_int st sp a b with ⟨stB, cond⟩
    rw [hc] at h
    dsimp only at h
    obtain ⟨-, -, hiB, -, -, -⟩ := gen_lt_condition_int_keep hc
    rw [gen_lt_condition_int] at hc
    obtain ⟨eBr, eBi, -, -, -, -, -, -⟩ := add_int_to_mir_keep hc
    have key : ∀ s2, Grows stB s2 →
        ilen st + 1 ≤ ilen s2 ∧
        s2.mir.integer_expressions.getD (ilen st) dfltI =
          ⟨.integerComparison a ⟨.lessThen, sp⟩ b, sp⟩ := by
      intro s2 g
      have hiStB : ilen stB = ilen st + 1 := by rw [hiB]
      refine ⟨?_, ?_⟩
      · have := ilen_le_of_grows g
        omega
      · rw [igetD_of_grows g (by omega), eBi]
        exact getD_snoc_self _ _ _
    rcases hra : diff f stB u (.int a) with m | ⟨st1, da⟩
    · rw [hra] at h
      exact Except.noConfusion h
    · rw [hra] at h
      dsimp only at h
      rcases hrb : diff f st1 u (.int b) with m | ⟨st2, db⟩
      · rw [hrb] at h
        exact Except.noConfusion h
      · rw [hrb] at h
        dsimp only at h
        rcases hct : condTail st2 sp cond da db with ⟨st3, o⟩
        rw [hct] at h
        injection h with h1
        injection h1 with ha hb'
        subst ha
        exact key st3 (((diff_keep _ _ _ _ _ _ hra).1.trans
          (diff_keep _ _ _ _ _ _ hrb).1).trans (condTail_keep hct).1)
  · -- integer max
    intro f st u e a b sp st' r hnd h
    simp only [diff] at h
    rw [hnd] at h
    simp only [intGo] at h
    rcases hc : gen_lt_condition_int st sp b a with ⟨stB, cond⟩
    rw [hc] at h
    dsimp only at h
    obtain ⟨-, -, hiB, -, -, -⟩ := gen_lt_condition_int_keep hc
    rw [gen_lt_condition_int] at hc
    obtain ⟨eBr, eBi, -, -, -, -, -, -⟩ := add_int_to_mir_keep hc
    have key : ∀ s2, Grows stB s2 →
        ilen st + 1 ≤ ilen s2 ∧
        s2.mir.integer_expressions.getD (ilen st) dfltI =
          ⟨.integerComparison b ⟨.lessThen, sp⟩ a, sp⟩ := by
      intro s2 g
      have hiStB : ilen stB = ilen st + 1 := by rw [hiB]
      refine ⟨?_, ?_⟩
      · have := ilen_le_of_grows g
        omega
      · rw [igetD_of_grows g (by omega), eBi]
        exact getD_snoc_self _ _ _
    rcases hra : diff f stB u (.int a) with m | ⟨st1, da⟩
    · rw [hra] at h
      exact Except.noConfusion h
    · rw [hra] at h
      dsimp only at h
      rcases hrb : diff f st1 u (.int b) with m | ⟨st2, db⟩
      · rw [hrb] at h
        exact Except.noConfusion h
      · rw [hrb] at h
        dsimp only at h
        rcases hct : condTail st2 sp cond da db with ⟨st3, o⟩
        rw [hct] at h
        injection h with h1
        injection h1 with ha hb'
        subst ha
        exact key st3 (((diff_keep _ _ _ _ _ _ hra).1.trans
          (diff_keep _ _ _ _ _ _ hrb).1).trans (condTail_keep hct).1)

/-- C10 witness: differentiating real `abs` of a literal gives the structural
zero `none`, yet the integer arena has grown by the comparison node and the
real arena by the literal `0.0`. -/
theorem claim_C10_witness :
    exC10.mir.real_expressions.getD 1 dfltR = ⟨.builtInFunctionCall1p .abs 0, 81⟩ ∧
    diff 2 exC10 (.parameter 0) (.real 1) = .ok (exC10r, none) ∧
    (ilen exC10 + 1 ≤ ilen exC10r ∧
     exC10r.mir.integer_expressions.getD (ilen exC10) dfltI =
       ⟨.realComparison 0 ⟨.lessThen, 81⟩ (rlen exC10), 81⟩ ∧
     exC10r.mir.real_expressions.getD (rlen exC10) dfltR = ⟨.literal .zero, 81⟩) :=
  ⟨rfl, rfl, claim_C10.1 1 exC10 (.parameter 0) 1 0 81 exC10r none rfl rfl⟩

end OpenVAF

